import Mathlib

/-!
# DBounce: a debounce / lock-out state machine packed into bit masks

Shallow embedding of `src/DBounce.h` (template class `DBounce<BM_T, N, debounceMS, lockoutMS>`)
and proofs about it.

* Machine integers are natural numbers reduced modulo `2 ^ width` wherever the C++ code
  stores into a fixed-width type.
* The class exists in two variants selected by the preprocessor symbol `__DBNC_REGISTER_SIZE`:
  the *narrow* one (8/16-bit remaining-time counters plus `m_now`) and the *wide* one
  (32-bit absolute deadlines).  Both are embedded; `Config.narrow` selects the variant.
* The environment (`millis()`, `digitalRead(pins[i])`) is an explicit input of every call.
-/

namespace DBounce

/-! ## Configuration (template and preprocessor parameters) -/

/-- Compile-time parameters of one instantiation of the class. -/
structure Config where
  /-- bit width of `BM_T` / `bitmask_t` (8, 16, 32 or 64) -/
  W : Nat
  /-- template parameter `N`, the number of inputs -/
  N : Nat
  /-- template parameter `debounceMS` -/
  debounceMS : Nat
  /-- template parameter `lockoutMS` -/
  lockoutMS : Nat
  /-- preprocessor symbol `__DBNC_REGISTER_SIZE` -/
  registerSize : Nat
deriving DecidableEq

/-- The `#if __DBNC_REGISTER_SIZE < 32` test that selects the narrow `setup`/`update`. -/
def Config.narrow (c : Config) : Bool := decide (c.registerSize < 32)

/-- Bit width of `timing_t`: `uint8_t`, `uint16_t` or `uint32_t` (lines 51-61). -/
def Config.timingBits (c : Config) : Nat :=
  if c.registerSize ≤ 8 then 8 else if c.registerSize ≤ 16 then 16 else 32

/-- The constant `__DBNC_TIMING_MAX` (`UINT8_MAX` / `UINT16_MAX`), i.e. the largest `timing_t`.
The source defines the macro only for register sizes up to 16; for the other sizes the
largest value of `timing_t` is used here. -/
def Config.timingMax (c : Config) : Nat := 2 ^ c.timingBits - 1

/-- Conversion of a value to `timing_t` on assignment. -/
def Config.toTiming (c : Config) (x : Nat) : Nat := x % 2 ^ c.timingBits

/-! ## Integer expressions used on the masks -/

/-- Conversion of a value to `bitmask_t` on assignment. -/
def toMask (W x : Nat) : Nat := x % 2 ^ W

/-- Value of an `int` (given by its 32-bit two's complement pattern `p`) after the usual
arithmetic conversions against a `bitmask_t` operand of `W` bits: unchanged pattern for
`W ≤ 32`, sign extension for wider masks. -/
def signExtend (W p : Nat) : Nat :=
  if W ≤ 32 then p else if 2 ^ 31 ≤ p then p + (2 ^ W - 2 ^ 32) else p

/-- The `int` expression `1 << i` (32-bit `int`), as an operand against a `bitmask_t`.
For `i ≥ 32` the C++ expression is undefined; the model takes the shift count modulo 32
as the common hardware does. -/
def shl1 (W i : Nat) : Nat := signExtend W (2 ^ (i % 32))

/-- The `int` expression `~(1 << i)`, as an operand against a `bitmask_t`. -/
def notShl1 (W i : Nat) : Nat := signExtend W (2 ^ 32 - 1 - 2 ^ (i % 32))

/-- Width in which an expression on `bitmask_t` operands is evaluated (integer promotion
to `int` for the masks narrower than `int`). -/
def opBits (W : Nat) : Nat := max W 32

/-- The expression `(bitmask_t)1u << idx` of the accessors. -/
def castShl (W idx : Nat) : Nat := 2 ^ idx % 2 ^ opBits W

/-- The expression `~m` for a `bitmask_t` value `m`. -/
def maskNot (W m : Nat) : Nat := 2 ^ opBits W - 1 - m % 2 ^ opBits W

/-- Unsigned 32-bit subtraction `a - b`. -/
def sub32 (a b : Nat) : Nat := (a + 2 ^ 32 - b % 2 ^ 32) % 2 ^ 32

/-- Unsigned 32-bit addition `a + b`. -/
def add32 (a b : Nat) : Nat := (a + b) % 2 ^ 32

/-! ## Object state -/

/-- Data members of the class.  `m_now` exists only in the narrow variant; the wide variant
never reads or writes it. -/
structure State where
  m_now : Nat
  timestamp : List Nat
  m_state : Nat
  m_change : Nat
  m_lock : Nat
deriving DecidableEq

/-- What the environment returns during one call: the value of `millis()` and the value of
`digitalRead(pins[i])` for each channel index `i`. -/
structure Tick where
  millis : Nat
  digitalRead : Nat → Bool

/-- Read `timestamp[i]`. -/
def State.ts (s : State) (i : Nat) : Nat := s.timestamp.getD i 0

/-- Write `timestamp[i] = v`. -/
def State.setTs (s : State) (i v : Nat) : State := { s with timestamp := s.timestamp.set i v }

/-- The test `m_lock & (1<<i)`. -/
def State.locked (c : Config) (s : State) (i : Nat) : Bool :=
  decide (s.m_lock &&& shl1 c.W i ≠ 0)

/-- The expression `(m_state & (1<<i)) != 0`. -/
def State.level (c : Config) (s : State) (i : Nat) : Bool :=
  decide (s.m_state &&& shl1 c.W i ≠ 0)

/-- The constructor (lines 79-82): the three masks are zeroed, `timestamp` and `m_now` keep
whatever the memory `mem` held. -/
def construct (mem : State) : State :=
  { mem with m_state := 0, m_change := 0, m_lock := 0 }

/-! ## setup() -/

/-- Body of the loop of `setup()` (lines 102-108); `t` is the value stored into
`timestamp[i]`. -/
def setupChannel (c : Config) (t : Nat) (env : Tick) (s : State) (i : Nat) : State :=
  let s := s.setTs i t
  if env.digitalRead i then { s with m_state := toMask c.W (s.m_state ||| shl1 c.W i) } else s

/-- The member function `setup()` (lines 92-110). -/
def setup (c : Config) (env : Tick) (s : State) : State :=
  if c.narrow then
    let s := { s with m_now := env.millis }
    (List.range c.N).foldl (setupChannel c (c.toTiming c.debounceMS) env) s
  else
    let now := add32 env.millis c.debounceMS
    (List.range c.N).foldl (setupChannel c now env) s

/-! ## update(), narrow variant -/

/-- Lines 136-142: the saturating decrement of `timestamp[i]` by `tdiff`. -/
def narrowDecrement (tdiff : Nat) (s : State) (i : Nat) : State :=
  if tdiff ≠ 0 then
    if tdiff ≤ s.ts i then s.setTs i (s.ts i - tdiff) else s.setTs i 0
  else s

/-- Lines 144-149: the lock-out block.  The flag is `true` when `continue` is taken. -/
def narrowLock (c : Config) (s : State) (i : Nat) : State × Bool :=
  if s.locked c i then
    if s.ts i ≠ 0 then (s, true)
    else
      let s := s.setTs i (c.toTiming c.debounceMS)
      ({ s with m_lock := toMask c.W (s.m_lock &&& notShl1 c.W i) }, false)
  else (s, false)

/-- Lines 151-158: the level check. -/
def narrowLevel (c : Config) (env : Tick) (s : State) (i : Nat) : State :=
  if env.digitalRead i != s.level c i then
    if s.ts i ≠ 0 then s
    else
      let s := s.setTs i (c.toTiming c.lockoutMS)
      { s with m_change := toMask c.W (s.m_change ||| shl1 c.W i) }
  else s.setTs i (c.toTiming c.debounceMS)

/-- Body of the loop of the narrow `update()` (lines 136-158). -/
def narrowChannel (c : Config) (tdiff : Nat) (env : Tick) (s : State) (i : Nat) : State :=
  let r := narrowLock c (narrowDecrement tdiff s i) i
  if r.2 then r.1 else narrowLevel c env r.1 i

/-- Lines 126-132: the clamped elapsed time `tdiff`. -/
def elapsed (c : Config) (m_now now : Nat) : Nat :=
  if now ≠ m_now then
    let diff := sub32 now m_now
    if diff > c.timingMax then c.timingMax else diff
  else 0

/-- Lines 161-163: `m_state ^= m_change; m_lock |= m_change;`. -/
def applyChange (c : Config) (s : State) : State :=
  let s := { s with m_state := toMask c.W (s.m_state ^^^ s.m_change) }
  { s with m_lock := toMask c.W (s.m_lock ||| s.m_change) }

/-- The narrow `update()` (lines 122-164). -/
def updateNarrow (c : Config) (env : Tick) (s : State) : State :=
  let s := { s with m_change := 0 }
  let now := env.millis
  let tdiff := elapsed c s.m_now now
  let s := if now ≠ s.m_now then { s with m_now := now } else s
  let s := (List.range c.N).foldl (narrowChannel c tdiff env) s
  applyChange c s

/-! ## update(), wide variant -/

/-- Lines 173-177: the lock-out block.  The flag is `true` when `continue` is taken. -/
def wideLock (c : Config) (now : Nat) (s : State) (i : Nat) : State × Bool :=
  if s.locked c i then
    if now < s.ts i then (s, true)
    else
      let s := s.setTs i (add32 now c.debounceMS)
      ({ s with m_lock := toMask c.W (s.m_lock &&& notShl1 c.W i) }, false)
  else (s, false)

/-- Lines 179-187: the level check. -/
def wideLevel (c : Config) (now : Nat) (env : Tick) (s : State) (i : Nat) : State :=
  if env.digitalRead i != s.level c i then
    if s.ts i > now then s
    else
      let s := s.setTs i (add32 now c.lockoutMS)
      { s with m_change := toMask c.W (s.m_change ||| shl1 c.W i) }
  else s.setTs i (add32 now c.debounceMS)

/-- Body of the loop of the wide `update()` (lines 173-187). -/
def wideChannel (c : Config) (now : Nat) (env : Tick) (s : State) (i : Nat) : State :=
  let r := wideLock c now s i
  if r.2 then r.1 else wideLevel c now env r.1 i

/-- The wide `update()` (lines 168-193). -/
def updateWide (c : Config) (env : Tick) (s : State) : State :=
  let s := { s with m_change := 0 }
  let now := env.millis
  let s := (List.range c.N).foldl (wideChannel c now env) s
  applyChange c s

/-- The member function `update()`: the variant is selected at compile time. -/
def update (c : Config) (env : Tick) (s : State) : State :=
  if c.narrow then updateNarrow c env s else updateWide c env s

/-- The object when the loop of the narrow `update()` starts (lines 123-132): `m_change` is
zeroed and `m_now` holds the new clock reading. -/
def narrowStart (env : Tick) (s : State) : State :=
  let s := { s with m_change := 0 }
  if env.millis ≠ s.m_now then { s with m_now := env.millis } else s

/-- The object at the entry of iteration `i` of the loop of `update()`: iterations
`0, …, i-1` have run. -/
def loopEntry (c : Config) (env : Tick) (s : State) (i : Nat) : State :=
  if c.narrow then
    (List.range i).foldl (narrowChannel c (elapsed c s.m_now env.millis) env) (narrowStart env s)
  else
    (List.range i).foldl (wideChannel c env.millis env) { s with m_change := 0 }

/-- The lock-out block of iteration `i` of `update()` (lines 136-149 / 173-177): the object it
leaves and whether it ends the iteration with `continue`. -/
def lockBlock (c : Config) (env : Tick) (s : State) (i : Nat) : State × Bool :=
  if c.narrow then
    narrowLock c (narrowDecrement (elapsed c s.m_now env.millis) (loopEntry c env s i) i) i
  else
    wideLock c env.millis (loopEntry c env s i) i

/-- A sequence of `update()` calls, one per element of `ticks`, oldest first. -/
def run (c : Config) (s : State) (ticks : List Tick) : State :=
  ticks.foldl (fun s env => update c env s) s

/-! ## Accessors -/

/-- Indexed `rose(idx)` (line 206). -/
def rose (c : Config) (s : State) (idx : Nat) : Bool :=
  decide (s.m_state &&& s.m_change &&& castShl c.W idx ≠ 0)

/-- Indexed `fell(idx)` (line 218). -/
def fell (c : Config) (s : State) (idx : Nat) : Bool :=
  decide (maskNot c.W s.m_state &&& s.m_change &&& castShl c.W idx ≠ 0)

/-- Indexed `change(idx)` (line 230). -/
def change (c : Config) (s : State) (idx : Nat) : Bool :=
  decide (s.m_change &&& castShl c.W idx ≠ 0)

/-- Indexed `read(idx)` (line 243). -/
def read (c : Config) (s : State) (idx : Nat) : Bool :=
  decide (s.m_state &&& castShl c.W idx ≠ 0)

/-- Aggregate `read()` (line 247). -/
def readAll (s : State) : Nat := s.m_state

/-- Aggregate `change()` (line 248). -/
def changeAll (s : State) : Nat := s.m_change

/-- Aggregate `rose()` (line 249). -/
def roseAll (c : Config) (s : State) : Nat := toMask c.W (s.m_state &&& s.m_change)

/-- Aggregate `fell()` (line 250). -/
def fellAll (c : Config) (s : State) : Nat := toMask c.W (maskNot c.W s.m_state &&& s.m_change)

/-! ## Per-channel view used in the proofs -/

/-- The part of the object that belongs to one channel: its timer and its bit in each of the
three masks. -/
structure Chan where
  timer : Nat
  state : Bool
  lock : Bool
  change : Bool
deriving DecidableEq

/-- Projection of the object onto channel `i`. -/
def chanOf (s : State) (i : Nat) : Chan :=
  ⟨s.ts i, s.m_state.testBit i, s.m_lock.testBit i, s.m_change.testBit i⟩

/-- One loop iteration seen on the channel it processes.  `pre` is what happens to the timer
before the lock-out block, `blocked` the test that makes the iteration `continue`, `dv` / `lv`
the values stored for a debounce / lock-out window. -/
def chanBody (pre : Nat → Nat) (blocked : Nat → Bool) (dv lv : Nat) (r : Bool) (ch : Chan) :
    Chan :=
  let t1 := pre ch.timer
  if ch.lock && blocked t1 then { ch with timer := t1 }
  else
    let t2 := if ch.lock then dv else t1
    if r != ch.state then
      if blocked t2 then { ch with timer := t2, lock := false }
      else { ch with timer := lv, lock := false, change := true }
    else { ch with timer := dv, lock := false }

/-- The final two statements of `update()` seen on one channel. -/
def chanApply (ch : Chan) : Chan :=
  { ch with state := xor ch.state ch.change, lock := ch.lock || ch.change }

/-- One whole `update()` seen on one channel. -/
def chanUpdate (pre : Nat → Nat) (blocked : Nat → Bool) (dv lv : Nat) (r : Bool) (ch : Chan) :
    Chan :=
  chanApply (chanBody pre blocked dv lv r { ch with change := false })

/-- The narrow `update()` on one channel, `tdiff` being the clamped elapsed time. -/
def chanNarrow (c : Config) (tdiff : Nat) (r : Bool) (ch : Chan) : Chan :=
  chanUpdate (fun t => t - tdiff) (fun t => decide (t ≠ 0))
    (c.toTiming c.debounceMS) (c.toTiming c.lockoutMS) r ch

/-- The wide `update()` on one channel at clock reading `now`. -/
def chanWide (c : Config) (now : Nat) (r : Bool) (ch : Chan) : Chan :=
  chanUpdate id (fun t => decide (now < t))
    (add32 now c.debounceMS) (add32 now c.lockoutMS) r ch

/-- The debounce window as the variant stores it: converted to `timing_t` in the narrow
variant, the plain template parameter in the wide one. -/
def Config.dv (c : Config) : Nat := if c.narrow then c.toTiming c.debounceMS else c.debounceMS

/-- The lock-out window as the variant stores it. -/
def Config.lv (c : Config) : Nat := if c.narrow then c.toTiming c.lockoutMS else c.lockoutMS

/-- Channel `i` with its timer expressed as the time still to wait at clock reading `t`:
the counter itself in the narrow variant, `deadline - t` in the wide one. -/
def viewAt (c : Config) (t : Nat) (s : State) (i : Nat) : Chan :=
  { chanOf s i with timer := if c.narrow then s.ts i else s.ts i - t }

/-- One `update()` on one channel in terms of the time still to wait; `e` is the time elapsed
since the previous call. -/
def chanStep (dv lv e : Nat) (r : Bool) (ch : Chan) : Chan :=
  chanUpdate (fun t => t - e) (fun t => decide (t ≠ 0)) dv lv r ch

/-- Bookkeeping that lets the narrow variant be followed over time: the array has `N` entries,
`m_now` is the previous clock reading `t` and the counter of channel `i` fits `timing_t`. -/
def Tracked (c : Config) (t : Nat) (s : State) (i : Nat) : Prop :=
  s.timestamp.length = c.N ∧ (c.narrow = true → s.m_now = t ∧ s.ts i ≤ c.timingMax)

/-- Clock reading of the last call of a run that starts after a call at reading `t0`. -/
def lastMillis : Nat → List Tick → Nat
  | t0, [] => t0
  | _, e :: l => lastMillis e.millis l

/-- The clock readings `t0`, then those of `ticks` in order, never decrease. -/
def NonDecreasing (t0 : Nat) (ticks : List Tick) : Prop :=
  List.Pairwise (fun a b => a ≤ b) (t0 :: ticks.map Tick.millis)

instance (t0 : Nat) (ticks : List Tick) : Decidable (NonDecreasing t0 ticks) := by
  unfold NonDecreasing; infer_instance

/-- No clock reading of `ticks` plus an interval exceeds `2^32 - 1`. -/
def NoOverflow (c : Config) (ticks : List Tick) : Prop :=
  ∀ e ∈ ticks, e.millis + c.debounceMS < 2 ^ 32 ∧ e.millis + c.lockoutMS < 2 ^ 32

instance (c : Config) (ticks : List Tick) : Decidable (NoOverflow c ticks) := by
  unfold NoOverflow; infer_instance

/-- The object `s` is the result of a call at `env0` (either `setup()` on a fresh object or an
`update()`) after which channel `i` is not locked and the raw level read agrees with the state
bit: the call has refreshed the debounce timer of channel `i`. -/
def RefreshedBy (c : Config) (i : Nat) (env0 : Tick) (s : State) : Prop :=
  (∃ mem : State, mem.timestamp.length = c.N ∧ s = setup c env0 (construct mem)) ∨
  (∃ s0 : State, s0.timestamp.length = c.N ∧ s = update c env0 s0 ∧
    s.locked c i = false ∧ env0.digitalRead i = read c s i)

/-- The three masks of two objects coincide. -/
def SameMasks (a b : State) : Prop :=
  a.m_state = b.m_state ∧ a.m_change = b.m_change ∧ a.m_lock = b.m_lock

/-- Correspondence between a narrow object `a` and a wide object `b` after a call at clock
reading `t`: same masks, `m_now = t`, and every narrow counter is the wide deadline minus `t`
(cut off at 0) and fits the counter type, whose largest value is `m`. -/
def Corresponds (n m t : Nat) (a b : State) : Prop :=
  SameMasks a b ∧ a.m_now = t ∧ a.timestamp.length = n ∧ b.timestamp.length = n ∧
  ∀ j, j < n → a.ts j = b.ts j - t ∧ a.ts j ≤ m

/-- A run of `chanStep`s: `t` is the clock reading of the previous call, each element of the
list the clock reading and the raw level of one call. -/
def chanRun (dv lv : Nat) : Nat → Chan → List (Nat × Bool) → Chan
  | _, ch, [] => ch
  | t, ch, e :: l => chanRun dv lv e.1 (chanStep dv lv (e.1 - t) e.2 ch) l

/-- The call at clock reading `k` of the bounce example: channel 0 reads high, low, high, low
at readings 1 to 4 and high from reading 5 to reading 24; from reading 25 on its level is the
arbitrary `g k`; channel 1 stays low. -/
def demoTick (g : Nat → Bool) (k : Nat) : Tick :=
  ⟨k, fun ch =>
    if ch = 0 then (if k ≤ 24 then decide (k = 1 ∨ k = 3 ∨ 5 ≤ k) else g k) else false⟩

/-- The bounce example: `count` calls, one per millisecond, at clock readings `first`,
`first + 1`, … -/
def demoTicks (g : Nat → Bool) : Nat → Nat → List Tick
  | _, 0 => []
  | first, count + 1 => demoTick g first :: demoTicks g (first + 1) count

/-- The call `e` with the constant `k` added to its clock reading, modulo `2^32`. -/
def shiftTick (k : Nat) (e : Tick) : Tick := ⟨add32 e.millis k, e.digitalRead⟩


/-! # Proofs -/

/-! ## Bit-level facts about the mask expressions -/

theorem and_two_pow_ne_zero (m i : Nat) : (m &&& 2 ^ i ≠ 0) ↔ m.testBit i = true := by
  rw [Nat.and_two_pow]
  cases h : m.testBit i <;> simp

theorem shl1_eq {W i : Nat} (hW : W ≤ 32) (hi : i < 32) : shl1 W i = 2 ^ i := by
  simp [shl1, signExtend, hW, Nat.mod_eq_of_lt hi]

theorem notShl1_eq {W i : Nat} (hW : W ≤ 32) (hi : i < 32) :
    notShl1 W i = 2 ^ 32 - 1 - 2 ^ i := by
  simp [notShl1, signExtend, hW, Nat.mod_eq_of_lt hi]

theorem testBit_not_two_pow {i : Nat} (hi : i < 32) (j : Nat) :
    (2 ^ 32 - 1 - 2 ^ i).testBit j = (decide (j < 32) && !decide (i = j)) := by
  have h : 2 ^ i < 2 ^ 32 := Nat.pow_lt_pow_right (by norm_num) hi
  rw [Nat.sub_sub, Nat.add_comm 1, Nat.testBit_two_pow_sub_succ h j, Nat.testBit_two_pow]

theorem castShl_eq {W idx : Nat} (h : idx < opBits W) : castShl W idx = 2 ^ idx := by
  unfold castShl
  exact Nat.mod_eq_of_lt (Nat.pow_lt_pow_right (by norm_num) h)

theorem lt_opBits {W idx : Nat} (h : idx < W) : idx < opBits W :=
  lt_of_lt_of_le h (le_max_left _ _)

theorem locked_eq {c : Config} (s : State) {i : Nat} (hW : c.W ≤ 32) (hi : i < 32) :
    s.locked c i = s.m_lock.testBit i := by
  unfold State.locked
  rw [shl1_eq hW hi]
  cases h : s.m_lock.testBit i
  · have := (and_two_pow_ne_zero s.m_lock i).not.mpr (by simp [h])
    simpa using this
  · have := (and_two_pow_ne_zero s.m_lock i).mpr h
    simpa using this

theorem level_eq {c : Config} (s : State) {i : Nat} (hW : c.W ≤ 32) (hi : i < 32) :
    s.level c i = s.m_state.testBit i := by
  unfold State.level
  rw [shl1_eq hW hi]
  cases h : s.m_state.testBit i
  · have := (and_two_pow_ne_zero s.m_state i).not.mpr (by simp [h])
    simpa using this
  · have := (and_two_pow_ne_zero s.m_state i).mpr h
    simpa using this

theorem testBit_setBit {W i : Nat} (m : Nat) (hW : W ≤ 32) (hi : i < 32) {j : Nat}
    (hj : j < W) : (toMask W (m ||| shl1 W i)).testBit j = (m.testBit j || decide (i = j)) := by
  rw [shl1_eq hW hi]
  simp [toMask, Nat.testBit_mod_two_pow, hj, Nat.testBit_two_pow]

theorem testBit_clearBit {W i : Nat} (m : Nat) (hW : W ≤ 32) (hi : i < 32) {j : Nat}
    (hj : j < W) :
    (toMask W (m &&& notShl1 W i)).testBit j = (m.testBit j && !decide (i = j)) := by
  rw [notShl1_eq hW hi]
  have hj32 : j < 32 := lt_of_lt_of_le hj hW
  simp only [toMask, Nat.testBit_mod_two_pow, Nat.testBit_and, testBit_not_two_pow hi]
  simp [hj, hj32]

theorem ts_setTs (s : State) (i v j : Nat) (hi : i < s.timestamp.length) :
    (s.setTs i v).ts j = if i = j then v else s.ts j := by
  simp only [State.ts, State.setTs, List.getD_eq_getElem?_getD, List.getElem?_set, hi]
  split <;> simp


/-! ## One loop iteration, projected onto a channel -/

theorem setTs_length (s : State) (i v : Nat) :
    (s.setTs i v).timestamp.length = s.timestamp.length := by
  simp [State.setTs]

theorem narrowChannel_length (c : Config) (tdiff : Nat) (env : Tick) (s : State) (i : Nat) :
    (narrowChannel c tdiff env s i).timestamp.length = s.timestamp.length := by
  unfold narrowChannel narrowLock narrowLevel narrowDecrement
  dsimp only
  split_ifs <;> simp [State.setTs]

theorem wideChannel_length (c : Config) (now : Nat) (env : Tick) (s : State) (i : Nat) :
    (wideChannel c now env s i).timestamp.length = s.timestamp.length := by
  unfold wideChannel wideLock wideLevel
  dsimp only
  split_ifs <;> simp [State.setTs]

theorem narrowChannel_m_now (c : Config) (tdiff : Nat) (env : Tick) (s : State) (i : Nat) :
    (narrowChannel c tdiff env s i).m_now = s.m_now := by
  unfold narrowChannel narrowLock narrowLevel narrowDecrement
  dsimp only
  split_ifs <;> simp [State.setTs]

theorem narrowDecrement_ts (tdiff : Nat) (s : State) (i j : Nat) (hi : i < s.timestamp.length) :
    (narrowDecrement tdiff s i).ts j = if i = j then s.ts i - tdiff else s.ts j := by
  unfold narrowDecrement
  split_ifs with h1 h2 h3 h3 h3
  all_goals simp_all [ts_setTs]
  all_goals omega

theorem chanOf_narrowChannel_same (c : Config) (tdiff : Nat) (env : Tick) (s : State)
    {i : Nat} (hW : c.W ≤ 32) (hi : i < c.W) (hlen : i < s.timestamp.length) :
    chanOf (narrowChannel c tdiff env s i) i
      = chanBody (fun t => t - tdiff) (fun t => decide (t ≠ 0))
          (c.toTiming c.debounceMS) (c.toTiming c.lockoutMS) (env.digitalRead i)
          (chanOf s i) := by
  have hi32 : i < 32 := lt_of_lt_of_le hi hW
  have hd : (narrowDecrement tdiff s i).timestamp.length = s.timestamp.length := by
    unfold narrowDecrement; split_ifs <;> simp [State.setTs]
  have hdm : (narrowDecrement tdiff s i).m_lock = s.m_lock ∧
      (narrowDecrement tdiff s i).m_state = s.m_state ∧
      (narrowDecrement tdiff s i).m_change = s.m_change := by
    unfold narrowDecrement; split_ifs <;> simp [State.setTs]
  have hdt := narrowDecrement_ts tdiff s i i hlen
  simp only [if_true] at hdt
  unfold narrowChannel
  generalize narrowDecrement tdiff s i = d at hd hdm hdt ⊢
  obtain ⟨hl, hs, hc⟩ := hdm
  have hlen' : i < d.timestamp.length := by omega
  unfold narrowLock narrowLevel chanBody chanOf
  simp only [locked_eq _ hW hi32, level_eq _ hW hi32]
  cases hlk : s.m_lock.testBit i <;> cases hst : s.m_state.testBit i <;>
    cases hr : env.digitalRead i <;> by_cases ht : s.ts i - tdiff = 0 <;>
    by_cases hD0 : c.toTiming c.debounceMS = 0 <;>
    simp_all [State.ts, State.setTs, List.getElem?_set,
      testBit_setBit _ hW hi32 hi, testBit_clearBit _ hW hi32 hi]


theorem chanOf_narrowChannel_other (c : Config) (tdiff : Nat) (env : Tick) (s : State)
    {i j : Nat} (hW : c.W ≤ 32) (hi : i < c.W) (hj : j < c.W) (hne : j ≠ i)
    (hlen : i < s.timestamp.length) :
    chanOf (narrowChannel c tdiff env s i) j = chanOf s j := by
  have hi32 : i < 32 := lt_of_lt_of_le hi hW
  have hne' : i ≠ j := fun h => hne h.symm
  have hd : (narrowDecrement tdiff s i).timestamp.length = s.timestamp.length := by
    unfold narrowDecrement; split_ifs <;> simp [State.setTs]
  have hdm : (narrowDecrement tdiff s i).m_lock = s.m_lock ∧
      (narrowDecrement tdiff s i).m_state = s.m_state ∧
      (narrowDecrement tdiff s i).m_change = s.m_change := by
    unfold narrowDecrement; split_ifs <;> simp [State.setTs]
  have hdt := narrowDecrement_ts tdiff s i j hlen
  simp only [if_neg hne'] at hdt
  unfold narrowChannel
  generalize narrowDecrement tdiff s i = d at hd hdm hdt ⊢
  obtain ⟨hl, hs, hc⟩ := hdm
  have hlen' : i < d.timestamp.length := by omega
  unfold narrowLock narrowLevel chanOf
  dsimp only
  split_ifs <;>
    simp_all [State.ts, State.setTs, List.getElem?_set,
      testBit_setBit _ hW hi32 hj, testBit_clearBit _ hW hi32 hj]

theorem chanOf_wideChannel_same (c : Config) (now : Nat) (env : Tick) (s : State)
    {i : Nat} (hW : c.W ≤ 32) (hi : i < c.W) (hlen : i < s.timestamp.length) :
    chanOf (wideChannel c now env s i) i
      = chanBody id (fun t => decide (now < t))
          (add32 now c.debounceMS) (add32 now c.lockoutMS) (env.digitalRead i)
          (chanOf s i) := by
  have hi32 : i < 32 := lt_of_lt_of_le hi hW
  unfold wideChannel wideLock wideLevel chanBody chanOf
  simp only [locked_eq _ hW hi32, level_eq _ hW hi32]
  cases hlk : s.m_lock.testBit i <;> cases hst : s.m_state.testBit i <;>
    cases hr : env.digitalRead i <;> dsimp only <;>
    simp only [Bool.false_and, Bool.true_and, decide_eq_true_eq, if_true, if_false,
      Bool.false_eq_true, bne_self_eq_false, Bool.true_bne, Bool.false_bne, Bool.not_true,
      Bool.not_false, Bool.bne_true, Bool.bne_false] <;>
    split_ifs <;>
    simp_all [State.ts, State.setTs, List.getElem?_set,
      testBit_setBit _ hW hi32 hi, testBit_clearBit _ hW hi32 hi] <;>
    omega

theorem chanOf_wideChannel_other (c : Config) (now : Nat) (env : Tick) (s : State)
    {i j : Nat} (hW : c.W ≤ 32) (hi : i < c.W) (hj : j < c.W) (hne : j ≠ i) :
    chanOf (wideChannel c now env s i) j = chanOf s j := by
  have hi32 : i < 32 := lt_of_lt_of_le hi hW
  have hne' : i ≠ j := fun h => hne h.symm
  unfold wideChannel wideLock wideLevel chanOf
  dsimp only
  split_ifs <;>
    simp_all [State.ts, State.setTs, List.getElem?_set,
      testBit_setBit _ hW hi32 hj, testBit_clearBit _ hW hi32 hj]

/-! ## The loop over all channels -/

/-- A loop whose iteration `k` acts as `g k` on channel `k` and leaves the other channels
alone acts as `g i` on every channel `i` it visits. -/
theorem chanOf_foldl_range (f : State → Nat → State) (g : Nat → Chan → Chan) (N : Nat)
    (hlen : ∀ s k, (f s k).timestamp.length = s.timestamp.length)
    (hsame : ∀ s k, k < N → s.timestamp.length = N → chanOf (f s k) k = g k (chanOf s k))
    (hother : ∀ s k j, k < N → j < N → j ≠ k → s.timestamp.length = N →
      chanOf (f s k) j = chanOf s j)
    (s : State) (hs : s.timestamp.length = N) :
    ∀ n, n ≤ N → ((List.range n).foldl f s).timestamp.length = N ∧
      ∀ i, i < N → chanOf ((List.range n).foldl f s) i
        = if i < n then g i (chanOf s i) else chanOf s i := by
  intro n
  induction n with
  | zero => intro _; exact ⟨hs, fun i _ => by simp⟩
  | succ n ih =>
    intro hn
    obtain ⟨hl, hc⟩ := ih (Nat.le_of_succ_le hn)
    rw [List.range_succ, List.foldl_append]
    simp only [List.foldl_cons, List.foldl_nil]
    refine ⟨by rw [hlen]; exact hl, fun i hi => ?_⟩
    by_cases hin : i = n
    · subst hin
      rw [hsame _ _ hi hl, hc i hi]
      simp
    · rw [hother _ _ _ (by omega) hi hin hl, hc i hi]
      by_cases h : i < n
      · simp [h, Nat.lt_succ_of_lt h]
      · have : ¬ i < n + 1 := by omega
        simp [h, this]


/-! ## One whole `update()`, projected onto a channel -/

theorem chanOf_applyChange (c : Config) (s : State) {i : Nat} (hi : i < c.W) :
    chanOf (applyChange c s) i = chanApply (chanOf s i) := by
  simp [applyChange, chanApply, chanOf, toMask, Nat.testBit_mod_two_pow, hi, State.ts]

theorem applyChange_length (c : Config) (s : State) :
    (applyChange c s).timestamp.length = s.timestamp.length := rfl

theorem applyChange_m_now (c : Config) (s : State) : (applyChange c s).m_now = s.m_now := rfl

theorem foldl_narrowChannel_m_now (c : Config) (tdiff : Nat) (env : Tick) (l : List Nat) :
    ∀ s : State, (l.foldl (narrowChannel c tdiff env) s).m_now = s.m_now := by
  induction l with
  | nil => intro s; rfl
  | cons k l ih => intro s; rw [List.foldl_cons, ih, narrowChannel_m_now]

theorem updateNarrow_m_now (c : Config) (env : Tick) (s : State) :
    (updateNarrow c env s).m_now = env.millis := by
  unfold updateNarrow
  simp only [applyChange_m_now, foldl_narrowChannel_m_now]
  split_ifs with h
  · rfl
  · exact (not_not.mp h).symm

theorem chanOf_updateNarrow (c : Config) (env : Tick) (s : State) {i : Nat}
    (hi : i < c.N) (hN : c.N ≤ c.W) (hW : c.W ≤ 32) (hlen : s.timestamp.length = c.N) :
    (updateNarrow c env s).timestamp.length = c.N ∧
    chanOf (updateNarrow c env s) i
      = chanNarrow c (elapsed c s.m_now env.millis) (env.digitalRead i) (chanOf s i) := by
  unfold updateNarrow
  dsimp only
  generalize hs1 : (if env.millis ≠ s.m_now then
      ({ m_now := env.millis, timestamp := s.timestamp, m_state := s.m_state,
         m_change := 0, m_lock := s.m_lock } : State)
    else { m_now := s.m_now, timestamp := s.timestamp, m_state := s.m_state,
           m_change := 0, m_lock := s.m_lock }) = s1
  have hlen1 : s1.timestamp.length = c.N := by subst hs1; split_ifs <;> exact hlen
  have hch1 : chanOf s1 i = { chanOf s i with change := false } := by
    subst hs1; split_ifs <;> simp [chanOf, State.ts]
  have key := chanOf_foldl_range (narrowChannel c (elapsed c s.m_now env.millis) env)
    (fun k => chanBody (fun t => t - elapsed c s.m_now env.millis) (fun t => decide (t ≠ 0))
      (c.toTiming c.debounceMS) (c.toTiming c.lockoutMS) (env.digitalRead k)) c.N
    (narrowChannel_length c _ env)
    (fun s k hk hl => chanOf_narrowChannel_same c _ env s hW (lt_of_lt_of_le hk hN)
      (by rw [hl]; exact hk))
    (fun s k j hk hj hne hl => chanOf_narrowChannel_other c _ env s hW (lt_of_lt_of_le hk hN)
      (lt_of_lt_of_le hj hN) hne (by rw [hl]; exact hk))
    s1 hlen1 c.N (le_refl _)
  refine ⟨by rw [applyChange_length]; exact key.1, ?_⟩
  rw [chanOf_applyChange c _ (lt_of_lt_of_le hi hN), key.2 i hi, if_pos hi, hch1]
  rfl

theorem chanOf_updateWide (c : Config) (env : Tick) (s : State) {i : Nat}
    (hi : i < c.N) (hN : c.N ≤ c.W) (hW : c.W ≤ 32) (hlen : s.timestamp.length = c.N) :
    (updateWide c env s).timestamp.length = c.N ∧
    chanOf (updateWide c env s) i = chanWide c env.millis (env.digitalRead i) (chanOf s i) := by
  unfold updateWide
  dsimp only
  have key := chanOf_foldl_range (wideChannel c env.millis env)
    (fun k => chanBody id (fun t => decide (env.millis < t))
      (add32 env.millis c.debounceMS) (add32 env.millis c.lockoutMS) (env.digitalRead k)) c.N
    (wideChannel_length c _ env)
    (fun s k hk hl => chanOf_wideChannel_same c _ env s hW (lt_of_lt_of_le hk hN)
      (by rw [hl]; exact hk))
    (fun s k j hk hj hne _ => chanOf_wideChannel_other c _ env s hW (lt_of_lt_of_le hk hN)
      (lt_of_lt_of_le hj hN) hne)
    { s with m_change := 0 } hlen c.N (le_refl _)
  refine ⟨by rw [applyChange_length]; exact key.1, ?_⟩
  rw [chanOf_applyChange c _ (lt_of_lt_of_le hi hN), key.2 i hi, if_pos hi]
  simp [chanWide, chanUpdate, chanOf, State.ts]

/-! ## Accessors in terms of the channel view -/

theorem change_eq (c : Config) (s : State) {i : Nat} (hi : i < c.W) :
    change c s i = (chanOf s i).change := by
  unfold change chanOf
  rw [castShl_eq (lt_opBits hi)]
  cases h : s.m_change.testBit i
  · have := (and_two_pow_ne_zero s.m_change i).not.mpr (by simp [h])
    simpa using this
  · have := (and_two_pow_ne_zero s.m_change i).mpr h
    simpa using this

theorem read_eq (c : Config) (s : State) {i : Nat} (hi : i < c.W) :
    read c s i = (chanOf s i).state := by
  unfold read chanOf
  rw [castShl_eq (lt_opBits hi)]
  cases h : s.m_state.testBit i
  · have := (and_two_pow_ne_zero s.m_state i).not.mpr (by simp [h])
    simpa using this
  · have := (and_two_pow_ne_zero s.m_state i).mpr h
    simpa using this


/-! ## Both variants as one machine on the time still to wait -/

theorem sub32_eq {a b : Nat} (hb : b ≤ a) (ha : a < 2 ^ 32) : sub32 a b = a - b := by
  unfold sub32
  have hb' : b % 2 ^ 32 = b := Nat.mod_eq_of_lt (lt_of_le_of_lt hb ha)
  rw [hb']
  omega

theorem add32_eq {a b : Nat} (h : a + b < 2 ^ 32) : add32 a b = a + b :=
  Nat.mod_eq_of_lt h

theorem elapsed_eq (c : Config) {t now : Nat} (h : t ≤ now) (hn : now < 2 ^ 32) :
    elapsed c t now = min (now - t) c.timingMax := by
  unfold elapsed
  dsimp only
  rw [sub32_eq h hn]
  split_ifs <;> omega

theorem toTiming_le (c : Config) (x : Nat) : c.toTiming x ≤ c.timingMax := by
  unfold Config.toTiming Config.timingMax
  have : x % 2 ^ c.timingBits < 2 ^ c.timingBits := Nat.mod_lt _ (by positivity)
  omega

theorem toTiming_eq (c : Config) {x : Nat} (h : x ≤ c.timingMax) : c.toTiming x = x := by
  unfold Config.toTiming
  unfold Config.timingMax at h
  have : 0 < 2 ^ c.timingBits := by positivity
  exact Nat.mod_eq_of_lt (by omega)

theorem chanNarrow_eq_chanStep (c : Config) (e : Nat) (r : Bool) (ch : Chan)
    (h : ch.timer ≤ c.timingMax) :
    chanNarrow c (min e c.timingMax) r ch
      = chanStep (c.toTiming c.debounceMS) (c.toTiming c.lockoutMS) e r ch := by
  have hsub : ch.timer - min e c.timingMax = ch.timer - e := by omega
  simp only [chanNarrow, chanStep, chanUpdate, chanBody, hsub]

theorem chanStep_timer_le (dv lv e : Nat) (r : Bool) (ch : Chan) (m : Nat)
    (h : ch.timer ≤ m) (hd : dv ≤ m) (hl : lv ≤ m) : (chanStep dv lv e r ch).timer ≤ m := by
  obtain ⟨timer, state, lock, chg⟩ := ch
  simp only [chanStep, chanUpdate, chanBody, chanApply]
  dsimp only at h
  split_ifs <;> dsimp only <;> omega

theorem chanWide_eq_chanStep (c : Config) (t now : Nat) (r : Bool) (ch : Chan)
    (ht : t ≤ now) (hd : now + c.debounceMS < 2 ^ 32) (hl : now + c.lockoutMS < 2 ^ 32) :
    ({ chanWide c now r ch with timer := (chanWide c now r ch).timer - now } : Chan)
      = chanStep c.debounceMS c.lockoutMS (now - t) r { ch with timer := ch.timer - t } := by
  obtain ⟨timer, state, lock, chg⟩ := ch
  simp only [chanWide, chanStep, chanUpdate, chanBody, chanApply, add32_eq hd, add32_eq hl, id]
  cases lock <;> cases state <;> cases r <;>
    simp only [Bool.false_and, Bool.true_and, decide_eq_true_eq, if_true, if_false,
      Bool.false_eq_true, bne_self_eq_false, Bool.true_bne, Bool.false_bne, Bool.not_true,
      Bool.not_false, Bool.bne_true, Bool.bne_false] <;>
    (try split_ifs) <;> simp <;> omega


theorem viewAt_narrow (c : Config) (t : Nat) (s : State) (i : Nat) (h : c.narrow = true) :
    viewAt c t s i = chanOf s i := by
  simp [viewAt, h, chanOf]

theorem viewAt_wide (c : Config) (t : Nat) (s : State) (i : Nat) (h : c.narrow = false) :
    viewAt c t s i = { chanOf s i with timer := (chanOf s i).timer - t } := by
  simp [viewAt, h, chanOf]

theorem viewAt_state (c : Config) (t : Nat) (s : State) (i : Nat) :
    (viewAt c t s i).state = (chanOf s i).state := rfl

theorem viewAt_lock (c : Config) (t : Nat) (s : State) (i : Nat) :
    (viewAt c t s i).lock = (chanOf s i).lock := rfl

theorem viewAt_change (c : Config) (t : Nat) (s : State) (i : Nat) :
    (viewAt c t s i).change = (chanOf s i).change := rfl

/-- One `update()` of either variant is one `chanStep` on the time still to wait. -/
theorem view_update (c : Config) (env : Tick) (s : State) (t : Nat) {i : Nat}
    (hi : i < c.N) (hN : c.N ≤ c.W) (hW : c.W ≤ 32) (htr : Tracked c t s i)
    (ht : t ≤ env.millis)
    (hov : env.millis + c.debounceMS < 2 ^ 32 ∧ env.millis + c.lockoutMS < 2 ^ 32) :
    Tracked c env.millis (update c env s) i ∧
    viewAt c env.millis (update c env s) i
      = chanStep c.dv c.lv (env.millis - t) (env.digitalRead i) (viewAt c t s i) := by
  obtain ⟨hlen, hnar⟩ := htr
  have hnow : env.millis < 2 ^ 32 := by omega
  cases hc : c.narrow
  · -- wide variant
    have hu : update c env s = updateWide c env s := by simp [update, hc]
    obtain ⟨hl', hch⟩ := chanOf_updateWide c env s hi hN hW hlen
    refine ⟨⟨by rw [hu]; exact hl', by simp [hc]⟩, ?_⟩
    rw [viewAt_wide _ _ _ _ hc, viewAt_wide _ _ _ _ hc, hu, hch]
    simp only [Config.dv, Config.lv, hc]
    exact chanWide_eq_chanStep c t env.millis _ _ ht hov.1 hov.2
  · -- narrow variant
    have hu : update c env s = updateNarrow c env s := by simp [update, hc]
    obtain ⟨hm, hts⟩ := hnar hc
    obtain ⟨hl', hch⟩ := chanOf_updateNarrow c env s hi hN hW hlen
    have hstep : chanOf (updateNarrow c env s) i
        = chanStep (c.toTiming c.debounceMS) (c.toTiming c.lockoutMS) (env.millis - t)
            (env.digitalRead i) (chanOf s i) := by
      rw [hch, hm, elapsed_eq c ht hnow]
      exact chanNarrow_eq_chanStep c _ _ _ hts
    refine ⟨⟨by rw [hu]; exact hl', fun _ => ⟨by rw [hu]; exact updateNarrow_m_now c env s, ?_⟩⟩,
      ?_⟩
    · have : (update c env s).ts i = (chanOf (update c env s) i).timer := rfl
      rw [this, hu, hstep]
      exact chanStep_timer_le _ _ _ _ _ _ hts (toTiming_le c _) (toTiming_le c _)
    · rw [viewAt_narrow _ _ _ _ hc, viewAt_narrow _ _ _ _ hc, hu, hstep]
      simp only [Config.dv, Config.lv, hc, if_true]

/-! ## Runs -/

theorem run_nil (c : Config) (s : State) : run c s [] = s := rfl

theorem run_cons (c : Config) (s : State) (e : Tick) (l : List Tick) :
    run c s (e :: l) = run c (update c e s) l := rfl

theorem run_append (c : Config) (s : State) (l₁ l₂ : List Tick) :
    run c s (l₁ ++ l₂) = run c (run c s l₁) l₂ := by
  simp [run, List.foldl_append]

theorem run_snoc (c : Config) (s : State) (l : List Tick) (e : Tick) :
    run c s (l ++ [e]) = update c e (run c s l) := by
  rw [run_append]; rfl

theorem lastMillis_nil (t0 : Nat) : lastMillis t0 [] = t0 := rfl

theorem lastMillis_cons (t0 : Nat) (e : Tick) (l : List Tick) :
    lastMillis t0 (e :: l) = lastMillis e.millis l := rfl

theorem lastMillis_snoc (t0 : Nat) (l : List Tick) (e : Tick) :
    lastMillis t0 (l ++ [e]) = e.millis := by
  induction l generalizing t0 with
  | nil => rfl
  | cons a l ih => rw [List.cons_append, lastMillis_cons, ih]

theorem lastMillis_mem (t0 : Nat) (l : List Tick) :
    lastMillis t0 l ∈ t0 :: l.map Tick.millis := by
  induction l generalizing t0 with
  | nil => simp [lastMillis]
  | cons a l ih =>
    rw [lastMillis_cons, List.map_cons]
    exact List.mem_cons_of_mem _ (ih a.millis)

theorem nonDecreasing_cons {t0 : Nat} {e : Tick} {l : List Tick}
    (h : NonDecreasing t0 (e :: l)) : t0 ≤ e.millis ∧ NonDecreasing e.millis l := by
  unfold NonDecreasing at h ⊢
  simp only [List.map_cons, List.pairwise_cons] at h ⊢
  exact ⟨h.1 _ (List.mem_cons_self _ _), h.2⟩

theorem nonDecreasing_snoc {t0 : Nat} {l : List Tick} {e : Tick}
    (h : NonDecreasing t0 (l ++ [e])) :
    NonDecreasing t0 l ∧ lastMillis t0 l ≤ e.millis ∧ t0 ≤ e.millis ∧
      ∀ a ∈ l, a.millis ≤ e.millis := by
  unfold NonDecreasing at h ⊢
  rw [List.map_append, ← List.cons_append, List.pairwise_append] at h
  obtain ⟨h1, _, h3⟩ := h
  have hall : ∀ x ∈ t0 :: l.map Tick.millis, x ≤ e.millis :=
    fun x hx => h3 x hx e.millis (by simp)
  refine ⟨h1, hall _ (lastMillis_mem t0 l), hall _ (List.mem_cons_self _ _), fun a ha => ?_⟩
  exact hall _ (List.mem_cons_of_mem _ (List.mem_map_of_mem _ ha))

theorem nonDecreasing_mem {t0 : Nat} {l : List Tick} (h : NonDecreasing t0 l) :
    ∀ a ∈ l, t0 ≤ a.millis := by
  unfold NonDecreasing at h
  rw [List.pairwise_cons] at h
  exact fun a ha => h.1 _ (List.mem_map_of_mem _ ha)

/-- Forward induction along a run: a property of (clock reading of the last call, object)
that every admissible call preserves holds at the end of the run. -/
theorem run_invariant (c : Config) (P : Nat → State → Prop) (Q : Tick → Prop)
    (hstep : ∀ t s env, Q env → t ≤ env.millis → P t s → P env.millis (update c env s)) :
    ∀ (ticks : List Tick) (t : Nat) (s : State), P t s → (∀ e ∈ ticks, Q e) →
      NonDecreasing t ticks → P (lastMillis t ticks) (run c s ticks) := by
  intro ticks
  induction ticks with
  | nil => intro t s h _ _; exact h
  | cons e l ih =>
    intro t s h hq hmono
    obtain ⟨h1, h2⟩ := nonDecreasing_cons hmono
    rw [run_cons, lastMillis_cons]
    exact ih _ _ (hstep t s e (hq e (List.mem_cons_self _ _)) h1 h)
      (fun a ha => hq a (List.mem_cons_of_mem _ ha)) h2


/-! ## setup() -/

theorem setupChannel_length (c : Config) (t : Nat) (env : Tick) (s : State) (i : Nat) :
    (setupChannel c t env s i).timestamp.length = s.timestamp.length := by
  unfold setupChannel
  dsimp only
  split_ifs <;> simp [State.setTs]

theorem chanOf_setupChannel_same (c : Config) (t : Nat) (env : Tick) (s : State)
    {i : Nat} (hW : c.W ≤ 32) (hi : i < c.W) (hlen : i < s.timestamp.length) :
    chanOf (setupChannel c t env s i) i
      = { chanOf s i with timer := t, state := (chanOf s i).state || env.digitalRead i } := by
  have hi32 : i < 32 := lt_of_lt_of_le hi hW
  unfold setupChannel chanOf
  dsimp only
  split_ifs with h <;>
    simp_all [State.ts, State.setTs, List.getElem?_set, testBit_setBit _ hW hi32 hi]

theorem chanOf_setupChannel_other (c : Config) (t : Nat) (env : Tick) (s : State)
    {i j : Nat} (hW : c.W ≤ 32) (hi : i < c.W) (hj : j < c.W) (hne : j ≠ i) :
    chanOf (setupChannel c t env s i) j = chanOf s j := by
  have hi32 : i < 32 := lt_of_lt_of_le hi hW
  have hne' : i ≠ j := fun h => hne h.symm
  unfold setupChannel chanOf
  dsimp only
  split_ifs with h <;>
    simp_all [State.ts, State.setTs, List.getElem?_set, testBit_setBit _ hW hi32 hj]

theorem setupChannel_masks (c : Config) (t : Nat) (env : Tick) (s : State) (i : Nat) :
    (setupChannel c t env s i).m_change = s.m_change ∧
    (setupChannel c t env s i).m_lock = s.m_lock ∧
    (setupChannel c t env s i).m_now = s.m_now := by
  unfold setupChannel
  dsimp only
  split_ifs <;> simp [State.setTs]

theorem foldl_setupChannel_masks (c : Config) (t : Nat) (env : Tick) (l : List Nat) :
    ∀ s : State, (l.foldl (setupChannel c t env) s).m_change = s.m_change ∧
      (l.foldl (setupChannel c t env) s).m_lock = s.m_lock ∧
      (l.foldl (setupChannel c t env) s).m_now = s.m_now := by
  induction l with
  | nil => intro s; exact ⟨rfl, rfl, rfl⟩
  | cons k l ih =>
    intro s
    rw [List.foldl_cons]
    obtain ⟨h1, h2, h3⟩ := ih (setupChannel c t env s k)
    obtain ⟨g1, g2, g3⟩ := setupChannel_masks c t env s k
    exact ⟨h1.trans g1, h2.trans g2, h3.trans g3⟩

theorem setupChannel_high (c : Config) (t : Nat) (env : Tick) (s : State) {i j : Nat}
    (hW : c.W ≤ 32) (hi : i < c.W) (hne : i ≠ j) (h : s.m_state.testBit j = false) :
    (setupChannel c t env s i).m_state.testBit j = false := by
  have hi32 : i < 32 := lt_of_lt_of_le hi hW
  unfold setupChannel
  dsimp only
  split_ifs
  · rw [shl1_eq hW hi32]
    simp [toMask, Nat.testBit_mod_two_pow, Nat.testBit_two_pow, State.setTs, h, hne]
  · simpa [State.setTs] using h

theorem foldl_setupChannel_high (c : Config) (t : Nat) (env : Tick) {j : Nat}
    (hW : c.W ≤ 32) (hN : c.N ≤ c.W) (hj : c.N ≤ j) :
    ∀ n, n ≤ c.N → ∀ s : State, s.m_state.testBit j = false →
      ((List.range n).foldl (setupChannel c t env) s).m_state.testBit j = false := by
  intro n
  induction n with
  | zero => intro _ s h; exact h
  | succ n ih =>
    intro hn s h
    rw [List.range_succ, List.foldl_append]
    simp only [List.foldl_cons, List.foldl_nil]
    exact setupChannel_high c t env _ hW (by omega) (by omega) (ih (by omega) s h)

/-- What `setup()` on a freshly constructed object leaves in channel `i`. -/
theorem chanOf_setup (c : Config) (env : Tick) (mem : State) {i : Nat}
    (hi : i < c.N) (hN : c.N ≤ c.W) (hW : c.W ≤ 32) (hlen : mem.timestamp.length = c.N) :
    (setup c env (construct mem)).timestamp.length = c.N ∧
    chanOf (setup c env (construct mem)) i
      = ⟨if c.narrow then c.toTiming c.debounceMS else add32 env.millis c.debounceMS,
          env.digitalRead i, false, false⟩ := by
  have gen : ∀ (t : Nat) (s : State), s.timestamp.length = c.N →
      s.m_state = 0 → s.m_change = 0 → s.m_lock = 0 →
      ((List.range c.N).foldl (setupChannel c t env) s).timestamp.length = c.N ∧
      chanOf ((List.range c.N).foldl (setupChannel c t env) s) i
        = ⟨t, env.digitalRead i, false, false⟩ := by
    intro t s hl h1 h2 h3
    have key := chanOf_foldl_range (setupChannel c t env)
      (fun k ch => { ch with timer := t, state := ch.state || env.digitalRead k }) c.N
      (setupChannel_length c t env)
      (fun s k hk hl => chanOf_setupChannel_same c t env s hW (lt_of_lt_of_le hk hN)
        (by rw [hl]; exact hk))
      (fun s k j hk hj hne _ => chanOf_setupChannel_other c t env s hW
        (lt_of_lt_of_le hk hN) (lt_of_lt_of_le hj hN) hne)
      s hl c.N (le_refl _)
    refine ⟨key.1, ?_⟩
    rw [key.2 i hi, if_pos hi]
    simp [chanOf, h1, h2, h3]
  unfold setup
  cases hc : c.narrow
  · simpa [hc] using gen (add32 env.millis c.debounceMS) (construct mem) hlen rfl rfl rfl
  · simpa [hc] using gen (c.toTiming c.debounceMS)
      { construct mem with m_now := env.millis } hlen rfl rfl rfl

theorem setup_m_now (c : Config) (env : Tick) (s : State) (h : c.narrow = true) :
    (setup c env s).m_now = env.millis := by
  unfold setup
  simp only [h, if_true]
  exact (foldl_setupChannel_masks c _ env _ _).2.2

/-- After `setup()` every channel waits a full debounce window. -/
theorem view_setup (c : Config) (env : Tick) (mem : State) {i : Nat}
    (hi : i < c.N) (hN : c.N ≤ c.W) (hW : c.W ≤ 32) (hlen : mem.timestamp.length = c.N)
    (hov : env.millis + c.debounceMS < 2 ^ 32) :
    Tracked c env.millis (setup c env (construct mem)) i ∧
    viewAt c env.millis (setup c env (construct mem)) i
      = ⟨c.dv, env.digitalRead i, false, false⟩ := by
  obtain ⟨hl, hch⟩ := chanOf_setup c env mem hi hN hW hlen
  have hts : (setup c env (construct mem)).ts i
      = (chanOf (setup c env (construct mem)) i).timer := rfl
  cases hc : c.narrow
  · refine ⟨⟨hl, by simp [hc]⟩, ?_⟩
    rw [viewAt_wide _ _ _ _ hc, hch]
    simp [hc, Config.dv, add32_eq hov]
  · refine ⟨⟨hl, fun _ => ⟨setup_m_now c env _ hc, ?_⟩⟩, ?_⟩
    · rw [hts, hch]; simp only [hc, if_true]; exact toTiming_le c _
    · rw [viewAt_narrow _ _ _ _ hc, hch]
      simp [hc, Config.dv]


/-! ## Edge queries (C5) -/

theorem testBit_maskNot (W m : Nat) {idx : Nat} (h : idx < opBits W) :
    (maskNot W m).testBit idx = !m.testBit idx := by
  unfold maskNot
  have hlt : m % 2 ^ opBits W < 2 ^ opBits W := Nat.mod_lt _ (by positivity)
  rw [Nat.sub_sub, Nat.add_comm 1, Nat.testBit_two_pow_sub_succ hlt, Nat.testBit_mod_two_pow]
  simp [h]

theorem and_castShl_ne_zero (W m : Nat) {idx : Nat} (h : idx < opBits W) :
    decide (m &&& castShl W idx ≠ 0) = m.testBit idx := by
  rw [castShl_eq h]
  cases hb : m.testBit idx
  · have := (and_two_pow_ne_zero m idx).not.mpr (by simp [hb])
    simpa using this
  · have := (and_two_pow_ne_zero m idx).mpr hb
    simpa using this

/-- C5 (edge queries): for every object state and every index below the width of the bitmask
type, `rose(idx)` is `change(idx)` and `read(idx)`, `fell(idx)` is `change(idx)` and not
`read(idx)`, and bit `idx` of each aggregate accessor equals the indexed accessor. -/
theorem edge_queries (c : Config) (s : State) (idx : Nat) (h : idx < c.W) :
    rose c s idx = (change c s idx && read c s idx) ∧
    fell c s idx = (change c s idx && !read c s idx) ∧
    (roseAll c s).testBit idx = rose c s idx ∧
    (fellAll c s).testBit idx = fell c s idx ∧
    (changeAll s).testBit idx = change c s idx ∧
    (readAll s).testBit idx = read c s idx := by
  have ho := lt_opBits h
  unfold rose fell change read roseAll fellAll changeAll readAll
  simp only [and_castShl_ne_zero _ _ ho, toMask, Nat.testBit_mod_two_pow, Nat.testBit_and,
    testBit_maskNot _ _ ho, h, decide_True, Bool.true_and]
  cases s.m_state.testBit idx <;> cases s.m_change.testBit idx <;> simp

/-- Witness for `edge_queries`: an 8-bit mask with a rising edge on channel 0. -/
theorem edge_queries_witness :
    (0 < (⟨8, 2, 20, 50, 8⟩ : Config).W) ∧
    rose ⟨8, 2, 20, 50, 8⟩ ⟨0, [0, 0], 1, 1, 1⟩ 0
      = (change ⟨8, 2, 20, 50, 8⟩ ⟨0, [0, 0], 1, 1, 1⟩ 0
          && read ⟨8, 2, 20, 50, 8⟩ ⟨0, [0, 0], 1, 1, 1⟩ 0) :=
  ⟨by decide, (edge_queries ⟨8, 2, 20, 50, 8⟩ ⟨0, [0, 0], 1, 1, 1⟩ 0 (by decide)).1⟩

/-! ## Initial state (C6) -/

/-- C6 (initial state): for `N` not exceeding the bitmask width (at most 32 bits) and any raw
levels, after the constructor and one `setup()`: `read(i)` is the raw level of channel `i` for
every `i < N`, every state bit at a position `≥ N` is 0, the change mask is 0 (hence `change`,
`rose`, `fell` are false for every index) and the lock mask is 0. -/
theorem initial_state (c : Config) (env : Tick) (mem : State)
    (hN : c.N ≤ c.W) (hW : c.W ≤ 32) (hlen : mem.timestamp.length = c.N) :
    (∀ i, i < c.N → read c (setup c env (construct mem)) i = env.digitalRead i) ∧
    (∀ j, c.N ≤ j → (setup c env (construct mem)).m_state.testBit j = false) ∧
    (setup c env (construct mem)).m_change = 0 ∧
    (∀ i, change c (setup c env (construct mem)) i = false ∧
      rose c (setup c env (construct mem)) i = false ∧
      fell c (setup c env (construct mem)) i = false) ∧
    (setup c env (construct mem)).m_lock = 0 := by
  have hmasks : (setup c env (construct mem)).m_change = 0 ∧
      (setup c env (construct mem)).m_lock = 0 := by
    unfold setup
    split_ifs
    · obtain ⟨h1, h2, _⟩ := foldl_setupChannel_masks c (c.toTiming c.debounceMS) env
        (List.range c.N) { construct mem with m_now := env.millis }
      exact ⟨h1, h2⟩
    · obtain ⟨h1, h2, _⟩ := foldl_setupChannel_masks c (add32 env.millis c.debounceMS) env
        (List.range c.N) (construct mem)
      exact ⟨h1, h2⟩
  refine ⟨fun i hi => ?_, fun j hj => ?_, hmasks.1, fun i => ?_, hmasks.2⟩
  · rw [read_eq c _ (lt_of_lt_of_le hi hN), (chanOf_setup c env mem hi hN hW hlen).2]
  · unfold setup
    split_ifs
    · exact foldl_setupChannel_high c _ env hW hN hj c.N (le_refl _) _ (by simp [construct])
    · exact foldl_setupChannel_high c _ env hW hN hj c.N (le_refl _) _ (by simp [construct])
  · simp [change, rose, fell, hmasks.1]

/-- Witness for `initial_state`: two channels on an 8-bit mask, channel 0 high. -/
theorem initial_state_witness :
    ((⟨8, 2, 20, 50, 8⟩ : Config).N ≤ (⟨8, 2, 20, 50, 8⟩ : Config).W) ∧
    (setup ⟨8, 2, 20, 50, 8⟩ ⟨0, fun i => decide (i = 0)⟩
      (construct ⟨7, [3, 9], 5, 5, 5⟩)).m_lock = 0 :=
  ⟨by decide, (initial_state ⟨8, 2, 20, 50, 8⟩ ⟨0, fun i => decide (i = 0)⟩ ⟨7, [3, 9], 5, 5, 5⟩
    (by decide) (by decide) rfl).2.2.2.2⟩

/-! ## The change mask is a snapshot (C9) -/

theorem foldl_narrowChannel_m_state (c : Config) (tdiff : Nat) (env : Tick) (l : List Nat) :
    ∀ s : State, (l.foldl (narrowChannel c tdiff env) s).m_state = s.m_state := by
  induction l with
  | nil => intro s; rfl
  | cons k l ih =>
    intro s
    rw [List.foldl_cons, ih]
    unfold narrowChannel narrowLock narrowLevel narrowDecrement
    dsimp only
    split_ifs <;> simp [State.setTs]

theorem foldl_wideChannel_m_state (c : Config) (now : Nat) (env : Tick) (l : List Nat) :
    ∀ s : State, (l.foldl (wideChannel c now env) s).m_state = s.m_state := by
  induction l with
  | nil => intro s; rfl
  | cons k l ih =>
    intro s
    rw [List.foldl_cons, ih]
    unfold wideChannel wideLock wideLevel
    dsimp only
    split_ifs <;> simp [State.setTs]

/-- The state mask after `update()` is the old one XOR the new change mask. -/
theorem update_m_state (c : Config) (env : Tick) (s : State) :
    (update c env s).m_state = toMask c.W (s.m_state ^^^ (update c env s).m_change) := by
  unfold update
  split_ifs
  · unfold updateNarrow applyChange
    dsimp only
    rw [foldl_narrowChannel_m_state]
    split_ifs <;> rfl
  · unfold updateWide applyChange
    dsimp only
    rw [foldl_wideChannel_m_state]

/-- C9 (single-tick snapshot): `update()` started from two objects that differ only in the
change mask yields the same object; and a channel whose state bit is not flipped by this
`update()` has `change(i)` false afterwards, whatever its change bit was before. -/
theorem change_mask_snapshot (c : Config) (env : Tick) (s : State) (m : Nat) :
    update c env { s with m_change := m } = update c env s ∧
    ∀ i, i < c.W → read c (update c env { s with m_change := m }) i = read c s i →
      change c (update c env { s with m_change := m }) i = false := by
  have h1 : update c env { s with m_change := m } = update c env s := by
    unfold update updateNarrow updateWide
    rfl
  refine ⟨h1, fun i hi hr => ?_⟩
  rw [h1] at hr ⊢
  rw [read_eq c _ hi, read_eq c _ hi] at hr
  rw [change_eq c _ hi]
  have hs := update_m_state c env s
  simp only [chanOf] at hr ⊢
  rw [hs] at hr
  simp only [toMask, Nat.testBit_mod_two_pow, Nat.testBit_xor, hi, decide_True,
    Bool.true_and] at hr
  cases h : (update c env s).m_change.testBit i
  · rfl
  · rw [h] at hr; simp at hr

/-- Witness for `change_mask_snapshot`: channel 0 reported a change in the previous call and
does not move in this one. -/
theorem change_mask_snapshot_witness :
    read ⟨8, 2, 20, 50, 32⟩
        (update ⟨8, 2, 20, 50, 32⟩ ⟨30, fun _ => true⟩ ⟨0, [75, 40], 1, 1, 1⟩) 0
      = read ⟨8, 2, 20, 50, 32⟩ ⟨0, [75, 40], 1, 0, 1⟩ 0 ∧
    change ⟨8, 2, 20, 50, 32⟩
        (update ⟨8, 2, 20, 50, 32⟩ ⟨30, fun _ => true⟩ ⟨0, [75, 40], 1, 1, 1⟩) 0 = false :=
  ⟨by decide, (change_mask_snapshot ⟨8, 2, 20, 50, 32⟩ ⟨30, fun _ => true⟩
    ⟨0, [75, 40], 1, 0, 1⟩ 1).2 0 (by decide) (by decide)⟩


/-! ## Cases of one step on the time still to wait -/

theorem chanStep_locked (dv lv e : Nat) (r : Bool) (ch : Chan)
    (hl : ch.lock = true) (ht : ch.timer - e ≠ 0) :
    chanStep dv lv e r ch = ⟨ch.timer - e, ch.state, true, false⟩ := by
  obtain ⟨timer, state, lock, chg⟩ := ch
  dsimp only at hl ht
  subst hl
  simp [chanStep, chanUpdate, chanBody, chanApply, ht]

theorem chanStep_watch (dv lv e : Nat) (r : Bool) (ch : Chan)
    (hl : ch.lock = false) (ht : ch.timer - e ≠ 0) (hr : r = !ch.state) :
    chanStep dv lv e r ch = ⟨ch.timer - e, ch.state, false, false⟩ := by
  obtain ⟨timer, state, lock, chg⟩ := ch
  dsimp only at hl ht hr
  subst hl hr
  cases state <;> simp [chanStep, chanUpdate, chanBody, chanApply, ht]

theorem chanStep_fire (dv lv e : Nat) (r : Bool) (ch : Chan)
    (hl : ch.lock = false) (ht : ch.timer - e = 0) (hr : r = !ch.state) :
    chanStep dv lv e r ch = ⟨lv, !ch.state, true, true⟩ := by
  obtain ⟨timer, state, lock, chg⟩ := ch
  dsimp only at hl ht hr
  subst hl hr
  cases state <;> simp [chanStep, chanUpdate, chanBody, chanApply, ht]

theorem chanStep_agree (dv lv e : Nat) (r : Bool) (ch : Chan)
    (hl : ch.lock = false ∨ ch.timer - e = 0) (hr : r = ch.state) :
    chanStep dv lv e r ch = ⟨dv, ch.state, false, false⟩ := by
  obtain ⟨timer, state, lock, chg⟩ := ch
  dsimp only at hl hr
  subst hr
  rcases hl with hl | hl
  · subst hl
    simp [chanStep, chanUpdate, chanBody, chanApply]
  · cases lock <;> simp [chanStep, chanUpdate, chanBody, chanApply, hl]

theorem chanStep_unlock_differ (dv lv e : Nat) (r : Bool) (ch : Chan)
    (hl : ch.lock = true) (ht : ch.timer - e = 0) (hr : r = !ch.state) :
    chanStep dv lv e r ch
      = if dv = 0 then ⟨lv, !ch.state, true, true⟩ else ⟨dv, ch.state, false, false⟩ := by
  obtain ⟨timer, state, lock, chg⟩ := ch
  dsimp only at hl ht hr
  subst hl hr
  by_cases hd : dv = 0 <;> cases state <;>
    simp [chanStep, chanUpdate, chanBody, chanApply, ht, hd]

theorem chanStep_same_level (dv lv e : Nat) (r : Bool) (ch : Chan) (hr : r = ch.state) :
    (chanStep dv lv e r ch).change = false ∧ (chanStep dv lv e r ch).state = ch.state := by
  obtain ⟨timer, state, lock, chg⟩ := ch
  dsimp only at hr
  subst hr
  by_cases ht : timer - e = 0 <;> cases lock <;>
    simp [chanStep, chanUpdate, chanBody, chanApply, ht]

/-- A change is reported only together with a fresh lock-out window. -/
theorem chanUpdate_of_change (pre : Nat → Nat) (blocked : Nat → Bool) (dv lv : Nat) (r : Bool)
    (ch : Chan) (h : (chanUpdate pre blocked dv lv r ch).change = true) :
    chanUpdate pre blocked dv lv r ch = ⟨lv, r, true, true⟩ := by
  obtain ⟨timer, state, lock, chg⟩ := ch
  revert h
  simp only [chanUpdate, chanBody, chanApply]
  cases lock <;> cases state <;> cases r <;>
    simp only [Bool.false_and, Bool.true_and, if_true, if_false, Bool.false_eq_true,
      bne_self_eq_false, Bool.true_bne, Bool.false_bne, Bool.not_true, Bool.not_false,
      Bool.bne_true, Bool.bne_false] <;>
    (try split_ifs) <;> simp

/-- A call that leaves the channel unlocked with the raw level equal to the state bit has
refreshed the debounce timer. -/
theorem chanUpdate_of_agree (pre : Nat → Nat) (blocked : Nat → Bool) (dv lv : Nat) (r : Bool)
    (ch : Chan) (hl : (chanUpdate pre blocked dv lv r ch).lock = false)
    (hr : r = (chanUpdate pre blocked dv lv r ch).state) :
    chanUpdate pre blocked dv lv r ch = ⟨dv, r, false, false⟩ := by
  obtain ⟨timer, state, lock, chg⟩ := ch
  revert hl hr
  simp only [chanUpdate, chanBody, chanApply]
  cases lock <;> cases state <;> cases r <;>
    simp only [Bool.false_and, Bool.true_and, if_true, if_false, Bool.false_eq_true,
      bne_self_eq_false, Bool.true_bne, Bool.false_bne, Bool.not_true, Bool.not_false,
      Bool.bne_true, Bool.bne_false] <;>
    (try split_ifs) <;> simp

/-! ## Invariants along a run, on the time still to wait -/

/-- Forward induction along a run for a property of one channel's view. -/
theorem view_invariant (c : Config) {i : Nat} (hi : i < c.N) (hN : c.N ≤ c.W) (hW : c.W ≤ 32)
    (P : Nat → Chan → Prop) (Q : Tick → Prop)
    (hstep : ∀ t ch env, Q env → t ≤ env.millis → P t ch →
      P env.millis (chanStep c.dv c.lv (env.millis - t) (env.digitalRead i) ch))
    (ticks : List Tick) (t : Nat) (s : State) (htr : Tracked c t s i)
    (hP : P t (viewAt c t s i)) (hQ : ∀ e ∈ ticks, Q e) (hov : NoOverflow c ticks)
    (hmono : NonDecreasing t ticks) :
    Tracked c (lastMillis t ticks) (run c s ticks) i ∧
    P (lastMillis t ticks) (viewAt c (lastMillis t ticks) (run c s ticks) i) := by
  refine run_invariant c (fun t s => Tracked c t s i ∧ P t (viewAt c t s i))
    (fun e => Q e ∧ e.millis + c.debounceMS < 2 ^ 32 ∧ e.millis + c.lockoutMS < 2 ^ 32)
    ?_ ticks t s ⟨htr, hP⟩ (fun e he => ⟨hQ e he, hov e he⟩) hmono
  intro t s env hq hle hp
  obtain ⟨h1, h2⟩ := view_update c env s t hi hN hW hp.1 hle hq.2
  exact ⟨h1, by rw [h2]; exact hstep t _ env hq.1 hle hp.2⟩

theorem nonDecreasing_le_last {t0 : Nat} {l : List Tick} (h : NonDecreasing t0 l) :
    t0 ≤ lastMillis t0 l := by
  induction l generalizing t0 with
  | nil => exact le_refl _
  | cons e l ih =>
    obtain ⟨h1, h2⟩ := nonDecreasing_cons h
    rw [lastMillis_cons]
    exact le_trans h1 (ih h2)

theorem mem_le_lastMillis {t0 : Nat} {l : List Tick} (h : NonDecreasing t0 l) :
    ∀ a ∈ l, a.millis ≤ lastMillis t0 l := by
  induction l generalizing t0 with
  | nil => intro a ha; simp at ha
  | cons e l ih =>
    intro a ha
    obtain ⟨_, h2⟩ := nonDecreasing_cons h
    rw [lastMillis_cons]
    rcases List.mem_cons.mp ha with rfl | ha
    · exact nonDecreasing_le_last h2
    · exact ih h2 a ha

theorem dv_eq (c : Config) (h : c.debounceMS ≤ c.timingMax) : c.dv = c.debounceMS := by
  unfold Config.dv
  split_ifs
  · exact toTiming_eq c h
  · rfl

theorem lv_eq (c : Config) (h : c.lockoutMS ≤ c.timingMax) : c.lv = c.lockoutMS := by
  unfold Config.lv
  split_ifs
  · exact toTiming_eq c h
  · rfl


/-! ## What a call leaves behind -/

/-- Either variant's `update()` on one channel, as a `chanUpdate`. -/
theorem chanOf_update (c : Config) (env : Tick) (s : State) {i : Nat}
    (hi : i < c.N) (hN : c.N ≤ c.W) (hW : c.W ≤ 32) (hlen : s.timestamp.length = c.N) :
    (update c env s).timestamp.length = c.N ∧
    ∃ (pre : Nat → Nat) (blocked : Nat → Bool),
      chanOf (update c env s) i
        = chanUpdate pre blocked
            (if c.narrow then c.toTiming c.debounceMS else add32 env.millis c.debounceMS)
            (if c.narrow then c.toTiming c.lockoutMS else add32 env.millis c.lockoutMS)
            (env.digitalRead i) (chanOf s i) := by
  cases hc : c.narrow
  · have hu : update c env s = updateWide c env s := by simp [update, hc]
    obtain ⟨h1, h2⟩ := chanOf_updateWide c env s hi hN hW hlen
    rw [hu]
    refine ⟨h1, id, fun t => decide (env.millis < t), ?_⟩
    rw [h2]; rfl
  · have hu : update c env s = updateNarrow c env s := by simp [update, hc]
    obtain ⟨h1, h2⟩ := chanOf_updateNarrow c env s hi hN hW hlen
    rw [hu]
    refine ⟨h1, fun t => t - elapsed c s.m_now env.millis, fun t => decide (t ≠ 0), ?_⟩
    rw [h2]; rfl

theorem update_m_now (c : Config) (env : Tick) (s : State) (h : c.narrow = true) :
    (update c env s).m_now = env.millis := by
  have hu : update c env s = updateNarrow c env s := by simp [update, h]
  rw [hu]; exact updateNarrow_m_now c env s

/-- The view of a channel right after a call, from what the call stored in its timer. -/
theorem view_of_chanOf (c : Config) (t : Nat) (s : State) (i : Nat) (x : Nat) (y : Nat)
    (st lk cg : Bool) (hx : x + y < 2 ^ 32) (hlen : s.timestamp.length = c.N)
    (hm : c.narrow = true → s.m_now = t)
    (h : chanOf s i = ⟨if c.narrow then c.toTiming y else add32 x y, st, lk, cg⟩)
    (hxt : x = t) :
    Tracked c t s i ∧
    viewAt c t s i = ⟨if c.narrow then c.toTiming y else y, st, lk, cg⟩ := by
  have hts : s.ts i = (chanOf s i).timer := rfl
  subst hxt
  cases hc : c.narrow
  · refine ⟨⟨hlen, by simp [hc]⟩, ?_⟩
    rw [viewAt_wide _ _ _ _ hc, h]
    simp [hc, add32_eq hx]
  · refine ⟨⟨hlen, fun _ => ⟨hm hc, ?_⟩⟩, ?_⟩
    · rw [hts, h]; simp only [hc, if_true]; exact toTiming_le c _
    · rw [viewAt_narrow _ _ _ _ hc, h]
      simp [hc]

/-- After a call that reported a change on channel `i`, the channel is locked for a full
lock-out window and its state bit is the level just read. -/
theorem view_changed (c : Config) (env : Tick) (s : State) {i : Nat}
    (hi : i < c.N) (hN : c.N ≤ c.W) (hW : c.W ≤ 32) (hlen : s.timestamp.length = c.N)
    (hov : env.millis + c.lockoutMS < 2 ^ 32)
    (hchg : change c (update c env s) i = true) :
    Tracked c env.millis (update c env s) i ∧
    viewAt c env.millis (update c env s) i = ⟨c.lv, env.digitalRead i, true, true⟩ := by
  obtain ⟨hl, pre, blocked, hch⟩ := chanOf_update c env s hi hN hW hlen
  rw [change_eq c _ (lt_of_lt_of_le hi hN), hch] at hchg
  rw [chanUpdate_of_change _ _ _ _ _ _ hchg] at hch
  exact view_of_chanOf c env.millis _ i env.millis c.lockoutMS _ _ _ hov hl
    (update_m_now c env s) hch rfl

/-- After a call that refreshed channel `i`, the channel waits a full debounce window. -/
theorem view_refreshed (c : Config) (env0 : Tick) (s : State) {i : Nat}
    (hi : i < c.N) (hN : c.N ≤ c.W) (hW : c.W ≤ 32)
    (hov : env0.millis + c.debounceMS < 2 ^ 32) (hs : RefreshedBy c i env0 s) :
    Tracked c env0.millis s i ∧
    viewAt c env0.millis s i = ⟨c.dv, read c s i, false, false⟩ := by
  have hiW := lt_of_lt_of_le hi hN
  rcases hs with ⟨mem, hlen, rfl⟩ | ⟨s0, hlen, rfl, hlk, hr⟩
  · obtain ⟨h1, h2⟩ := view_setup c env0 mem hi hN hW hlen hov
    refine ⟨h1, ?_⟩
    rw [h2, read_eq c _ hiW, (chanOf_setup c env0 mem hi hN hW hlen).2]
  · obtain ⟨hl, pre, blocked, hch⟩ := chanOf_update c env0 s0 hi hN hW hlen
    rw [locked_eq _ hW (lt_of_lt_of_le hiW hW)] at hlk
    rw [read_eq c _ hiW] at hr ⊢
    have hlk' : (chanOf (update c env0 s0) i).lock = false := hlk
    rw [hch] at hlk' hr
    have hfix := chanUpdate_of_agree _ _ _ _ _ _ hlk' hr
    rw [hfix] at hch
    rw [hch]
    exact view_of_chanOf c env0.millis _ i env0.millis c.debounceMS _ _ _ hov hl
      (update_m_now c env0 s0) hch rfl

/-- The view of a channel after the last call of a non-empty run, from the view before that
call. -/
theorem view_last (c : Config) {i : Nat} (hi : i < c.N) (hN : c.N ≤ c.W) (hW : c.W ≤ 32)
    (P : Nat → Chan → Prop) (Q : Tick → Prop)
    (hstep : ∀ t ch env, Q env → t ≤ env.millis → P t ch →
      P env.millis (chanStep c.dv c.lv (env.millis - t) (env.digitalRead i) ch))
    (pre : List Tick) (tk : Tick) (t : Nat) (s : State) (htr : Tracked c t s i)
    (hP : P t (viewAt c t s i)) (hQ : ∀ e ∈ pre, Q e) (hov : NoOverflow c (pre ++ [tk]))
    (hmono : NonDecreasing t (pre ++ [tk])) :
    ∃ (tp : Nat) (ch : Chan), P tp ch ∧ t ≤ tp ∧ tp ≤ tk.millis ∧ tp = lastMillis t pre ∧
      ch = viewAt c tp (run c s pre) i ∧
      viewAt c tk.millis (run c s (pre ++ [tk])) i
        = chanStep c.dv c.lv (tk.millis - tp) (tk.digitalRead i) ch := by
  obtain ⟨m1, m2, _, _⟩ := nonDecreasing_snoc hmono
  have hov1 : NoOverflow c pre := fun e he => hov e (List.mem_append_left _ he)
  obtain ⟨h1, h2⟩ := view_invariant c hi hN hW P Q hstep pre t s htr hP hQ hov1 m1
  obtain ⟨_, h4⟩ := view_update c tk (run c s pre) (lastMillis t pre) hi hN hW h1 m2
    (hov tk (by simp))
  refine ⟨_, _, h2, nonDecreasing_le_last m1, m2, rfl, rfl, ?_⟩
  rw [run_snoc]
  exact h4


/-! ## Debounce suppression (C2) -/

/-- C2 (debounce suppression), both variants: let the call at `env0` have refreshed channel
`i` (channel not locked, raw level equal to the state bit).  With `debounceMS` fitting the
timer type, non-decreasing clock readings and no reading plus an interval above `2^32 - 1`,
for every run of later calls whose readings `t` all satisfy `t - t0 < debounceMS`, whatever
the raw levels: `change(i)` is false after the last call of the run (and after the call at
`t0` itself, the empty run) and `read(i)` still has the value it had at `t0`. -/
theorem debounce_suppression (c : Config) (i : Nat) (env0 : Tick) (s : State)
    (ticks : List Tick) (hi : i < c.N) (hN : c.N ≤ c.W) (hW : c.W ≤ 32)
    (hD : c.debounceMS ≤ c.timingMax) (hs : RefreshedBy c i env0 s)
    (hov : NoOverflow c (env0 :: ticks)) (hmono : NonDecreasing env0.millis ticks)
    (hwin : ∀ e ∈ ticks, e.millis - env0.millis < c.debounceMS) :
    change c (run c s ticks) i = false ∧ read c (run c s ticks) i = read c s i := by
  have hiW := lt_of_lt_of_le hi hN
  obtain ⟨htr, hv⟩ := view_refreshed c env0 s hi hN hW (hov env0 (by simp)).1 hs
  have hdv := dv_eq c hD
  have key := view_invariant c hi hN hW
    (fun t ch => env0.millis ≤ t ∧ ch.lock = false ∧ ch.state = read c s i ∧
      ch.change = false ∧ c.debounceMS ≤ ch.timer + (t - env0.millis))
    (fun e => e.millis - env0.millis < c.debounceMS)
    (by
      intro t ch env hq hle ⟨h0, hl, hst, _, htm⟩
      have hne : ch.timer - (env.millis - t) ≠ 0 := by omega
      by_cases hr : env.digitalRead i = ch.state
      · rw [chanStep_agree _ _ _ _ _ (Or.inl hl) hr, hdv]
        exact ⟨by omega, rfl, hst, rfl, by dsimp only; omega⟩
      · have hr' : env.digitalRead i = !ch.state := by
          cases h1 : env.digitalRead i <;> cases h2 : ch.state <;> simp_all
        rw [chanStep_watch _ _ _ _ _ hl hne hr']
        exact ⟨by omega, rfl, hst, rfl, by dsimp only; omega⟩)
    ticks env0.millis s htr
    (by rw [hv, hdv]; exact ⟨le_refl _, rfl, rfl, rfl, by dsimp only; omega⟩)
    hwin (fun e he => hov e (List.mem_cons_of_mem _ he)) hmono
  obtain ⟨_, _, _, h3, h4, _⟩ := key
  rw [change_eq c _ hiW, read_eq c _ hiW]
  exact ⟨h4, h3⟩

/-- Witness for `debounce_suppression`: wide variant, `debounceMS = 20`; channel 0 is
refreshed by `setup()` at clock 0, then bounces at readings 5 and 12. -/
theorem debounce_suppression_witness :
    RefreshedBy ⟨8, 2, 20, 50, 32⟩ 0 ⟨0, fun _ => false⟩
      (setup ⟨8, 2, 20, 50, 32⟩ ⟨0, fun _ => false⟩ (construct ⟨0, [0, 0], 0, 0, 0⟩)) ∧
    change ⟨8, 2, 20, 50, 32⟩
      (run ⟨8, 2, 20, 50, 32⟩
        (setup ⟨8, 2, 20, 50, 32⟩ ⟨0, fun _ => false⟩ (construct ⟨0, [0, 0], 0, 0, 0⟩))
        [⟨5, fun _ => true⟩, ⟨12, fun _ => false⟩]) 0 = false :=
  ⟨Or.inl ⟨⟨0, [0, 0], 0, 0, 0⟩, rfl, rfl⟩,
   (debounce_suppression ⟨8, 2, 20, 50, 32⟩ 0 ⟨0, fun _ => false⟩ _
      [⟨5, fun _ => true⟩, ⟨12, fun _ => false⟩] (by decide) (by decide) (by decide)
      (by decide) (Or.inl ⟨⟨0, [0, 0], 0, 0, 0⟩, rfl, rfl⟩) (by decide) (by decide)
      (by decide)).1⟩

/-! ## Lock-out suppression (C3) -/

/-- C3 (lock-out suppression), both variants: let `update()` at `env1` report `change(i)`.
With `lockoutMS` fitting the timer type, non-decreasing clock readings and no reading plus an
interval above `2^32 - 1`, after every later call `tk` with `t - t1 < lockoutMS`, whatever
raw levels were read since: `change(i)` is false and `read(i)` has the value it had right
after the call at `t1`. -/
theorem lockout_suppression (c : Config) (i : Nat) (s0 : State) (env1 : Tick)
    (pre : List Tick) (tk : Tick) (hi : i < c.N) (hN : c.N ≤ c.W) (hW : c.W ≤ 32)
    (hL : c.lockoutMS ≤ c.timingMax) (hlen : s0.timestamp.length = c.N)
    (hchg : change c (update c env1 s0) i = true)
    (hov : NoOverflow c (env1 :: (pre ++ [tk])))
    (hmono : NonDecreasing env1.millis (pre ++ [tk]))
    (hwin : tk.millis - env1.millis < c.lockoutMS) :
    change c (run c (update c env1 s0) (pre ++ [tk])) i = false ∧
    read c (run c (update c env1 s0) (pre ++ [tk])) i = read c (update c env1 s0) i := by
  have hiW := lt_of_lt_of_le hi hN
  obtain ⟨htr, hv⟩ := view_changed c env1 s0 hi hN hW hlen (hov env1 (by simp)).2 hchg
  have hlv := lv_eq c hL
  obtain ⟨_, _, _, hle⟩ := nonDecreasing_snoc hmono
  have hstep : ∀ t ch (env : Tick), env.millis - env1.millis < c.lockoutMS → t ≤ env.millis →
      (env1.millis ≤ t ∧ ch.lock = true ∧ ch.state = env1.digitalRead i ∧
        ch.timer = c.lockoutMS - (t - env1.millis)) →
      chanStep c.dv c.lv (env.millis - t) (env.digitalRead i) ch
        = ⟨c.lockoutMS - (env.millis - env1.millis), env1.digitalRead i, true, false⟩ := by
    intro t ch env hq hle ⟨h0, hl, hst, htm⟩
    have hne : ch.timer - (env.millis - t) ≠ 0 := by omega
    rw [chanStep_locked _ _ _ _ _ hl hne, hst]
    congr 1
    omega
  obtain ⟨tp, ch, hP, h0, h1, _, _, hlast⟩ := view_last c hi hN hW
    (fun t ch => env1.millis ≤ t ∧ ch.lock = true ∧ ch.state = env1.digitalRead i ∧
      ch.timer = c.lockoutMS - (t - env1.millis))
    (fun e => e.millis - env1.millis < c.lockoutMS)
    (by
      intro t ch env hq hle hp
      rw [hstep t ch env hq hle hp]
      exact ⟨by omega, rfl, rfl, rfl⟩)
    pre tk env1.millis (update c env1 s0) htr
    (by rw [hv, hlv]; exact ⟨le_refl _, rfl, rfl, by dsimp only; omega⟩)
    (fun e he => lt_of_le_of_lt (Nat.sub_le_sub_right (hle e he) _) hwin)
    (fun e he => hov e (List.mem_cons_of_mem _ he)) hmono
  rw [hstep tp ch tk hwin h1 hP] at hlast
  have hc : (chanOf (run c (update c env1 s0) (pre ++ [tk])) i).change = false := by
    rw [← viewAt_change c tk.millis, hlast]
  have hst : (chanOf (run c (update c env1 s0) (pre ++ [tk])) i).state
      = env1.digitalRead i := by
    rw [← viewAt_state c tk.millis, hlast]
  have hst1 : (chanOf (update c env1 s0) i).state = env1.digitalRead i := by
    rw [← viewAt_state c env1.millis, hv]
  rw [change_eq c _ hiW, read_eq c _ hiW, read_eq c _ hiW, hc, hst, hst1]
  exact ⟨rfl, rfl⟩

/-- Witness for `lockout_suppression`: narrow 8-bit variant, `lockoutMS = 50`; channel 0
changes at reading 30 and glitches at readings 40 and 79. -/
theorem lockout_suppression_witness :
    change ⟨8, 2, 20, 50, 8⟩
      (update ⟨8, 2, 20, 50, 8⟩ ⟨30, fun _ => true⟩ ⟨0, [20, 20], 0, 0, 0⟩) 0 = true ∧
    change ⟨8, 2, 20, 50, 8⟩
      (run ⟨8, 2, 20, 50, 8⟩
        (update ⟨8, 2, 20, 50, 8⟩ ⟨30, fun _ => true⟩ ⟨0, [20, 20], 0, 0, 0⟩)
        ([⟨40, fun _ => false⟩] ++ [⟨79, fun _ => false⟩])) 0 = false :=
  ⟨by decide,
   (lockout_suppression ⟨8, 2, 20, 50, 8⟩ 0 ⟨0, [20, 20], 0, 0, 0⟩ ⟨30, fun _ => true⟩
      [⟨40, fun _ => false⟩] ⟨79, fun _ => false⟩ (by decide) (by decide) (by decide)
      (by decide) (by decide) (by decide) (by decide) (by decide) (by decide)).1⟩


/-! ## Confirmed transition (C1) -/

theorem obs_of_view (c : Config) (t : Nat) (s : State) {i : Nat} (ch : Chan) (hiW : i < c.W)
    (h : viewAt c t s i = ch) : change c s i = ch.change ∧ read c s i = ch.state := by
  subst h
  rw [change_eq c _ hiW, read_eq c _ hiW]
  exact ⟨rfl, rfl⟩

/-- While the level differs and the window is still open the timer just counts down. -/
theorem chanStep_counting (dv lv d t0 t now : Nat) (b r : Bool)
    (hr : r = !b) (h0 : t0 ≤ t) (hle : t ≤ now) (hlt : now - t0 < d) :
    chanStep dv lv (now - t) r ⟨d - (t - t0), b, false, false⟩
      = ⟨d - (now - t0), b, false, false⟩ := by
  rw [chanStep_watch _ _ _ _ _ rfl (by dsimp only; omega) hr]
  congr 1
  dsimp only
  omega

/-- Once the window has elapsed with the level still different, the change is reported. -/
theorem chanStep_elapsed (dv lv d t0 t now : Nat) (b r : Bool)
    (hr : r = !b) (hle : t ≤ now) (hge : d ≤ now - t0) :
    chanStep dv lv (now - t) r ⟨d - (t - t0), b, false, false⟩ = ⟨lv, !b, true, true⟩ := by
  rw [chanStep_fire _ _ _ _ _ rfl (by dsimp only; omega) hr]

/-- Core of the confirmed-transition property: from a channel that waits a full debounce
window `d` at clock `t0` with state bit `b`, a run on which the raw level is always `!b`
reports the change exactly on the first call whose reading `t` has `t - t0 ≥ d`. -/
theorem sustained_difference (c : Config) {i : Nat} (hi : i < c.N) (hN : c.N ≤ c.W)
    (hW : c.W ≤ 32) (t0 : Nat) (b : Bool) (s : State) (pre : List Tick) (tk : Tick)
    (htr : Tracked c t0 s i) (hv : viewAt c t0 s i = ⟨c.dv, b, false, false⟩)
    (hov : NoOverflow c (pre ++ [tk])) (hmono : NonDecreasing t0 (pre ++ [tk]))
    (hraw : ∀ e ∈ pre ++ [tk], e.digitalRead i = !b) :
    change c (run c s (pre ++ [tk])) i
      = decide (c.dv ≤ tk.millis - t0 ∧ ∀ e ∈ pre, e.millis - t0 < c.dv) ∧
    read c (run c s (pre ++ [tk])) i = (if c.dv ≤ tk.millis - t0 then !b else b) ∧
    (tk.millis - t0 < c.dv →
      Tracked c tk.millis (run c s (pre ++ [tk])) i ∧
      viewAt c tk.millis (run c s (pre ++ [tk])) i
        = ⟨c.dv - (tk.millis - t0), b, false, false⟩) := by
  have hiW := lt_of_lt_of_le hi hN
  have hrtk : tk.digitalRead i = !b := hraw tk (by simp)
  obtain ⟨mpre, _, ht0, hle⟩ := nonDecreasing_snoc hmono
  by_cases hA : ∀ e ∈ pre, e.millis - t0 < c.dv
  · -- no earlier call has reached the end of the window
    obtain ⟨tp, ch, ⟨hp0, hpc⟩, _, h1, _, _, hlast⟩ := view_last c hi hN hW
      (fun t ch => t0 ≤ t ∧ ch = ⟨c.dv - (t - t0), b, false, false⟩)
      (fun e => e.millis - t0 < c.dv ∧ e.digitalRead i = !b)
      (by
        intro t ch env ⟨hq1, hq2⟩ hle ⟨h0, hch⟩
        subst hch
        exact ⟨by omega, chanStep_counting _ _ _ _ _ _ _ _ hq2 h0 hle hq1⟩)
      pre tk t0 s htr (by rw [hv]; exact ⟨le_refl _, by simp⟩)
      (fun e he => ⟨hA e he, hraw e (List.mem_append_left _ he)⟩) hov hmono
    have htrk : Tracked c tk.millis (run c s (pre ++ [tk])) i := by
      have hov1 : NoOverflow c pre := fun e he => hov e (List.mem_append_left _ he)
      obtain ⟨g1, _⟩ := view_invariant c hi hN hW (fun _ _ => True) (fun _ => True)
        (fun _ _ _ _ _ _ => trivial) (pre ++ [tk]) t0 s htr trivial (fun _ _ => trivial)
        hov hmono
      rw [lastMillis_snoc] at g1
      exact g1
    subst hpc
    by_cases hlt : tk.millis - t0 < c.dv
    · rw [chanStep_counting _ _ _ _ _ _ _ _ hrtk hp0 h1 hlt] at hlast
      obtain ⟨o1, o2⟩ := obs_of_view c _ _ _ hiW hlast
      have hn : ¬ c.dv ≤ tk.millis - t0 := by omega
      refine ⟨by rw [o1]; simp [hn], by rw [o2]; simp [hn], fun _ => ⟨htrk, hlast⟩⟩
    · have hge : c.dv ≤ tk.millis - t0 := by omega
      rw [chanStep_elapsed _ _ _ _ _ _ _ _ hrtk h1 hge] at hlast
      obtain ⟨o1, o2⟩ := obs_of_view c _ _ _ hiW hlast
      refine ⟨by rw [o1]; exact (decide_eq_true ⟨hge, hA⟩).symm, by rw [o2]; simp [hge],
        fun h => absurd h hlt⟩
  · -- some earlier call has already reached the end of the window
    have hex : ∃ e ∈ pre, c.dv ≤ e.millis - t0 := by
      by_contra hcon
      exact hA fun e he => by
        by_contra h
        exact hcon ⟨e, he, by omega⟩
    obtain ⟨e, he, hge⟩ := hex
    have hgetk : c.dv ≤ tk.millis - t0 := le_trans hge (Nat.sub_le_sub_right (hle e he) _)
    cases hpre : pre with
    | nil => rw [hpre] at he; simp at he
    | cons e1 rest =>
      subst hpre
      rw [List.cons_append] at hmono hov hraw
      obtain ⟨m1, m2⟩ := nonDecreasing_cons hmono
      have hr1 : e1.digitalRead i = !b := hraw e1 (List.mem_cons_self _ _)
      obtain ⟨htr1, hv1⟩ := view_update c e1 s t0 hi hN hW htr m1
        (hov e1 (List.mem_cons_self _ _))
      rw [hv] at hv1
      have hP1 : t0 ≤ e1.millis ∧
          ((viewAt c e1.millis (update c e1 s) i
              = ⟨c.dv - (e1.millis - t0), b, false, false⟩ ∧ e1.millis - t0 < c.dv) ∨
            (viewAt c e1.millis (update c e1 s) i).state = !b) := by
        refine ⟨m1, ?_⟩
        by_cases hlt : e1.millis - t0 < c.dv
        · left
          have := chanStep_counting c.dv c.lv c.dv t0 t0 e1.millis b _ hr1 (le_refl _) m1 hlt
          rw [Nat.sub_self, Nat.sub_zero] at this
          exact ⟨hv1.trans this, hlt⟩
        · right
          have := chanStep_elapsed c.dv c.lv c.dv t0 t0 e1.millis b _ hr1 m1 (by omega)
          rw [Nat.sub_self, Nat.sub_zero] at this
          rw [hv1, this]
      obtain ⟨tp, ch, ⟨hp0, hpc⟩, hq0, h1, hq1, _, hlast⟩ := view_last c hi hN hW
        (fun t ch => t0 ≤ t ∧
          ((ch = ⟨c.dv - (t - t0), b, false, false⟩ ∧ t - t0 < c.dv) ∨ ch.state = !b))
        (fun e => e.digitalRead i = !b)
        (by
          intro t ch env hq hle ⟨h0, hch⟩
          refine ⟨by omega, ?_⟩
          rcases hch with ⟨hch, _⟩ | hch
          · subst hch
            by_cases hlt : env.millis - t0 < c.dv
            · left
              exact ⟨chanStep_counting _ _ _ _ _ _ _ _ hq h0 hle hlt, hlt⟩
            · right
              rw [chanStep_elapsed _ _ _ _ _ _ _ _ hq hle (by omega)]
          · right
            rw [(chanStep_same_level _ _ _ _ _ (hq.trans hch.symm)).2, hch])
        rest tk e1.millis (update c e1 s) htr1 hP1
        (fun a ha => hraw a (List.mem_cons_of_mem _ (List.mem_append_left _ ha)))
        (fun a ha => hov a (List.mem_cons_of_mem _ ha)) m2
      have hstate : ch.state = !b := by
        rcases hpc with ⟨_, hlt⟩ | hst
        · exfalso
          have hetp : e.millis ≤ tp := by
            rcases List.mem_cons.mp he with rfl | her
            · exact hq0
            · rw [hq1]
              exact mem_le_lastMillis (nonDecreasing_snoc m2).1 e her
          omega
        · exact hst
      obtain ⟨s1, s2⟩ := chanStep_same_level c.dv c.lv (tk.millis - tp) _ ch
        (hrtk.trans hstate.symm)
      rw [List.cons_append, run_cons]
      obtain ⟨o1, o2⟩ := obs_of_view c _ _ _ hiW hlast
      refine ⟨?_, ?_, fun h => absurd hgetk (by omega)⟩
      · rw [o1, s1]
        exact (decide_eq_false fun h => hA h.2).symm
      · rw [o2, s2, hstate]
        simp [hgetk]


/-- C1 (confirmed transition), both variants: let the call at `env0` (`setup()` or an
`update()`) have left channel `i` unlocked with its debounce timer refreshed, with
`debounceMS` fitting the timer type (`lockoutMS` need not even fit), non-decreasing clock
readings and no reading plus an interval above `2^32 - 1`.  If on every following call the
raw level of channel `i` is the opposite of the state bit at `t0`, then after each following call `tk`: `change(i)` is true exactly when
`tk` is the first call with `t - t0 ≥ debounceMS` (false before it and false on every later
call), and the state bit is flipped from that call on. -/
theorem confirmed_transition (c : Config) (i : Nat) (env0 : Tick) (s : State)
    (pre : List Tick) (tk : Tick) (hi : i < c.N) (hN : c.N ≤ c.W) (hW : c.W ≤ 32)
    (hD : c.debounceMS ≤ c.timingMax) (hs : RefreshedBy c i env0 s)
    (hov : NoOverflow c (env0 :: (pre ++ [tk])))
    (hmono : NonDecreasing env0.millis (pre ++ [tk]))
    (hraw : ∀ e ∈ pre ++ [tk], e.digitalRead i = !(read c s i)) :
    change c (run c s (pre ++ [tk])) i
      = decide (c.debounceMS ≤ tk.millis - env0.millis ∧
          ∀ e ∈ pre, e.millis - env0.millis < c.debounceMS) ∧
    read c (run c s (pre ++ [tk])) i
      = (if c.debounceMS ≤ tk.millis - env0.millis then !(read c s i) else read c s i) := by
  obtain ⟨htr, hv⟩ := view_refreshed c env0 s hi hN hW (hov env0 (by simp)).1 hs
  obtain ⟨h1, h2, _⟩ := sustained_difference c hi hN hW env0.millis (read c s i) s pre tk htr hv
    (fun e he => hov e (List.mem_cons_of_mem _ he)) hmono hraw
  rw [dv_eq c hD] at h1 h2
  exact ⟨h1, h2⟩

/-- Witness for `confirmed_transition`: narrow 8-bit variant, `debounceMS = 20`; after
`setup()` at clock 0 with channel 0 low, the pin reads high at readings 7 and 20. -/
theorem confirmed_transition_witness :
    RefreshedBy ⟨8, 2, 20, 50, 8⟩ 0 ⟨0, fun _ => false⟩
      (setup ⟨8, 2, 20, 50, 8⟩ ⟨0, fun _ => false⟩ (construct ⟨0, [0, 0], 0, 0, 0⟩)) ∧
    change ⟨8, 2, 20, 50, 8⟩
      (run ⟨8, 2, 20, 50, 8⟩
        (setup ⟨8, 2, 20, 50, 8⟩ ⟨0, fun _ => false⟩ (construct ⟨0, [0, 0], 0, 0, 0⟩))
        ([⟨7, fun _ => true⟩] ++ [⟨20, fun _ => true⟩])) 0
      = decide ((⟨8, 2, 20, 50, 8⟩ : Config).debounceMS ≤ 20 - 0 ∧
          ∀ e ∈ [(⟨7, fun _ => true⟩ : Tick)],
            e.millis - 0 < (⟨8, 2, 20, 50, 8⟩ : Config).debounceMS) :=
  ⟨Or.inl ⟨⟨0, [0, 0], 0, 0, 0⟩, rfl, rfl⟩,
   (confirmed_transition ⟨8, 2, 20, 50, 8⟩ 0 ⟨0, fun _ => false⟩ _
      [⟨7, fun _ => true⟩] ⟨20, fun _ => true⟩ (by decide) (by decide) (by decide)
      (by decide) (Or.inl ⟨⟨0, [0, 0], 0, 0, 0⟩, rfl, rfl⟩) (by decide) (by decide)
      (by decide)).1⟩


/-! ## Inside one `update()`: the lock-out block of one iteration -/

theorem updateNarrow_eq (c : Config) (env : Tick) (s : State) :
    updateNarrow c env s
      = applyChange c ((List.range c.N).foldl
          (narrowChannel c (elapsed c s.m_now env.millis) env) (narrowStart env s)) := rfl

/-- The loop of `update()` is iterations `0 … i-1`, then the lock-out block of iteration `i`
followed (unless it took `continue`) by its level check, then the remaining iterations. -/
theorem update_through_lockBlock (c : Config) (env : Tick) (s : State) {i : Nat}
    (hi : i < c.N) :
    update c env s
      = applyChange c ((List.range' (i + 1) (c.N - (i + 1))).foldl
          (fun x k => if c.narrow then narrowChannel c (elapsed c s.m_now env.millis) env x k
            else wideChannel c env.millis env x k)
          (if (lockBlock c env s i).2 then (lockBlock c env s i).1
           else if c.narrow then narrowLevel c env (lockBlock c env s i).1 i
           else wideLevel c env.millis env (lockBlock c env s i).1 i)) := by
  have hsplit : List.range c.N = List.range i ++ i :: List.range' (i + 1) (c.N - (i + 1)) := by
    have h1 : List.range' 0 i ++ List.range' (0 + i) (c.N - (i + 1) + 1)
        = List.range' 0 (c.N - (i + 1) + 1 + i) := List.range'_append_1 0 i _
    have h2 : c.N - (i + 1) + 1 + i = c.N := by omega
    rw [h2, List.range'_succ, Nat.zero_add] at h1
    rw [List.range_eq_range', List.range_eq_range', h1]
  cases hc : c.narrow
  · have hu : update c env s = updateWide c env s := by simp [update, hc]
    rw [hu]
    unfold updateWide lockBlock loopEntry wideChannel
    simp only [hc, hsplit, List.foldl_append, List.foldl_cons]
    rfl
  · have hu : update c env s = updateNarrow c env s := by simp [update, hc]
    rw [hu, updateNarrow_eq]
    unfold lockBlock loopEntry narrowChannel
    simp only [hc, hsplit, List.foldl_append, List.foldl_cons]
    rfl

theorem chanOf_loopEntry (c : Config) (env : Tick) (s : State) {i : Nat}
    (hi : i < c.N) (hN : c.N ≤ c.W) (hW : c.W ≤ 32) (hlen : s.timestamp.length = c.N) :
    (loopEntry c env s i).timestamp.length = c.N ∧
    chanOf (loopEntry c env s i) i = { chanOf s i with change := false } := by
  unfold loopEntry
  cases hc : c.narrow
  · simp only [Bool.false_eq_true, if_false]
    have key := chanOf_foldl_range (wideChannel c env.millis env)
      (fun k => chanBody id (fun t => decide (env.millis < t))
        (add32 env.millis c.debounceMS) (add32 env.millis c.lockoutMS) (env.digitalRead k)) c.N
      (wideChannel_length c _ env)
      (fun s k hk hl => chanOf_wideChannel_same c _ env s hW (lt_of_lt_of_le hk hN)
        (by rw [hl]; exact hk))
      (fun s k j hk hj hne _ => chanOf_wideChannel_other c _ env s hW (lt_of_lt_of_le hk hN)
        (lt_of_lt_of_le hj hN) hne)
      { s with m_change := 0 } hlen i (le_of_lt hi)
    refine ⟨key.1, ?_⟩
    rw [key.2 i hi, if_neg (lt_irrefl i)]
    simp [chanOf, State.ts]
  · simp only [if_true]
    have hlen1 : (narrowStart env s).timestamp.length = c.N := by
      unfold narrowStart; dsimp only; split_ifs <;> exact hlen
    have hch1 : chanOf (narrowStart env s) i = { chanOf s i with change := false } := by
      unfold narrowStart; dsimp only; split_ifs <;> simp [chanOf, State.ts]
    have key := chanOf_foldl_range (narrowChannel c (elapsed c s.m_now env.millis) env)
      (fun k => chanBody (fun t => t - elapsed c s.m_now env.millis) (fun t => decide (t ≠ 0))
        (c.toTiming c.debounceMS) (c.toTiming c.lockoutMS) (env.digitalRead k)) c.N
      (narrowChannel_length c _ env)
      (fun s k hk hl => chanOf_narrowChannel_same c _ env s hW (lt_of_lt_of_le hk hN)
        (by rw [hl]; exact hk))
      (fun s k j hk hj hne hl => chanOf_narrowChannel_other c _ env s hW (lt_of_lt_of_le hk hN)
        (lt_of_lt_of_le hj hN) hne (by rw [hl]; exact hk))
      (narrowStart env s) hlen1 i (le_of_lt hi)
    refine ⟨key.1, ?_⟩
    rw [key.2 i hi, if_neg (lt_irrefl i), hch1]

/-- The lock-out block on a locked channel whose window has elapsed: it does not `continue`,
clears the lock bit and stores a full debounce window. -/
theorem lockBlock_unlocks (c : Config) (env : Tick) (s : State) (t : Nat) {i : Nat}
    (hi : i < c.N) (hN : c.N ≤ c.W) (hW : c.W ≤ 32) (htr : Tracked c t s i)
    (ht : t ≤ env.millis) (hnow : env.millis + c.debounceMS < 2 ^ 32)
    (hD : c.debounceMS ≤ c.timingMax)
    (hlock : (viewAt c t s i).lock = true)
    (hzero : (viewAt c t s i).timer - (env.millis - t) = 0) :
    (lockBlock c env s i).2 = false ∧
    (lockBlock c env s i).1.locked c i = false ∧
    (lockBlock c env s i).1.ts i
      = (if c.narrow then c.debounceMS else env.millis + c.debounceMS) := by
  have hiW := lt_of_lt_of_le hi hN
  have hi32 := lt_of_lt_of_le hiW hW
  obtain ⟨hlen, hnar⟩ := htr
  obtain ⟨hel, hech⟩ := chanOf_loopEntry c env s hi hN hW hlen
  have heLock : (loopEntry c env s i).m_lock.testBit i = true := by
    have : (chanOf (loopEntry c env s i) i).lock = true := by rw [hech]; exact hlock
    exact this
  have heTs : (loopEntry c env s i).ts i = s.ts i := by
    have : (chanOf (loopEntry c env s i) i).timer = s.ts i := by rw [hech]; rfl
    exact this
  have hilen : i < (loopEntry c env s i).timestamp.length := by rw [hel]; exact hi
  unfold lockBlock
  cases hc : c.narrow
  · -- wide variant
    simp only [Bool.false_eq_true, if_false]
    have hz : s.ts i - t - (env.millis - t) = 0 := by
      have := hzero
      rw [viewAt_wide _ _ _ _ hc] at this
      exact this
    have hnb : ¬ env.millis < (loopEntry c env s i).ts i := by rw [heTs]; omega
    unfold wideLock
    rw [locked_eq _ hW hi32, heLock]
    simp only [if_true, if_neg hnb]
    refine ⟨trivial, ?_, ?_⟩
    · rw [locked_eq _ hW hi32]
      simp [State.setTs, testBit_clearBit _ hW hi32 hiW]
    · have := ts_setTs (loopEntry c env s i) i (add32 env.millis c.debounceMS) i hilen
      simp only [if_true] at this
      rw [← add32_eq hnow]
      exact this
  · -- narrow variant
    simp only [if_true]
    obtain ⟨hm, hts⟩ := hnar hc
    have hz : s.ts i - (env.millis - t) = 0 := by
      have := hzero
      rw [viewAt_narrow _ _ _ _ hc] at this
      exact this
    have hnow' : env.millis < 2 ^ 32 := by omega
    have hd := narrowDecrement_ts (elapsed c s.m_now env.millis) (loopEntry c env s i) i i hilen
    simp only [if_true] at hd
    rw [heTs, hm, elapsed_eq c ht hnow'] at hd
    have hd0 : (narrowDecrement (min (env.millis - t) c.timingMax) (loopEntry c env s i) i).ts i
        = 0 := by rw [hd]; omega
    have hdl : (narrowDecrement (min (env.millis - t) c.timingMax)
        (loopEntry c env s i) i).m_lock = (loopEntry c env s i).m_lock := by
      unfold narrowDecrement; split_ifs <;> simp [State.setTs]
    have hdlen : i < (narrowDecrement (min (env.millis - t) c.timingMax)
        (loopEntry c env s i) i).timestamp.length := by
      have : (narrowDecrement (min (env.millis - t) c.timingMax)
          (loopEntry c env s i) i).timestamp.length = (loopEntry c env s i).timestamp.length := by
        unfold narrowDecrement; split_ifs <;> simp [State.setTs]
      rw [this]; exact hilen
    rw [hm, elapsed_eq c ht hnow']
    generalize narrowDecrement (min (env.millis - t) c.timingMax) (loopEntry c env s i) i = d
      at hd0 hdl hdlen
    unfold narrowLock
    rw [locked_eq _ hW hi32, hdl, heLock]
    simp only [if_true, hd0, ne_eq, not_true_eq_false, if_false]
    refine ⟨trivial, ?_, ?_⟩
    · rw [locked_eq _ hW hi32]
      simp [State.setTs, testBit_clearBit _ hW hi32 hiW]
    · have := ts_setTs d i (c.toTiming c.debounceMS) i hdlen
      simp only [if_true] at this
      conv_rhs => rw [← toTiming_eq c hD]
      exact this


/-! ## Post-lockout re-arming (C4) -/

theorem tracked_run (c : Config) {i : Nat} (hi : i < c.N) (hN : c.N ≤ c.W) (hW : c.W ≤ 32)
    (ticks : List Tick) (t : Nat) (s : State) (htr : Tracked c t s i)
    (hov : NoOverflow c ticks) (hmono : NonDecreasing t ticks) :
    Tracked c (lastMillis t ticks) (run c s ticks) i :=
  (view_invariant c hi hN hW (fun _ _ => True) (fun _ => True) (fun _ _ _ _ _ _ => trivial)
    ticks t s htr trivial (fun _ _ => trivial) hov hmono).1

theorem nonDecreasing_append_left {t0 : Nat} {l₁ l₂ : List Tick}
    (h : NonDecreasing t0 (l₁ ++ l₂)) : NonDecreasing t0 l₁ := by
  unfold NonDecreasing at h ⊢
  rw [List.map_append, ← List.cons_append] at h
  exact (List.pairwise_append.mp h).1

/-- Inside the lock-out window a locked channel just counts down. -/
theorem chanStep_in_lockout (dv lv l t1 t now : Nat) (b r : Bool) (ch : Chan)
    (h1 : t1 ≤ t) (hle : t ≤ now) (hlt : now - t1 < l)
    (hl : ch.lock = true) (hst : ch.state = b) (htm : ch.timer = l - (t - t1)) :
    chanStep dv lv (now - t) r ch = ⟨l - (now - t1), b, true, false⟩ := by
  rw [chanStep_locked _ _ _ _ _ hl (by omega), hst]
  congr 1
  omega

/-- C4 (post-lockout re-arming), both variants.  Let `update()` at `env1` report `change(i)`,
let `mid` be the later calls with `t - t1 < lockoutMS` and `tk2` the first call with
`t2 - t1 ≥ lockoutMS`; both intervals fit the timer type, clock readings never decrease and no
reading plus an interval exceeds `2^32 - 1`.  Then
* no call of `mid` reports `change(i)`;
* in the call `tk2` the lock-out block of channel `i` finds the channel locked, does not
  `continue`, clears the lock bit and stores a full debounce window in the timer
  (`debounceMS` in the narrow variant, `t2 + debounceMS` in the wide one);
* if the raw level agrees with the state bit on `tk2` or `debounceMS > 0`, then after that
  call the lock bit is clear, no change is reported and the time still to wait is
  `debounceMS`;
* if the raw level differs from the state bit on `tk2`, that very call reports `change(i)`
  exactly when `debounceMS = 0` (the first call with `t - t2 ≥ debounceMS` is then `tk2`);
* if `debounceMS > 0` and the raw level differs from the state bit on `tk2` and on every
  following call, then after each following call `tk`, `change(i)` is true exactly when `tk`
  is the first call with `t - t2 ≥ debounceMS`, and the state bit is flipped from then on. -/
theorem post_lockout_rearming (c : Config) (i : Nat) (s0 : State) (env1 : Tick)
    (mid : List Tick) (tk2 : Tick) (hi : i < c.N) (hN : c.N ≤ c.W) (hW : c.W ≤ 32)
    (hD : c.debounceMS ≤ c.timingMax) (hL : c.lockoutMS ≤ c.timingMax)
    (hlen : s0.timestamp.length = c.N)
    (hchg : change c (update c env1 s0) i = true)
    (hov : NoOverflow c (env1 :: (mid ++ [tk2])))
    (hmono : NonDecreasing env1.millis (mid ++ [tk2]))
    (hmid : ∀ e ∈ mid, e.millis - env1.millis < c.lockoutMS)
    (htk2 : c.lockoutMS ≤ tk2.millis - env1.millis) :
    (∀ p e q, mid = p ++ e :: q → change c (run c (update c env1 s0) (p ++ [e])) i = false) ∧
    ((run c (update c env1 s0) mid).locked c i = true ∧
      (lockBlock c tk2 (run c (update c env1 s0) mid) i).2 = false ∧
      (lockBlock c tk2 (run c (update c env1 s0) mid) i).1.locked c i = false ∧
      (lockBlock c tk2 (run c (update c env1 s0) mid) i).1.ts i
        = (if c.narrow then c.debounceMS else tk2.millis + c.debounceMS)) ∧
    ((tk2.digitalRead i = read c (update c env1 s0) i ∨ 0 < c.debounceMS) →
      (run c (update c env1 s0) (mid ++ [tk2])).locked c i = false ∧
      change c (run c (update c env1 s0) (mid ++ [tk2])) i = false ∧
      (viewAt c tk2.millis (run c (update c env1 s0) (mid ++ [tk2])) i).timer
        = c.debounceMS) ∧
    (tk2.digitalRead i = !(read c (update c env1 s0) i) →
      change c (run c (update c env1 s0) (mid ++ [tk2])) i = decide (c.debounceMS = 0)) ∧
    (∀ (post : List Tick) (tk : Tick), 0 < c.debounceMS →
      NoOverflow c (post ++ [tk]) → NonDecreasing tk2.millis (post ++ [tk]) →
      (∀ e ∈ tk2 :: (post ++ [tk]), e.digitalRead i = !(read c (update c env1 s0) i)) →
      change c (run c (update c env1 s0) (mid ++ tk2 :: (post ++ [tk]))) i
        = decide (c.debounceMS ≤ tk.millis - tk2.millis ∧
            ∀ e ∈ post, e.millis - tk2.millis < c.debounceMS) ∧
      read c (run c (update c env1 s0) (mid ++ tk2 :: (post ++ [tk]))) i
        = (if c.debounceMS ≤ tk.millis - tk2.millis then !(read c (update c env1 s0) i)
           else read c (update c env1 s0) i)) := by
  have hiW := lt_of_lt_of_le hi hN
  have hi32 := lt_of_lt_of_le hiW hW
  have hov' : NoOverflow c (mid ++ [tk2]) := fun e he => hov e (List.mem_cons_of_mem _ he)
  obtain ⟨htr, hv⟩ := view_changed c env1 s0 hi hN hW hlen (hov env1 (by simp)).2 hchg
  have hlv := lv_eq c hL
  have hdv := dv_eq c hD
  have hb : read c (update c env1 s0) i = env1.digitalRead i := by
    rw [(obs_of_view c _ _ _ hiW hv).2]
  rw [hb]
  -- the invariant of the lock-out window
  have hstep : ∀ t ch (env : Tick), env.millis - env1.millis < c.lockoutMS → t ≤ env.millis →
      (env1.millis ≤ t ∧ ch.lock = true ∧ ch.state = env1.digitalRead i ∧
        ch.timer = c.lockoutMS - (t - env1.millis)) →
      (env1.millis ≤ env.millis ∧
        (chanStep c.dv c.lv (env.millis - t) (env.digitalRead i) ch).lock = true ∧
        (chanStep c.dv c.lv (env.millis - t) (env.digitalRead i) ch).state
          = env1.digitalRead i ∧
        (chanStep c.dv c.lv (env.millis - t) (env.digitalRead i) ch).timer
          = c.lockoutMS - (env.millis - env1.millis)) := by
    intro t ch env hq hle ⟨h0, hl, hst, htm⟩
    rw [chanStep_in_lockout _ _ _ _ _ _ _ _ _ h0 hle hq hl hst htm]
    exact ⟨by omega, rfl, rfl, rfl⟩
  have hP0 : env1.millis ≤ env1.millis ∧ (viewAt c env1.millis (update c env1 s0) i).lock = true ∧
      (viewAt c env1.millis (update c env1 s0) i).state = env1.digitalRead i ∧
      (viewAt c env1.millis (update c env1 s0) i).timer
        = c.lockoutMS - (env1.millis - env1.millis) := by
    rw [hv, hlv]
    exact ⟨le_refl _, rfl, rfl, by dsimp only; omega⟩
  -- the call `tk2`
  obtain ⟨tp, ch, ⟨hp0, hpl, hps, hpt⟩, _, h1, htp, hch, hlast⟩ := view_last c hi hN hW
    (fun t ch => env1.millis ≤ t ∧ ch.lock = true ∧ ch.state = env1.digitalRead i ∧
      ch.timer = c.lockoutMS - (t - env1.millis))
    (fun e => e.millis - env1.millis < c.lockoutMS) hstep mid tk2 env1.millis
    (update c env1 s0) htr hP0 hmid hov' hmono
  have htrm : Tracked c tp (run c (update c env1 s0) mid) i := by
    rw [htp]
    exact tracked_run c hi hN hW mid env1.millis _ htr
      (fun e he => hov' e (List.mem_append_left _ he)) (nonDecreasing_append_left hmono)
  have htr2 : Tracked c tk2.millis (run c (update c env1 s0) (mid ++ [tk2])) i := by
    have := tracked_run c hi hN hW (mid ++ [tk2]) env1.millis _ htr hov' hmono
    rwa [lastMillis_snoc] at this
  have hzero : ch.timer - (tk2.millis - tp) = 0 := by omega
  have hlockedEq : ∀ s : State, s.locked c i = (viewAt c tk2.millis s i).lock := fun s => by
    rw [locked_eq s hW hi32]; rfl
  have hagree : tk2.digitalRead i = env1.digitalRead i ∨
      (0 < c.debounceMS ∧ tk2.digitalRead i = !env1.digitalRead i) →
      viewAt c tk2.millis (run c (update c env1 s0) (mid ++ [tk2])) i
        = ⟨c.debounceMS, env1.digitalRead i, false, false⟩ := by
    intro h
    rcases h with h | ⟨hpos, h⟩
    · rw [hlast, chanStep_agree _ _ _ _ _ (Or.inr hzero) (h.trans hps.symm), hps, hdv]
    · rw [hlast, chanStep_unlock_differ _ _ _ _ _ hpl hzero (by rw [hps]; exact h), hdv,
        if_neg (by omega), hps]
  refine ⟨?_, ?_, ?_, ?_, ?_⟩
  · -- calls inside the lock-out window
    intro p e q hsplit
    subst hsplit
    have hmono1 : NonDecreasing env1.millis (p ++ [e]) := by
      have : (p ++ e :: q) ++ [tk2] = (p ++ [e]) ++ (q ++ [tk2]) := by simp
      rw [this] at hmono
      exact nonDecreasing_append_left hmono
    have hov1 : NoOverflow c (p ++ [e]) := fun a ha => hov' a (by
      rcases List.mem_append.mp ha with h | h
      · exact List.mem_append_left _ (List.mem_append_left _ h)
      · rw [List.mem_singleton] at h; subst h; simp)
    obtain ⟨tq, cq, hq, _, hq1, _, _, hql⟩ := view_last c hi hN hW
      (fun t ch => env1.millis ≤ t ∧ ch.lock = true ∧ ch.state = env1.digitalRead i ∧
        ch.timer = c.lockoutMS - (t - env1.millis))
      (fun e => e.millis - env1.millis < c.lockoutMS) hstep p e env1.millis
      (update c env1 s0) htr hP0
      (fun a ha => hmid a (List.mem_append_left _ ha)) hov1 hmono1
    rw [chanStep_in_lockout _ _ _ _ _ _ _ _ _ hq.1 hq1 (hmid e (by simp)) hq.2.1 hq.2.2.1
      hq.2.2.2] at hql
    exact (obs_of_view c _ _ _ hiW hql).1
  · -- the lock-out block of the call `tk2`
    refine ⟨?_, lockBlock_unlocks c tk2 _ tp hi hN hW htrm h1 (hov' tk2 (by simp)).1 hD
      (by rw [← hch]; exact hpl) (by rw [← hch]; exact hzero)⟩
    rw [locked_eq _ hW hi32]
    have : (viewAt c tp (run c (update c env1 s0) mid) i).lock = true := by
      rw [← hch]; exact hpl
    exact this
  · -- the channel is unlocked with a full debounce window
    intro h
    have hview := hagree (by
      rcases h with h | h
      · exact Or.inl h
      · by_cases hr : tk2.digitalRead i = env1.digitalRead i
        · exact Or.inl hr
        · right
          refine ⟨h, ?_⟩
          cases h1 : tk2.digitalRead i <;> cases h2 : env1.digitalRead i <;> simp_all)
    refine ⟨by rw [hlockedEq, hview], (obs_of_view c _ _ _ hiW hview).1, by rw [hview]⟩
  · -- the level differs on `tk2`
    intro h
    rw [chanStep_unlock_differ _ _ _ _ _ hpl hzero (by rw [hps]; exact h), hdv] at hlast
    by_cases hd0 : c.debounceMS = 0
    · rw [if_pos hd0] at hlast
      rw [(obs_of_view c _ _ _ hiW hlast).1]
      simp [hd0]
    · rw [if_neg hd0] at hlast
      rw [(obs_of_view c _ _ _ hiW hlast).1]
      simp [hd0]
  · -- the level keeps differing after `tk2`
    intro post tk hpos hovp hmonop hraw
    have hview := hagree (Or.inr ⟨hpos, hraw tk2 (List.mem_cons_self _ _)⟩)
    rw [← hdv] at hview
    have key := sustained_difference c hi hN hW tk2.millis (env1.digitalRead i)
      (run c (update c env1 s0) (mid ++ [tk2])) post tk htr2 hview hovp hmonop
      (fun e he => hraw e (List.mem_cons_of_mem _ he))
    have hrun : run c (update c env1 s0) (mid ++ tk2 :: (post ++ [tk]))
        = run c (run c (update c env1 s0) (mid ++ [tk2])) (post ++ [tk]) := by
      rw [← run_append]
      simp
    rw [hrun, ← hdv]
    exact ⟨key.1, key.2.1⟩


/-- Witness for `post_lockout_rearming`: wide variant, `debounceMS = 20`, `lockoutMS = 50`;
channel 0 changes to high at reading 30, is read at 40 (still locked) and again at 80. -/
theorem post_lockout_rearming_witness :
    change ⟨8, 2, 20, 50, 32⟩
      (update ⟨8, 2, 20, 50, 32⟩ ⟨30, fun _ => true⟩ ⟨0, [20, 20], 0, 0, 0⟩) 0 = true ∧
    (lockBlock ⟨8, 2, 20, 50, 32⟩ ⟨80, fun _ => false⟩
      (run ⟨8, 2, 20, 50, 32⟩
        (update ⟨8, 2, 20, 50, 32⟩ ⟨30, fun _ => true⟩ ⟨0, [20, 20], 0, 0, 0⟩)
        [⟨40, fun _ => false⟩]) 0).1.ts 0 = 100 :=
  ⟨by decide,
   (post_lockout_rearming ⟨8, 2, 20, 50, 32⟩ 0 ⟨0, [20, 20], 0, 0, 0⟩ ⟨30, fun _ => true⟩
      [⟨40, fun _ => false⟩] ⟨80, fun _ => false⟩ (by decide) (by decide) (by decide)
      (by decide) (by decide) (by decide) (by decide) (by decide) (by decide) (by decide)
      (by decide)).2.1.2.2.2⟩


/-! ## Unfiltered passthrough (C10) -/

theorem chanStep_passthrough (e : Nat) (r : Bool) (ch : Chan) (h : ch.timer = 0) :
    chanStep 0 0 e r ch = ⟨0, r, r != ch.state, r != ch.state⟩ := by
  obtain ⟨timer, state, lock, chg⟩ := ch
  dsimp only at h
  subst h
  cases lock <;> cases state <;> cases r <;>
    simp [chanStep, chanUpdate, chanBody, chanApply]

/-- C10 (unfiltered passthrough), both variants: with `debounceMS = 0` and `lockoutMS = 0`,
for every non-decreasing sequence of (32-bit) clock readings and every raw levels, `read(i)`
after `setup()` is the raw level read by `setup()`, and after every `update()` call `tk`
`read(i)` is the raw level read by that call and `change(i)` is true iff that level differs
from the value `read(i)` had before the call. -/
theorem passthrough (c : Config) (i : Nat) (mem : State) (env0 : Tick) (pre : List Tick)
    (tk : Tick) (hi : i < c.N) (hN : c.N ≤ c.W) (hW : c.W ≤ 32)
    (hD0 : c.debounceMS = 0) (hL0 : c.lockoutMS = 0) (hlen : mem.timestamp.length = c.N)
    (hclock : ∀ e ∈ env0 :: (pre ++ [tk]), e.millis < 2 ^ 32)
    (hmono : NonDecreasing env0.millis (pre ++ [tk])) :
    read c (setup c env0 (construct mem)) i = env0.digitalRead i ∧
    read c (run c (setup c env0 (construct mem)) (pre ++ [tk])) i = tk.digitalRead i ∧
    change c (run c (setup c env0 (construct mem)) (pre ++ [tk])) i
      = (tk.digitalRead i != read c (run c (setup c env0 (construct mem)) pre) i) := by
  have hiW := lt_of_lt_of_le hi hN
  have hov : NoOverflow c (env0 :: (pre ++ [tk])) := fun e he => by
    have := hclock e he
    rw [hD0, hL0]
    exact ⟨this, this⟩
  have hdv : c.dv = 0 := by simp [Config.dv, Config.toTiming, hD0]
  have hlv : c.lv = 0 := by simp [Config.lv, Config.toTiming, hL0]
  obtain ⟨htr, hv⟩ := view_setup c env0 mem hi hN hW hlen (hov env0 (by simp)).1
  obtain ⟨tp, ch, hP, _, _, _, hch, hlast⟩ := view_last c hi hN hW
    (fun _ ch => ch.timer = 0) (fun _ => True)
    (by
      intro t ch env _ _ h
      rw [hdv, hlv, chanStep_passthrough _ _ _ h])
    pre tk env0.millis _ htr (by rw [hv, hdv])
    (fun _ _ => trivial) (fun e he => hov e (List.mem_cons_of_mem _ he)) hmono
  rw [hdv, hlv, chanStep_passthrough _ _ _ hP] at hlast
  obtain ⟨o1, o2⟩ := obs_of_view c _ _ _ hiW hlast
  obtain ⟨_, p2⟩ := obs_of_view c _ _ _ hiW hch.symm
  refine ⟨(obs_of_view c _ _ _ hiW hv).2, o2, ?_⟩
  rw [o1, p2]

/-- Witness for `passthrough`: narrow 8-bit variant with both intervals zero; channel 0
toggles on two consecutive calls. -/
theorem passthrough_witness :
    ((⟨8, 2, 0, 0, 8⟩ : Config).debounceMS = 0 ∧ (⟨8, 2, 0, 0, 8⟩ : Config).lockoutMS = 0) ∧
    read ⟨8, 2, 0, 0, 8⟩
      (run ⟨8, 2, 0, 0, 8⟩
        (setup ⟨8, 2, 0, 0, 8⟩ ⟨0, fun _ => false⟩ (construct ⟨0, [0, 0], 0, 0, 0⟩))
        ([⟨1, fun _ => true⟩] ++ [⟨1, fun _ => false⟩])) 0 = false :=
  ⟨⟨rfl, rfl⟩,
   (passthrough ⟨8, 2, 0, 0, 8⟩ 0 ⟨0, [0, 0], 0, 0, 0⟩ ⟨0, fun _ => false⟩
      [⟨1, fun _ => true⟩] ⟨1, fun _ => false⟩ (by decide) (by decide) (by decide)
      rfl rfl rfl (by decide) (by decide)).2.1⟩


/-! ## The two variants simulate each other (C8) -/

theorem narrowChannel_ts_other (c : Config) (tdiff : Nat) (env : Tick) (s : State)
    {k j : Nat} (hne : k ≠ j) : (narrowChannel c tdiff env s k).ts j = s.ts j := by
  unfold narrowChannel narrowLock narrowLevel narrowDecrement
  dsimp only
  split_ifs <;> simp [State.ts, State.setTs, List.getElem?_set, hne]

theorem wideChannel_ts_other (c : Config) (now : Nat) (env : Tick) (s : State)
    {k j : Nat} (hne : k ≠ j) : (wideChannel c now env s k).ts j = s.ts j := by
  unfold wideChannel wideLock wideLevel
  dsimp only
  split_ifs <;> simp [State.ts, State.setTs, List.getElem?_set, hne]

theorem narrowDecrement_masks (tdiff : Nat) (s : State) (k : Nat) :
    SameMasks (narrowDecrement tdiff s k) s ∧
    (narrowDecrement tdiff s k).timestamp.length = s.timestamp.length := by
  unfold narrowDecrement SameMasks
  split_ifs <;> simp [State.setTs]

/-- The lock-out blocks of the two variants act alike on corresponding objects. -/
theorem lock_sim (c : Config) (rn rw : Nat) (now : Nat) (a b : State) (k : Nat)
    (hD : c.debounceMS ≤ ({ c with registerSize := rn } : Config).timingMax)
    (hov : now + c.debounceMS < 2 ^ 32)
    (hm : SameMasks a b) (hka : k < a.timestamp.length) (hkb : k < b.timestamp.length)
    (hts : a.ts k = b.ts k - now) :
    (narrowLock { c with registerSize := rn } a k).2
      = (wideLock { c with registerSize := rw } now b k).2 ∧
    SameMasks (narrowLock { c with registerSize := rn } a k).1
      (wideLock { c with registerSize := rw } now b k).1 ∧
    (narrowLock { c with registerSize := rn } a k).1.timestamp.length = a.timestamp.length ∧
    (wideLock { c with registerSize := rw } now b k).1.timestamp.length
      = b.timestamp.length ∧
    (narrowLock { c with registerSize := rn } a k).1.ts k
      = (wideLock { c with registerSize := rw } now b k).1.ts k - now ∧
    (narrowLock { c with registerSize := rn } a k).1.ts k
      ≤ max (a.ts k) ({ c with registerSize := rn } : Config).timingMax := by
  obtain ⟨h1, h2, h3⟩ := hm
  have hlk : a.locked { c with registerSize := rn } k
      = b.locked { c with registerSize := rw } k := by
    unfold State.locked; rw [h3]
  have hDn := toTiming_eq { c with registerSize := rn } hD
  have hDn' : ({ c with registerSize := rn } : Config).toTiming c.debounceMS
      = c.debounceMS := hDn
  unfold narrowLock wideLock
  rw [hlk]
  dsimp only
  rw [hDn', add32_eq hov]
  by_cases hl : b.locked { c with registerSize := rw } k = true
  · by_cases hz : a.ts k = 0
    · have hnb : ¬ now < b.ts k := by omega
      simp only [hl, if_true, hz, ne_eq, not_true_eq_false, if_false, hnb]
      refine ⟨trivial, ⟨h1, h2, by simp [State.setTs, h3]⟩, by simp [State.setTs],
        by simp [State.setTs], ?_, ?_⟩
      · simp [State.ts, State.setTs, List.getElem?_set, hka, hkb]
      · have hle : c.debounceMS ≤ ({ c with registerSize := rn } : Config).timingMax := hD
        simp [State.ts, State.setTs, List.getElem?_set, hka]
        exact hle
    · have hb : now < b.ts k := by omega
      simp only [hl, if_true, hz, ne_eq, not_false_eq_true, hb]
      exact ⟨trivial, ⟨h1, h2, h3⟩, trivial, trivial, hts, le_max_left _ _⟩
  · simp only [hl, Bool.false_eq_true, if_false]
    exact ⟨trivial, ⟨h1, h2, h3⟩, trivial, trivial, hts, le_max_left _ _⟩


/-- The level checks of the two variants act alike on corresponding objects. -/
theorem level_sim (c : Config) (rn rw : Nat) (now : Nat) (env : Tick) (a b : State) (k : Nat)
    (hD : c.debounceMS ≤ ({ c with registerSize := rn } : Config).timingMax)
    (hL : c.lockoutMS ≤ ({ c with registerSize := rn } : Config).timingMax)
    (hovD : now + c.debounceMS < 2 ^ 32) (hovL : now + c.lockoutMS < 2 ^ 32)
    (hm : SameMasks a b) (hka : k < a.timestamp.length) (hkb : k < b.timestamp.length)
    (hts : a.ts k = b.ts k - now) :
    SameMasks (narrowLevel { c with registerSize := rn } env a k)
      (wideLevel { c with registerSize := rw } now env b k) ∧
    (narrowLevel { c with registerSize := rn } env a k).timestamp.length
      = a.timestamp.length ∧
    (wideLevel { c with registerSize := rw } now env b k).timestamp.length
      = b.timestamp.length ∧
    (narrowLevel { c with registerSize := rn } env a k).ts k
      = (wideLevel { c with registerSize := rw } now env b k).ts k - now ∧
    (narrowLevel { c with registerSize := rn } env a k).ts k
      ≤ max (a.ts k) ({ c with registerSize := rn } : Config).timingMax := by
  obtain ⟨h1, h2, h3⟩ := hm
  have hlv : a.level { c with registerSize := rn } k
      = b.level { c with registerSize := rw } k := by
    unfold State.level; rw [h1]
  have hDn : ({ c with registerSize := rn } : Config).toTiming c.debounceMS
      = c.debounceMS := toTiming_eq { c with registerSize := rn } hD
  have hLn : ({ c with registerSize := rn } : Config).toTiming c.lockoutMS
      = c.lockoutMS := toTiming_eq { c with registerSize := rn } hL
  have hDle : c.debounceMS ≤ ({ c with registerSize := rn } : Config).timingMax := hD
  have hLle : c.lockoutMS ≤ ({ c with registerSize := rn } : Config).timingMax := hL
  unfold narrowLevel wideLevel
  rw [hlv]
  dsimp only
  rw [hDn, hLn, add32_eq hovD, add32_eq hovL]
  by_cases hr : (env.digitalRead k != b.level { c with registerSize := rw } k) = true
  · by_cases hz : a.ts k = 0
    · have hnb : ¬ b.ts k > now := by omega
      simp only [hr, if_true, hz, ne_eq, not_true_eq_false, if_false, hnb]
      refine ⟨⟨h1, by simp [State.setTs, h2], h3⟩, by simp [State.setTs],
        by simp [State.setTs], ?_, ?_⟩
      · simp [State.ts, State.setTs, List.getElem?_set, hka, hkb]
      · simp [State.ts, State.setTs, List.getElem?_set, hka]
        exact hLle
    · have hb : b.ts k > now := by omega
      simp only [hr, if_true, hz, ne_eq, not_false_eq_true, hb]
      exact ⟨⟨h1, h2, h3⟩, trivial, trivial, hts, le_max_left _ _⟩
  · simp only [hr, Bool.false_eq_true, if_false]
    refine ⟨⟨h1, h2, h3⟩, by simp [State.setTs], by simp [State.setTs], ?_, ?_⟩
    · simp [State.ts, State.setTs, List.getElem?_set, hka, hkb]
    · simp [State.ts, State.setTs, List.getElem?_set, hka]
      exact Or.inr hDle

/-- One loop iteration of the two variants on corresponding objects. -/
theorem body_sim (c : Config) (rn rw : Nat) (t now : Nat) (env : Tick) (a b : State) (k : Nat)
    (hD : c.debounceMS ≤ ({ c with registerSize := rn } : Config).timingMax)
    (hL : c.lockoutMS ≤ ({ c with registerSize := rn } : Config).timingMax)
    (hovD : now + c.debounceMS < 2 ^ 32) (hovL : now + c.lockoutMS < 2 ^ 32)
    (ht : t ≤ now)
    (hm : SameMasks a b) (hka : k < a.timestamp.length) (hkb : k < b.timestamp.length)
    (hts : a.ts k = b.ts k - t)
    (hle : a.ts k ≤ ({ c with registerSize := rn } : Config).timingMax) :
    SameMasks
      (narrowChannel { c with registerSize := rn }
        (min (now - t) ({ c with registerSize := rn } : Config).timingMax) env a k)
      (wideChannel { c with registerSize := rw } now env b k) ∧
    (narrowChannel { c with registerSize := rn }
        (min (now - t) ({ c with registerSize := rn } : Config).timingMax) env a k).ts k
      = (wideChannel { c with registerSize := rw } now env b k).ts k - now ∧
    (narrowChannel { c with registerSize := rn }
        (min (now - t) ({ c with registerSize := rn } : Config).timingMax) env a k).ts k
      ≤ ({ c with registerSize := rn } : Config).timingMax := by
  obtain ⟨dm, dl⟩ := narrowDecrement_masks
    (min (now - t) ({ c with registerSize := rn } : Config).timingMax) a k
  have dts := narrowDecrement_ts
    (min (now - t) ({ c with registerSize := rn } : Config).timingMax) a k k hka
  simp only [if_true] at dts
  have dts' : (narrowDecrement
      (min (now - t) ({ c with registerSize := rn } : Config).timingMax) a k).ts k
      = b.ts k - now := by rw [dts]; omega
  have dle : (narrowDecrement
      (min (now - t) ({ c with registerSize := rn } : Config).timingMax) a k).ts k
      ≤ ({ c with registerSize := rn } : Config).timingMax := by rw [dts]; omega
  unfold narrowChannel wideChannel
  generalize narrowDecrement
    (min (now - t) ({ c with registerSize := rn } : Config).timingMax) a k = d
    at dm dl dts' dle
  have hmd : SameMasks d b := ⟨dm.1.trans hm.1, dm.2.1.trans hm.2.1, dm.2.2.trans hm.2.2⟩
  have hkd : k < d.timestamp.length := by rw [dl]; exact hka
  obtain ⟨l1, l2, l3, l4, l5, l6⟩ := lock_sim c rn rw now d b k hD hovD hmd hkd hkb dts'
  dsimp only
  rw [l1]
  by_cases hcont : (wideLock { c with registerSize := rw } now b k).2 = true
  · simp only [hcont, if_true]
    exact ⟨l2, l5, le_trans l6 (max_le dle (le_refl _))⟩
  · simp only [hcont, Bool.false_eq_true, if_false]
    obtain ⟨v1, _, _, v4, v5⟩ := level_sim c rn rw now env _ _ k hD hL hovD hovL l2
      (by rw [l3]; exact hkd) (by rw [l4]; exact hkb) l5
    exact ⟨v1, v4, le_trans v5 (max_le (le_trans l6 (max_le dle (le_refl _))) (le_refl _))⟩


/-- The loops of the two variants on corresponding objects: the channels already visited
correspond at the new clock reading, the others still at the old one. -/
theorem loop_sim (c : Config) (rn rw : Nat) (t now : Nat) (env : Tick)
    (hD : c.debounceMS ≤ ({ c with registerSize := rn } : Config).timingMax)
    (hL : c.lockoutMS ≤ ({ c with registerSize := rn } : Config).timingMax)
    (hovD : now + c.debounceMS < 2 ^ 32) (hovL : now + c.lockoutMS < 2 ^ 32)
    (ht : t ≤ now) (a b : State) (hm : SameMasks a b)
    (hla : a.timestamp.length = c.N) (hlb : b.timestamp.length = c.N)
    (hts : ∀ j, j < c.N →
      a.ts j = b.ts j - t ∧ a.ts j ≤ ({ c with registerSize := rn } : Config).timingMax) :
    ∀ n, n ≤ c.N →
      SameMasks
        ((List.range n).foldl (narrowChannel { c with registerSize := rn }
          (min (now - t) ({ c with registerSize := rn } : Config).timingMax) env) a)
        ((List.range n).foldl (wideChannel { c with registerSize := rw } now env) b) ∧
      ((List.range n).foldl (narrowChannel { c with registerSize := rn }
          (min (now - t) ({ c with registerSize := rn } : Config).timingMax) env)
          a).timestamp.length = c.N ∧
      ((List.range n).foldl (wideChannel { c with registerSize := rw } now env)
          b).timestamp.length = c.N ∧
      ∀ j, j < c.N →
        ((List.range n).foldl (narrowChannel { c with registerSize := rn }
            (min (now - t) ({ c with registerSize := rn } : Config).timingMax) env) a).ts j
          = ((List.range n).foldl (wideChannel { c with registerSize := rw } now env) b).ts j
              - (if j < n then now else t) ∧
        ((List.range n).foldl (narrowChannel { c with registerSize := rn }
            (min (now - t) ({ c with registerSize := rn } : Config).timingMax) env) a).ts j
          ≤ ({ c with registerSize := rn } : Config).timingMax := by
  intro n
  induction n with
  | zero =>
    intro _
    exact ⟨hm, hla, hlb, fun j hj => by simpa using hts j hj⟩
  | succ n ih =>
    intro hn
    obtain ⟨i1, i2, i3, i4⟩ := ih (Nat.le_of_succ_le hn)
    rw [List.range_succ, List.foldl_append, List.foldl_append]
    simp only [List.foldl_cons, List.foldl_nil]
    have hn' : n < c.N := hn
    have hcur := i4 n hn'
    rw [if_neg (lt_irrefl n)] at hcur
    obtain ⟨b1, b2, b3⟩ := body_sim c rn rw t now env _ _ n hD hL hovD hovL ht i1
      (by rw [i2]; exact hn') (by rw [i3]; exact hn') hcur.1 hcur.2
    refine ⟨b1, by rw [narrowChannel_length]; exact i2, by rw [wideChannel_length]; exact i3,
      fun j hj => ?_⟩
    by_cases hjn : j = n
    · subst hjn
      rw [if_pos (Nat.lt_succ_self j)]
      exact ⟨b2, b3⟩
    · have hne : n ≠ j := fun h => hjn h.symm
      rw [narrowChannel_ts_other _ _ _ _ hne, wideChannel_ts_other _ _ _ _ hne]
      have := i4 j hj
      by_cases hlt : j < n
      · rw [if_pos hlt] at this
        rw [if_pos (Nat.lt_succ_of_lt hlt)]
        exact this
      · rw [if_neg hlt] at this
        rw [if_neg (by omega)]
        exact this

/-- One `update()` of the two variants on corresponding objects. -/
theorem update_sim (c : Config) (rn rw : Nat) (hrn : rn < 32) (hrw : 32 ≤ rw)
    (t : Nat) (env : Tick) (a b : State)
    (hD : c.debounceMS ≤ ({ c with registerSize := rn } : Config).timingMax)
    (hL : c.lockoutMS ≤ ({ c with registerSize := rn } : Config).timingMax)
    (hovD : env.millis + c.debounceMS < 2 ^ 32) (hovL : env.millis + c.lockoutMS < 2 ^ 32)
    (ht : t ≤ env.millis)
    (h : Corresponds c.N ({ c with registerSize := rn } : Config).timingMax t a b) :
    Corresponds c.N ({ c with registerSize := rn } : Config).timingMax env.millis
      (update { c with registerSize := rn } env a)
      (update { c with registerSize := rw } env b) := by
  obtain ⟨hm, hnow, hla, hlb, hts⟩ := h
  have hcn : ({ c with registerSize := rn } : Config).narrow = true := by
    simp [Config.narrow, hrn]
  have hcw : ({ c with registerSize := rw } : Config).narrow = false := by
    simp [Config.narrow]; omega
  have hua : update { c with registerSize := rn } env a
      = updateNarrow { c with registerSize := rn } env a := by simp [update, hcn]
  have hub : update { c with registerSize := rw } env b
      = updateWide { c with registerSize := rw } env b := by simp [update, hcw]
  have hlt : env.millis < 2 ^ 32 := by omega
  have hstart : SameMasks (narrowStart env a) { b with m_change := 0 } ∧
      (narrowStart env a).timestamp.length = c.N ∧
      ∀ j, (narrowStart env a).ts j = a.ts j := by
    unfold narrowStart SameMasks
    dsimp only
    split_ifs <;> exact ⟨⟨hm.1, rfl, hm.2.2⟩, hla, fun _ => rfl⟩
  obtain ⟨s1, s2, s3⟩ := hstart
  obtain ⟨l1, l2, l3, l4⟩ := loop_sim c rn rw t env.millis env hD hL hovD hovL ht
    (narrowStart env a) { b with m_change := 0 } s1 s2 hlb
    (fun j hj => by rw [s3]; exact hts j hj) c.N (le_refl _)
  rw [hua, hub, updateNarrow_eq, hnow, elapsed_eq _ ht hlt]
  unfold updateWide
  dsimp only
  refine ⟨?_, ?_, l2, l3, fun j hj => ?_⟩
  · obtain ⟨m1, m2, m3⟩ := l1
    unfold applyChange SameMasks
    dsimp only
    rw [m1, m2, m3]
    exact ⟨rfl, rfl, rfl⟩
  · have := updateNarrow_m_now { c with registerSize := rn } env a
    rw [updateNarrow_eq, hnow, elapsed_eq _ ht hlt] at this
    exact this
  · have := l4 j hj
    rw [if_pos hj] at this
    exact this

/-- The loops of `setup()` of the two variants. -/
theorem setup_loop_sim (c : Config) (rn rw : Nat) (x y : Nat) (env : Tick) (a b : State)
    (hm : SameMasks a b) (hla : a.timestamp.length = c.N) (hlb : b.timestamp.length = c.N) :
    ∀ n, n ≤ c.N →
      SameMasks
        ((List.range n).foldl (setupChannel { c with registerSize := rn } x env) a)
        ((List.range n).foldl (setupChannel { c with registerSize := rw } y env) b) ∧
      ((List.range n).foldl (setupChannel { c with registerSize := rn } x env)
        a).timestamp.length = c.N ∧
      ((List.range n).foldl (setupChannel { c with registerSize := rw } y env)
        b).timestamp.length = c.N ∧
      ∀ j, j < n →
        ((List.range n).foldl (setupChannel { c with registerSize := rn } x env) a).ts j = x ∧
        ((List.range n).foldl (setupChannel { c with registerSize := rw } y env) b).ts j = y := by
  intro n
  induction n with
  | zero => intro _; exact ⟨hm, hla, hlb, fun j hj => absurd hj (Nat.not_lt_zero j)⟩
  | succ n ih =>
    intro hn
    obtain ⟨i1, i2, i3, i4⟩ := ih (Nat.le_of_succ_le hn)
    rw [List.range_succ, List.foldl_append, List.foldl_append]
    simp only [List.foldl_cons, List.foldl_nil]
    generalize (List.range n).foldl (setupChannel { c with registerSize := rn } x env) a = a1
      at i1 i2 i4
    generalize (List.range n).foldl (setupChannel { c with registerSize := rw } y env) b = b1
      at i1 i3 i4
    have hn' : n < c.N := hn
    obtain ⟨m1, m2, m3⟩ := i1
    have hka : n < a1.timestamp.length := by rw [i2]; exact hn'
    have hkb : n < b1.timestamp.length := by rw [i3]; exact hn'
    have hts : ∀ (cc : Config) (z : Nat) (s : State) (j : Nat), n < s.timestamp.length →
        (setupChannel cc z env s n).ts j = if n = j then z else s.ts j := by
      intro cc z s j hk
      unfold setupChannel
      dsimp only
      split_ifs <;> simp_all [State.ts, State.setTs, List.getElem?_set]
    refine ⟨?_, by rw [setupChannel_length]; exact i2, by rw [setupChannel_length]; exact i3,
      fun j hj => ?_⟩
    · unfold setupChannel SameMasks
      dsimp only
      split_ifs <;> simp [State.setTs, m1, m2, m3]
    · rw [hts _ _ _ _ hka, hts _ _ _ _ hkb]
      by_cases hjn : n = j
      · simp [hjn]
      · simp only [if_neg hjn]
        exact i4 j (by omega)


/-- After `setup()` the two variants correspond. -/
theorem setup_sim (c : Config) (rn rw : Nat) (hrn : rn < 32) (hrw : 32 ≤ rw)
    (env0 : Tick) (memN memW : State)
    (hD : c.debounceMS ≤ ({ c with registerSize := rn } : Config).timingMax)
    (hovD : env0.millis + c.debounceMS < 2 ^ 32)
    (hlenN : memN.timestamp.length = c.N) (hlenW : memW.timestamp.length = c.N) :
    Corresponds c.N ({ c with registerSize := rn } : Config).timingMax env0.millis
      (setup { c with registerSize := rn } env0 (construct memN))
      (setup { c with registerSize := rw } env0 (construct memW)) := by
  have hcn : ({ c with registerSize := rn } : Config).narrow = true := by
    simp [Config.narrow, hrn]
  have hcw : ({ c with registerSize := rw } : Config).narrow = false := by
    simp [Config.narrow]; omega
  have hDn : ({ c with registerSize := rn } : Config).toTiming c.debounceMS
      = c.debounceMS := toTiming_eq { c with registerSize := rn } hD
  have hDle : c.debounceMS ≤ ({ c with registerSize := rn } : Config).timingMax := hD
  have hnow := setup_m_now { c with registerSize := rn } env0 (construct memN) hcn
  unfold setup at hnow ⊢
  simp only [hcn, hcw, if_true, Bool.false_eq_true, if_false] at hnow ⊢
  obtain ⟨k1, k2, k3, k4⟩ := setup_loop_sim c rn rw
    (({ c with registerSize := rn } : Config).toTiming c.debounceMS)
    (add32 env0.millis c.debounceMS) env0
    { construct memN with m_now := env0.millis } (construct memW)
    ⟨rfl, rfl, rfl⟩ hlenN hlenW c.N (le_refl _)
  refine ⟨k1, hnow, k2, k3, fun j hj => ?_⟩
  obtain ⟨t1, t2⟩ := k4 j hj
  have t1' := t1.trans hDn
  have t2' := t2.trans (add32_eq hovD)
  have harith : c.debounceMS = env0.millis + c.debounceMS - env0.millis := by omega
  exact ⟨(t1'.trans harith).trans (congrArg (fun x => x - env0.millis) t2'.symm),
    le_of_eq_of_le t1' hDle⟩

/-- Along a run the two variants keep corresponding. -/
theorem run_sim (c : Config) (rn rw : Nat) (hrn : rn < 32) (hrw : 32 ≤ rw)
    (hD : c.debounceMS ≤ ({ c with registerSize := rn } : Config).timingMax)
    (hL : c.lockoutMS ≤ ({ c with registerSize := rn } : Config).timingMax) :
    ∀ (ticks : List Tick) (t : Nat) (a b : State),
      Corresponds c.N ({ c with registerSize := rn } : Config).timingMax t a b →
      NoOverflow c ticks → NonDecreasing t ticks →
      Corresponds c.N ({ c with registerSize := rn } : Config).timingMax (lastMillis t ticks)
        (run { c with registerSize := rn } a ticks)
        (run { c with registerSize := rw } b ticks) := by
  intro ticks
  induction ticks with
  | nil => intro t a b h _ _; exact h
  | cons e l ih =>
    intro t a b h hov hmono
    obtain ⟨m1, m2⟩ := nonDecreasing_cons hmono
    obtain ⟨o1, o2⟩ := hov e (List.mem_cons_self _ _)
    rw [run_cons, run_cons, lastMillis_cons]
    exact ih _ _ _ (update_sim c rn rw hrn hrw t e a b hD hL o1 o2 m1 h)
      (fun x hx => hov x (List.mem_cons_of_mem _ hx)) m2

/-- C8 (the two timing-register variants are observably equivalent).  Take two
instantiations that differ only in `__DBNC_REGISTER_SIZE`, one narrow (8- or 16-bit counters,
`rn ≤ 16`) and one wide (`rw ≥ 32`), for any `N` and any bitmask width, with `debounceMS` and
`lockoutMS` fitting the narrow counter type, clock readings that never decrease and no reading
plus an interval above `2^32 - 1`.  After `setup()` and after every number of `update()`
calls, fed the same clock readings and raw levels, both objects have the same state, change
and lock masks, and every narrow counter equals the wide deadline minus the current clock
reading, cut off at 0. -/
theorem schemes_equivalent (c : Config) (rn rw : Nat) (hrn : rn ≤ 16) (hrw : 32 ≤ rw)
    (hD : c.debounceMS ≤ ({ c with registerSize := rn } : Config).timingMax)
    (hL : c.lockoutMS ≤ ({ c with registerSize := rn } : Config).timingMax)
    (memN memW : State) (hlenN : memN.timestamp.length = c.N)
    (hlenW : memW.timestamp.length = c.N) (env0 : Tick) (ticks : List Tick)
    (hov : NoOverflow c (env0 :: ticks)) (hmono : NonDecreasing env0.millis ticks) :
    (run { c with registerSize := rn }
        (setup { c with registerSize := rn } env0 (construct memN)) ticks).m_state
      = (run { c with registerSize := rw }
          (setup { c with registerSize := rw } env0 (construct memW)) ticks).m_state ∧
    (run { c with registerSize := rn }
        (setup { c with registerSize := rn } env0 (construct memN)) ticks).m_change
      = (run { c with registerSize := rw }
          (setup { c with registerSize := rw } env0 (construct memW)) ticks).m_change ∧
    (run { c with registerSize := rn }
        (setup { c with registerSize := rn } env0 (construct memN)) ticks).m_lock
      = (run { c with registerSize := rw }
          (setup { c with registerSize := rw } env0 (construct memW)) ticks).m_lock ∧
    ∀ j, j < c.N →
      (run { c with registerSize := rn }
          (setup { c with registerSize := rn } env0 (construct memN)) ticks).ts j
        = (run { c with registerSize := rw }
            (setup { c with registerSize := rw } env0 (construct memW)) ticks).ts j
          - lastMillis env0.millis ticks := by
  have hrn' : rn < 32 := by omega
  have h0 := setup_sim c rn rw hrn' hrw env0 memN memW hD (hov env0 (by simp)).1 hlenN hlenW
  obtain ⟨⟨m1, m2, m3⟩, _, _, _, hts⟩ := run_sim c rn rw hrn' hrw hD hL ticks env0.millis _ _ h0
    (fun e he => hov e (List.mem_cons_of_mem _ he)) hmono
  exact ⟨m1, m2, m3, fun j hj => (hts j hj).1⟩

/-- Witness for `schemes_equivalent`: 8-bit counters against 32-bit deadlines, two channels,
`debounceMS = 20`, `lockoutMS = 50`, calls at readings 5, 25 and 40. -/
theorem schemes_equivalent_witness :
    ((8 : Nat) ≤ 16 ∧ (32 : Nat) ≤ 32) ∧
    (run { (⟨8, 2, 20, 50, 0⟩ : Config) with registerSize := 8 }
        (setup { (⟨8, 2, 20, 50, 0⟩ : Config) with registerSize := 8 } ⟨0, fun _ => false⟩
          (construct ⟨0, [0, 0], 0, 0, 0⟩))
        [⟨5, fun _ => true⟩, ⟨25, fun _ => true⟩, ⟨40, fun _ => false⟩]).m_state
      = (run { (⟨8, 2, 20, 50, 0⟩ : Config) with registerSize := 32 }
          (setup { (⟨8, 2, 20, 50, 0⟩ : Config) with registerSize := 32 } ⟨0, fun _ => false⟩
            (construct ⟨9, [7, 7], 0, 0, 0⟩))
          [⟨5, fun _ => true⟩, ⟨25, fun _ => true⟩, ⟨40, fun _ => false⟩]).m_state :=
  ⟨by decide,
   (schemes_equivalent ⟨8, 2, 20, 50, 0⟩ 8 32 (by decide) (by decide) (by decide) (by decide)
      ⟨0, [0, 0], 0, 0, 0⟩ ⟨9, [7, 7], 0, 0, 0⟩ rfl rfl ⟨0, fun _ => false⟩
      [⟨5, fun _ => true⟩, ⟨25, fun _ => true⟩, ⟨40, fun _ => false⟩]
      (by decide) (by decide)).1⟩


/-! ## The concrete bounce example (C7) -/

/-- A run of either variant, seen on one channel, is a `chanRun`. -/
theorem view_run (c : Config) {i : Nat} (hi : i < c.N) (hN : c.N ≤ c.W) (hW : c.W ≤ 32) :
    ∀ (ticks : List Tick) (t : Nat) (s : State), Tracked c t s i → NoOverflow c ticks →
      NonDecreasing t ticks →
      viewAt c (lastMillis t ticks) (run c s ticks) i
        = chanRun c.dv c.lv t (viewAt c t s i)
            (ticks.map fun e => (e.millis, e.digitalRead i)) := by
  intro ticks
  induction ticks with
  | nil => intro t s _ _ _; rfl
  | cons e l ih =>
    intro t s htr hov hmono
    obtain ⟨m1, m2⟩ := nonDecreasing_cons hmono
    obtain ⟨h1, h2⟩ := view_update c e s t hi hN hW htr m1 (hov e (List.mem_cons_self _ _))
    rw [run_cons, lastMillis_cons, List.map_cons, chanRun,
      ih _ _ h1 (fun x hx => hov x (List.mem_cons_of_mem _ hx)) m2, h2]

theorem nonDecreasing_of_cons {t0 : Nat} {e : Tick} {l : List Tick}
    (h1 : t0 ≤ e.millis) (h2 : NonDecreasing e.millis l) : NonDecreasing t0 (e :: l) := by
  unfold NonDecreasing at h2 ⊢
  rw [List.map_cons, List.pairwise_cons]
  refine ⟨fun a ha => ?_, h2⟩
  rcases List.mem_cons.mp ha with rfl | ha
  · exact h1
  · exact le_trans h1 ((List.pairwise_cons.mp h2).1 a ha)

theorem demoTicks_append (g : Nat → Bool) (a m k : Nat) :
    demoTicks g a (m + k) = demoTicks g a m ++ demoTicks g (a + m) k := by
  induction m generalizing a with
  | zero => simp [demoTicks]
  | succ m ih =>
    have : m + 1 + k = (m + k) + 1 := by omega
    rw [this, demoTicks, demoTicks, ih, List.cons_append]
    congr 3
    omega

theorem demoTicks_mem (g : Nat → Bool) (a m : Nat) :
    ∀ e ∈ demoTicks g a m, a ≤ e.millis ∧ e.millis < a + m := by
  induction m generalizing a with
  | zero => intro e he; simp [demoTicks] at he
  | succ m ih =>
    intro e he
    rw [demoTicks] at he
    rcases List.mem_cons.mp he with rfl | he
    · exact ⟨le_refl _, by simp [demoTick]⟩
    · have := ih (a + 1) e he
      omega

theorem demoTicks_nonDecreasing (g : Nat → Bool) (t0 a m : Nat) (h : t0 ≤ a) :
    NonDecreasing t0 (demoTicks g a m) := by
  induction m generalizing a t0 with
  | zero => simp [demoTicks, NonDecreasing]
  | succ m ih =>
    rw [demoTicks]
    exact nonDecreasing_of_cons h (ih (demoTick g a).millis (a + 1) (by simp [demoTick]))

theorem demoTicks_lastMillis (g : Nat → Bool) (t0 a m : Nat) (hm : 0 < m) :
    lastMillis t0 (demoTicks g a m) = a + m - 1 := by
  induction m generalizing a t0 with
  | zero => omega
  | succ m ih =>
    rw [demoTicks, lastMillis_cons]
    cases m with
    | zero => simp [demoTicks, lastMillis, demoTick]
    | succ m =>
      rw [ih _ _ (Nat.succ_pos m)]
      omega

theorem timingMax_ge (c : Config) : 255 ≤ c.timingMax := by
  unfold Config.timingMax Config.timingBits
  split_ifs <;> norm_num

theorem rose_eq (c : Config) (s : State) {idx : Nat} (h : idx < c.W) :
    rose c s idx = (change c s idx && read c s idx) := by
  have ho := lt_opBits h
  unfold rose change read
  simp only [and_castShl_ne_zero _ _ ho, Nat.testBit_and]
  cases s.m_state.testBit idx <;> cases s.m_change.testBit idx <;> simp

/-- Up to reading 24 the levels of channel 0 do not depend on `g`. -/
theorem demoTicks_map_early (g : Nat → Bool) (a m : Nat) (h : a + m ≤ 25) :
    ((demoTicks g a m).map fun e => (e.millis, e.digitalRead 0))
      = ((demoTicks (fun _ => false) a m).map fun e => (e.millis, e.digitalRead 0)) := by
  induction m generalizing a with
  | zero => rfl
  | succ m ih =>
    rw [demoTicks, demoTicks, List.map_cons, List.map_cons, ih (a + 1) (by omega)]
    have ha : a ≤ 24 := by omega
    simp [demoTick, ha]

/-- The first 24 calls of the bounce example on the abstract channel. -/
theorem demo_first (g : Nat → Bool) (n : Nat) (h1 : 1 ≤ n) (h24 : n ≤ 24) :
    chanRun 20 50 0 ⟨20, false, false, false⟩
        ((demoTicks g 1 n).map fun e => (e.millis, e.digitalRead 0))
      = if n = 24 then ⟨50, true, true, true⟩
        else if n ≤ 4 then ⟨if n % 2 = 1 then 19 else 20, false, false, false⟩
        else ⟨24 - n, false, false, false⟩ := by
  rw [demoTicks_map_early g 1 n (by omega)]
  interval_cases n <;> decide

/-- C7 (concrete scenario), both variants: `N = 2`, `debounceMS = 20`, `lockoutMS = 50`,
`setup()` at clock 0 with both pins low, then one `update()` per millisecond at readings
1, 2, 3, …; channel 0 reads high, low, high, low at readings 1 to 4 and high from reading 5
to reading 24, and anything (`g`) on readings 25 to 73; channel 1 stays low.  After the call
at reading `n` (`1 ≤ n ≤ 73`): `rose(0)` and `change(0)` are true exactly for `n = 24`, and
`read(0)` is true exactly from reading 24 on. -/
theorem concrete_bounce (c : Config) (mem : State) (g : Nat → Bool) (n : Nat)
    (hN : c.N = 2) (hD : c.debounceMS = 20) (hL : c.lockoutMS = 50)
    (hW2 : 2 ≤ c.W) (hW : c.W ≤ 32) (hlen : mem.timestamp.length = 2)
    (h1 : 1 ≤ n) (h73 : n ≤ 73) :
    rose c (run c (setup c ⟨0, fun _ => false⟩ (construct mem)) (demoTicks g 1 n)) 0
      = decide (n = 24) ∧
    change c (run c (setup c ⟨0, fun _ => false⟩ (construct mem)) (demoTicks g 1 n)) 0
      = decide (n = 24) ∧
    read c (run c (setup c ⟨0, fun _ => false⟩ (construct mem)) (demoTicks g 1 n)) 0
      = decide (24 ≤ n) := by
  have hi : 0 < c.N := by omega
  have hNW : c.N ≤ c.W := by omega
  have hiW : 0 < c.W := by omega
  have hDfit : c.debounceMS ≤ c.timingMax := le_trans (by omega) (timingMax_ge c)
  have hLfit : c.lockoutMS ≤ c.timingMax := le_trans (by omega) (timingMax_ge c)
  have hdv : c.dv = 20 := (dv_eq c hDfit).trans hD
  have hlv : c.lv = 50 := (lv_eq c hLfit).trans hL
  have hovAll : ∀ a m, a + m ≤ 100 → NoOverflow c (demoTicks g a m) := fun a m ham e he => by
    have := demoTicks_mem g a m e he
    rw [hD, hL]
    constructor <;> omega
  obtain ⟨htr0, hv0⟩ := view_setup c ⟨0, fun _ => false⟩ mem hi hNW hW (by rw [hN]; exact hlen)
    (by rw [hD]; norm_num)
  rw [hdv] at hv0
  -- the view of channel 0 after the first `k ≤ 24` calls
  have hfirst : ∀ k, 1 ≤ k → k ≤ 24 →
      Tracked c k (run c (setup c ⟨0, fun _ => false⟩ (construct mem)) (demoTicks g 1 k)) 0 ∧
      viewAt c k (run c (setup c ⟨0, fun _ => false⟩ (construct mem)) (demoTicks g 1 k)) 0
        = if k = 24 then ⟨50, true, true, true⟩
          else if k ≤ 4 then ⟨if k % 2 = 1 then 19 else 20, false, false, false⟩
          else ⟨24 - k, false, false, false⟩ := by
    intro k hk1 hk24
    have hmono := demoTicks_nonDecreasing g 0 1 k (by omega)
    have hov := hovAll 1 k (by omega)
    have hlast : lastMillis 0 (demoTicks g 1 k) = k := by
      rw [demoTicks_lastMillis g 0 1 k (by omega)]; omega
    have t := tracked_run c hi hNW hW (demoTicks g 1 k) 0 _ htr0 hov hmono
    have v := view_run c hi hNW hW (demoTicks g 1 k) 0 _ htr0 hov hmono
    rw [hlast] at t v
    rw [hv0, hdv, hlv, demo_first g k hk1 hk24] at v
    exact ⟨t, v⟩
  rw [rose_eq c _ hiW]
  by_cases hn : n ≤ 24
  · obtain ⟨_, v⟩ := hfirst n h1 hn
    obtain ⟨o1, o2⟩ := obs_of_view c _ _ _ hiW v
    rw [o1, o2]
    by_cases h24 : n = 24
    · subst h24; simp
    · have hlt : ¬ 24 ≤ n := by omega
      by_cases h4 : n ≤ 4 <;> simp [h24, h4, hlt]
  · -- inside the lock-out window that starts at reading 24
    obtain ⟨m, rfl⟩ : ∃ m, n = 24 + m := ⟨n - 24, by omega⟩
    have hm : 0 < m := by omega
    obtain ⟨t24, v24⟩ := hfirst 24 (by norm_num) (le_refl _)
    rw [if_pos rfl] at v24
    rw [demoTicks_append, run_append]
    have key := view_invariant c hi hNW hW
      (fun t ch => 24 ≤ t ∧ ch.lock = true ∧ ch.state = true ∧ ch.timer = 50 - (t - 24) ∧
        (t ≠ 24 → ch.change = false))
      (fun e => e.millis - 24 < 50)
      (by
        intro t ch env hq hle ⟨h0, hl, hst, htm, _⟩
        rw [chanStep_in_lockout _ _ 50 24 t env.millis true _ ch h0 hle hq hl hst htm]
        exact ⟨by omega, rfl, rfl, rfl, fun _ => rfl⟩)
      (demoTicks g (1 + 24) m) 24 _ t24
      (by rw [v24]; exact ⟨le_refl _, rfl, rfl, rfl, fun h => absurd rfl h⟩)
      (fun e he => by
        have := demoTicks_mem g (1 + 24) m e he
        omega)
      (hovAll (1 + 24) m (by omega))
      (demoTicks_nonDecreasing g 24 (1 + 24) m (by omega))
    obtain ⟨_, _, _, hst, _, hchg⟩ := key
    have hlast : lastMillis 24 (demoTicks g (1 + 24) m) = 24 + m := by
      rw [demoTicks_lastMillis g 24 (1 + 24) m hm]; omega
    rw [hlast] at hst hchg
    have hc : change c (run c (run c (setup c ⟨0, fun _ => false⟩ (construct mem))
        (demoTicks g 1 24)) (demoTicks g (1 + 24) m)) 0 = false := by
      rw [change_eq c _ hiW]
      exact hchg (by omega)
    have hr : read c (run c (run c (setup c ⟨0, fun _ => false⟩ (construct mem))
        (demoTicks g 1 24)) (demoTicks g (1 + 24) m)) 0 = true := by
      rw [read_eq c _ hiW]
      exact hst
    rw [hc, hr]
    have h1' : ¬ 24 + m = 24 := by omega
    simp [h1']

/-- Witness for `concrete_bounce`: the narrow 8-bit variant at reading 24, with the pin
glitching low after reading 24. -/
theorem concrete_bounce_witness :
    ((⟨8, 2, 20, 50, 8⟩ : Config).N = 2 ∧ (1 : Nat) ≤ 24 ∧ (24 : Nat) ≤ 73) ∧
    rose ⟨8, 2, 20, 50, 8⟩
      (run ⟨8, 2, 20, 50, 8⟩
        (setup ⟨8, 2, 20, 50, 8⟩ ⟨0, fun _ => false⟩ (construct ⟨0, [0, 0], 0, 0, 0⟩))
        (demoTicks (fun _ => false) 1 24)) 0 = decide (24 = 24) :=
  ⟨by decide,
   (concrete_bounce ⟨8, 2, 20, 50, 8⟩ ⟨0, [0, 0], 0, 0, 0⟩ (fun _ => false) 24 rfl rfl rfl
      (by decide) (by decide) rfl (by decide) (by decide)).1⟩

/-! ## Timer initialisation by `setup()` (C15) -/

theorem setupChannel_ts (c : Config) (z : Nat) (env : Tick) (s : State) (k j : Nat)
    (hk : k < s.timestamp.length) :
    (setupChannel c z env s k).ts j = if k = j then z else s.ts j := by
  unfold setupChannel
  dsimp only
  split_ifs <;> simp_all [State.ts, State.setTs, List.getElem?_set]

theorem foldl_setupChannel_ts (c : Config) (z : Nat) (env : Tick) (s : State)
    (hlen : s.timestamp.length = c.N) :
    ∀ n, n ≤ c.N →
      ((List.range n).foldl (setupChannel c z env) s).timestamp.length = c.N ∧
      ∀ j, j < n → ((List.range n).foldl (setupChannel c z env) s).ts j = z := by
  intro n
  induction n with
  | zero => intro _; exact ⟨hlen, fun j hj => absurd hj (Nat.not_lt_zero j)⟩
  | succ n ih =>
    intro hn
    obtain ⟨i1, i2⟩ := ih (Nat.le_of_succ_le hn)
    rw [List.range_succ, List.foldl_append]
    simp only [List.foldl_cons, List.foldl_nil]
    refine ⟨by rw [setupChannel_length]; exact i1, fun j hj => ?_⟩
    rw [setupChannel_ts _ _ _ _ _ _ (by rw [i1]; exact hn)]
    by_cases hjn : n = j
    · simp [hjn]
    · rw [if_neg hjn]
      exact i2 j (by omega)

/-- Counterexample to C15 as stated: in the narrow variant with `debounceMS = 20`, `setup()`
leaves 20 in the timer of channel 0, not zero remaining time. -/
theorem setup_timer_not_zero :
    (setup ⟨8, 2, 20, 50, 8⟩ ⟨0, fun _ => false⟩ (construct ⟨0, [0, 0], 0, 0, 0⟩)).ts 0 = 20 ∧
    (setup ⟨8, 2, 20, 50, 8⟩ ⟨0, fun _ => false⟩ (construct ⟨0, [0, 0], 0, 0, 0⟩)).ts 0 ≠ 0 := by
  decide

/-- C15 amended (timer initialisation): `setup()` on a fresh object sets every channel timer
to a full debounce window: `debounceMS` converted to the counter type in the narrow variant,
the deadline (clock reading at setup + `debounceMS`) mod `2^32` in the wide variant. -/
theorem setup_timer (c : Config) (env : Tick) (mem : State) (i : Nat)
    (hi : i < c.N) (hlen : mem.timestamp.length = c.N) :
    (setup c env (construct mem)).ts i
      = if c.narrow then c.debounceMS % 2 ^ c.timingBits
        else (env.millis + c.debounceMS) % 2 ^ 32 := by
  unfold setup
  cases hc : c.narrow
  · simp only [Bool.false_eq_true, if_false]
    exact (foldl_setupChannel_ts c _ env (construct mem) hlen c.N (le_refl _)).2 i hi
  · simp only [if_true]
    exact (foldl_setupChannel_ts c _ env { construct mem with m_now := env.millis } hlen c.N
      (le_refl _)).2 i hi

/-- Witness for `setup_timer`: wide variant, `setup()` at clock reading 7. -/
theorem setup_timer_witness :
    ((0 : Nat) < (⟨8, 2, 20, 50, 32⟩ : Config).N) ∧
    (setup ⟨8, 2, 20, 50, 32⟩ ⟨7, fun _ => false⟩ (construct ⟨0, [0, 0], 0, 0, 0⟩)).ts 0
      = if (⟨8, 2, 20, 50, 32⟩ : Config).narrow
        then (⟨8, 2, 20, 50, 32⟩ : Config).debounceMS
          % 2 ^ (⟨8, 2, 20, 50, 32⟩ : Config).timingBits
        else (7 + (⟨8, 2, 20, 50, 32⟩ : Config).debounceMS) % 2 ^ 32 :=
  ⟨by decide, setup_timer ⟨8, 2, 20, 50, 32⟩ ⟨7, fun _ => false⟩ ⟨0, [0, 0], 0, 0, 0⟩ 0
    (by decide) rfl⟩


/-! ## State and lock update rule (C16) -/

theorem toMask_lt (W x : Nat) : toMask W x < 2 ^ W := Nat.mod_lt _ (by positivity)

theorem narrowChannel_m_change_lt (c : Config) (tdiff : Nat) (env : Tick) (s : State) (k : Nat)
    (h : s.m_change < 2 ^ c.W) : (narrowChannel c tdiff env s k).m_change < 2 ^ c.W := by
  unfold narrowChannel narrowLock narrowLevel narrowDecrement
  dsimp only
  split_ifs <;> first | exact h | exact toMask_lt _ _

theorem wideChannel_m_change_lt (c : Config) (now : Nat) (env : Tick) (s : State) (k : Nat)
    (h : s.m_change < 2 ^ c.W) : (wideChannel c now env s k).m_change < 2 ^ c.W := by
  unfold wideChannel wideLock wideLevel
  dsimp only
  split_ifs <;> first | exact h | exact toMask_lt _ _

theorem foldl_m_change_lt (c : Config) (f : State → Nat → State)
    (hf : ∀ s k, s.m_change < 2 ^ c.W → (f s k).m_change < 2 ^ c.W) (l : List Nat) :
    ∀ s : State, s.m_change < 2 ^ c.W → (l.foldl f s).m_change < 2 ^ c.W := by
  induction l with
  | nil => intro s h; exact h
  | cons k l ih => intro s h; exact ih _ (hf s k h)

/-- The change mask left by `update()` is a value of the bitmask type. -/
theorem update_m_change_lt (c : Config) (env : Tick) (s : State) :
    (update c env s).m_change < 2 ^ c.W := by
  have h0 : (0 : Nat) < 2 ^ c.W := by positivity
  unfold update
  split_ifs
  · rw [updateNarrow_eq]
    refine foldl_m_change_lt c _ (narrowChannel_m_change_lt c _ env) _ _ ?_
    unfold narrowStart
    dsimp only
    split_ifs <;> exact h0
  · unfold updateWide applyChange
    exact foldl_m_change_lt c _ (wideChannel_m_change_lt c _ env) _ _ h0

/-- The lock mask after `update()` contains the new change mask. -/
theorem update_m_lock (c : Config) (env : Tick) (s : State) :
    ∃ l, (update c env s).m_lock = toMask c.W (l ||| (update c env s).m_change) := by
  unfold update
  split_ifs
  · rw [updateNarrow_eq]; exact ⟨_, rfl⟩
  · unfold updateWide; exact ⟨_, rfl⟩

/-- C16 (state and lock update rule), either variant: for every object whose state mask is a
value of the bitmask type, every clock reading and raw levels, after `update()` the state mask
is the old state mask XOR the new change mask (bit by bit: a state bit is flipped exactly
when its change bit is set), and every channel whose change bit is set has its lock bit set
(`change AND lock = change`, i.e. `change AND NOT lock = 0`). -/
theorem state_lock_rule (c : Config) (env : Tick) (s : State) (hst : s.m_state < 2 ^ c.W) :
    (update c env s).m_state = s.m_state ^^^ (update c env s).m_change ∧
    (∀ j, (update c env s).m_state.testBit j
        = xor (s.m_state.testBit j) ((update c env s).m_change.testBit j)) ∧
    (∀ j, (update c env s).m_change.testBit j = true →
        (update c env s).m_lock.testBit j = true) ∧
    (update c env s).m_change &&& (update c env s).m_lock = (update c env s).m_change := by
  have hch := update_m_change_lt c env s
  have hxor : s.m_state ^^^ (update c env s).m_change < 2 ^ c.W := Nat.xor_lt_two_pow hst hch
  have h1 : (update c env s).m_state = s.m_state ^^^ (update c env s).m_change := by
    rw [update_m_state, toMask, Nat.mod_eq_of_lt hxor]
  obtain ⟨l, hl⟩ := update_m_lock c env s
  have h3 : ∀ j, (update c env s).m_change.testBit j = true →
      (update c env s).m_lock.testBit j = true := by
    intro j hj
    have hjW : j < c.W := by
      by_contra hcon
      have : (update c env s).m_change.testBit j = false :=
        Nat.testBit_lt_two_pow (lt_of_lt_of_le hch (Nat.pow_le_pow_right (by norm_num)
          (by omega)))
      rw [this] at hj
      exact Bool.noConfusion hj
    rw [hl]
    simp [toMask, Nat.testBit_mod_two_pow, hjW, hj]
  refine ⟨h1, fun j => ?_, h3, ?_⟩
  · rw [h1, Nat.testBit_xor]
  · apply Nat.eq_of_testBit_eq
    intro j
    rw [Nat.testBit_and]
    cases hj : (update c env s).m_change.testBit j
    · rfl
    · rw [h3 j hj]; rfl

/-- Witness for `state_lock_rule`: narrow 8-bit variant, the timer of channel 0 has run out
and its pin reads high. -/
theorem state_lock_rule_witness :
    ((⟨0, [0, 20], 0, 0, 0⟩ : State).m_state < 2 ^ (⟨8, 2, 20, 50, 8⟩ : Config).W) ∧
    (update ⟨8, 2, 20, 50, 8⟩ ⟨30, fun _ => true⟩ ⟨0, [0, 20], 0, 0, 0⟩).m_state
      = (⟨0, [0, 20], 0, 0, 0⟩ : State).m_state
        ^^^ (update ⟨8, 2, 20, 50, 8⟩ ⟨30, fun _ => true⟩ ⟨0, [0, 20], 0, 0, 0⟩).m_change :=
  ⟨by decide, (state_lock_rule ⟨8, 2, 20, 50, 8⟩ ⟨30, fun _ => true⟩ ⟨0, [0, 20], 0, 0, 0⟩
    (by decide)).1⟩


/-! ## The state only moves to an observed level (C17) -/

theorem chanUpdate_skipped (pre : Nat → Nat) (blocked : Nat → Bool) (dv lv : Nat) (r : Bool)
    (ch : Chan) (h : (ch.lock && blocked (pre ch.timer)) = true) :
    (chanUpdate pre blocked dv lv r ch).change = false ∧
    (chanUpdate pre blocked dv lv r ch).state = ch.state := by
  obtain ⟨timer, state, lock, chg⟩ := ch
  dsimp only at h
  simp [chanUpdate, chanBody, chanApply, h]

theorem chanUpdate_same_level (pre : Nat → Nat) (blocked : Nat → Bool) (dv lv : Nat) (r : Bool)
    (ch : Chan) (h : r = ch.state) :
    (chanUpdate pre blocked dv lv r ch).change = false ∧
    (chanUpdate pre blocked dv lv r ch).state = ch.state := by
  obtain ⟨timer, state, lock, chg⟩ := ch
  dsimp only at h
  subst h
  simp only [chanUpdate, chanBody, chanApply, bne_self_eq_false, Bool.false_eq_true, if_false]
  split_ifs <;> simp

theorem chanUpdate_change (pre : Nat → Nat) (blocked : Nat → Bool) (dv lv : Nat) (r : Bool)
    (ch : Chan) (h : (chanUpdate pre blocked dv lv r ch).change = true) :
    (ch.lock && blocked (pre ch.timer)) = false ∧
    (chanUpdate pre blocked dv lv r ch).state = r := by
  constructor
  · by_contra hcon
    have hs := (chanUpdate_skipped pre blocked dv lv r ch (by simpa using hcon)).1
    rw [hs] at h
    exact Bool.noConfusion h
  · rw [chanUpdate_of_change pre blocked dv lv r ch h]

/-- The `continue` flag of the lock-out block of iteration `i`, read off the object before the
call: the channel is locked and its window has not elapsed. -/
theorem lockBlock_flag (c : Config) (env : Tick) (s : State) {i : Nat}
    (hi : i < c.N) (hN : c.N ≤ c.W) (hW : c.W ≤ 32) (hlen : s.timestamp.length = c.N) :
    (lockBlock c env s i).2
      = ((chanOf s i).lock &&
          (if c.narrow then decide (s.ts i - elapsed c s.m_now env.millis ≠ 0)
           else decide (env.millis < s.ts i))) := by
  have hiW := lt_of_lt_of_le hi hN
  have hi32 := lt_of_lt_of_le hiW hW
  obtain ⟨hel, hech⟩ := chanOf_loopEntry c env s hi hN hW hlen
  have heLock : (loopEntry c env s i).m_lock.testBit i = (chanOf s i).lock := by
    have : (chanOf (loopEntry c env s i) i).lock = (chanOf s i).lock := by rw [hech]
    exact this
  have heTs : (loopEntry c env s i).ts i = s.ts i := by
    have : (chanOf (loopEntry c env s i) i).timer = s.ts i := by rw [hech]; rfl
    exact this
  have hilen : i < (loopEntry c env s i).timestamp.length := by rw [hel]; exact hi
  unfold lockBlock
  cases hc : c.narrow
  · simp only [Bool.false_eq_true, if_false]
    unfold wideLock
    rw [locked_eq _ hW hi32, heLock, heTs]
    cases (chanOf s i).lock <;> by_cases hb : env.millis < s.ts i <;> simp [hb]
  · simp only [if_true]
    have hd := narrowDecrement_ts (elapsed c s.m_now env.millis) (loopEntry c env s i) i i hilen
    simp only [if_true] at hd
    rw [heTs] at hd
    have hdl : (narrowDecrement (elapsed c s.m_now env.millis)
        (loopEntry c env s i) i).m_lock = (loopEntry c env s i).m_lock :=
      (narrowDecrement_masks _ _ _).1.2.2
    unfold narrowLock
    rw [locked_eq _ hW hi32, hdl, heLock, hd]
    cases (chanOf s i).lock <;>
      by_cases hb : s.ts i - elapsed c s.m_now env.millis = 0 <;> simp [hb]

/-- One `update()` of either variant on channel `i`, with the `continue` flag of its lock-out
block: a change excludes the `continue` and makes the state bit the level read; an agreeing
level or a `continue` leaves the state bit alone and reports nothing. -/
theorem update_observed (c : Config) (env : Tick) (s : State) {i : Nat}
    (hi : i < c.N) (hN : c.N ≤ c.W) (hW : c.W ≤ 32) (hlen : s.timestamp.length = c.N) :
    (update c env s).timestamp.length = c.N ∧
    (change c (update c env s) i = true →
      (lockBlock c env s i).2 = false ∧ read c (update c env s) i = env.digitalRead i) ∧
    (env.digitalRead i = read c s i →
      change c (update c env s) i = false ∧ read c (update c env s) i = read c s i) ∧
    ((lockBlock c env s i).2 = true →
      change c (update c env s) i = false ∧ read c (update c env s) i = read c s i) := by
  have hiW := lt_of_lt_of_le hi hN
  have hflag := lockBlock_flag c env s hi hN hW hlen
  rw [change_eq c _ hiW, read_eq c _ hiW, read_eq c _ hiW]
  cases hc : c.narrow
  · have hu : update c env s = updateWide c env s := by simp [update, hc]
    obtain ⟨hl, hch⟩ := chanOf_updateWide c env s hi hN hW hlen
    rw [hu, hch]
    simp only [hc, Bool.false_eq_true, if_false] at hflag
    rw [hflag]
    exact ⟨hl, fun h => chanUpdate_change _ _ _ _ _ _ h,
      fun h => chanUpdate_same_level _ _ _ _ _ _ h,
      fun h => chanUpdate_skipped _ _ _ _ _ _ h⟩
  · have hu : update c env s = updateNarrow c env s := by simp [update, hc]
    obtain ⟨hl, hch⟩ := chanOf_updateNarrow c env s hi hN hW hlen
    rw [hu, hch]
    simp only [hc, if_true] at hflag
    rw [hflag]
    exact ⟨hl, fun h => chanUpdate_change _ _ _ _ _ _ h,
      fun h => chanUpdate_same_level _ _ _ _ _ _ h,
      fun h => chanUpdate_skipped _ _ _ _ _ _ h⟩

/-- A line that stays at the recorded level never reports a transition. -/
theorem stuck_run (c : Config) {i : Nat} (hi : i < c.N) (hN : c.N ≤ c.W) (hW : c.W ≤ 32) :
    ∀ (ticks : List Tick) (s : State), s.timestamp.length = c.N →
      (∀ e ∈ ticks, e.digitalRead i = read c s i) →
      (run c s ticks).timestamp.length = c.N ∧
      read c (run c s ticks) i = read c s i ∧
      (ticks ≠ [] → change c (run c s ticks) i = false) := by
  intro ticks
  induction ticks with
  | nil => intro s hlen _; exact ⟨hlen, rfl, fun h => absurd rfl h⟩
  | cons e l ih =>
    intro s hlen hraw
    obtain ⟨hl, _, hag, _⟩ := update_observed c e s hi hN hW hlen
    obtain ⟨a1, a2⟩ := hag (hraw e (List.mem_cons_self _ _))
    obtain ⟨i1, i2, i3⟩ := ih (update c e s) hl
      (fun x hx => by rw [a2]; exact hraw x (List.mem_cons_of_mem _ hx))
    rw [run_cons]
    refine ⟨i1, i2.trans a2, fun _ => ?_⟩
    cases l with
    | nil => exact a1
    | cons x l' => exact i3 (List.cons_ne_nil _ _)

/-- C17 (the debounced state only ever moves to an observed level), either variant, for
`i < N ≤ W ≤ 32`: after `update()`, if `change(i)` is true then the lock-out block of channel
`i` did not `continue` (so the raw level was read in this call) and `read(i)` equals the raw
level read; if the raw level equals the state bit before the call, or the lock-out block took
`continue`, then `change(i)` is false and `read(i)` is unchanged.  Hence along any run on which
the line stays at its recorded level no call reports a transition. -/
theorem moves_to_observed_level (c : Config) (env : Tick) (s : State) (i : Nat)
    (hi : i < c.N) (hN : c.N ≤ c.W) (hW : c.W ≤ 32) (hlen : s.timestamp.length = c.N) :
    (change c (update c env s) i = true →
      (lockBlock c env s i).2 = false ∧ read c (update c env s) i = env.digitalRead i) ∧
    (env.digitalRead i = read c s i →
      change c (update c env s) i = false ∧ read c (update c env s) i = read c s i) ∧
    ((lockBlock c env s i).2 = true →
      change c (update c env s) i = false ∧ read c (update c env s) i = read c s i) ∧
    (∀ ticks : List Tick, ticks ≠ [] → (∀ e ∈ ticks, e.digitalRead i = read c s i) →
      change c (run c s ticks) i = false ∧ read c (run c s ticks) i = read c s i) := by
  obtain ⟨_, h1, h2, h3⟩ := update_observed c env s hi hN hW hlen
  refine ⟨h1, h2, h3, fun ticks hne hraw => ?_⟩
  obtain ⟨_, r1, r2⟩ := stuck_run c hi hN hW ticks s hlen hraw
  exact ⟨r2 hne, r1⟩

/-- Witness for `moves_to_observed_level`: wide variant, the deadline of channel 0 has passed
and its pin reads high while the state bit is low. -/
theorem moves_to_observed_level_witness :
    change ⟨8, 2, 20, 50, 32⟩
      (update ⟨8, 2, 20, 50, 32⟩ ⟨30, fun _ => true⟩ ⟨0, [20, 20], 0, 0, 0⟩) 0 = true ∧
    read ⟨8, 2, 20, 50, 32⟩
      (update ⟨8, 2, 20, 50, 32⟩ ⟨30, fun _ => true⟩ ⟨0, [20, 20], 0, 0, 0⟩) 0 = true :=
  ⟨by decide,
   ((moves_to_observed_level ⟨8, 2, 20, 50, 32⟩ ⟨30, fun _ => true⟩ ⟨0, [20, 20], 0, 0, 0⟩ 0
      (by decide) (by decide) (by decide) rfl).1 (by decide)).2⟩


/-! ## Channel independence (C19) -/

/-- One `update()` on two objects that agree on channel `i` (and on `m_now` in the narrow
variant), with the same clock reading and the same raw level on channel `i`. -/
theorem update_agree (c : Config) {i : Nat} (hi : i < c.N) (hN : c.N ≤ c.W) (hW : c.W ≤ 32)
    (e1 e2 : Tick) (a b : State)
    (he : e1.millis = e2.millis ∧ e1.digitalRead i = e2.digitalRead i)
    (h : chanOf a i = chanOf b i ∧ a.timestamp.length = c.N ∧ b.timestamp.length = c.N ∧
      (c.narrow = true → a.m_now = b.m_now)) :
    chanOf (update c e1 a) i = chanOf (update c e2 b) i ∧
    (update c e1 a).timestamp.length = c.N ∧ (update c e2 b).timestamp.length = c.N ∧
    (c.narrow = true → (update c e1 a).m_now = (update c e2 b).m_now) := by
  obtain ⟨hch, hla, hlb, hm⟩ := h
  obtain ⟨he1, he2⟩ := he
  cases hc : c.narrow
  · have hua : update c e1 a = updateWide c e1 a := by simp [update, hc]
    have hub : update c e2 b = updateWide c e2 b := by simp [update, hc]
    obtain ⟨l1, c1⟩ := chanOf_updateWide c e1 a hi hN hW hla
    obtain ⟨l2, c2⟩ := chanOf_updateWide c e2 b hi hN hW hlb
    rw [hua, hub, c1, c2, hch, he1, he2]
    exact ⟨rfl, l1, l2, fun h => Bool.noConfusion h⟩
  · have hua : update c e1 a = updateNarrow c e1 a := by simp [update, hc]
    have hub : update c e2 b = updateNarrow c e2 b := by simp [update, hc]
    obtain ⟨l1, c1⟩ := chanOf_updateNarrow c e1 a hi hN hW hla
    obtain ⟨l2, c2⟩ := chanOf_updateNarrow c e2 b hi hN hW hlb
    rw [hua, hub, c1, c2, hch, he1, he2, hm hc, updateNarrow_m_now, updateNarrow_m_now, he1]
    exact ⟨rfl, l1, l2, fun _ => rfl⟩

/-- Two runs with the same clock readings and the same raw levels on channel `i`, started
from objects that agree on channel `i`, agree on channel `i` at the end. -/
theorem run_agree (c : Config) {i : Nat} (hi : i < c.N) (hN : c.N ≤ c.W) (hW : c.W ≤ 32)
    (ticks1 ticks2 : List Tick)
    (hticks : List.Forall₂
      (fun e1 e2 : Tick => e1.millis = e2.millis ∧ e1.digitalRead i = e2.digitalRead i)
      ticks1 ticks2) :
    ∀ a b : State,
      (chanOf a i = chanOf b i ∧ a.timestamp.length = c.N ∧ b.timestamp.length = c.N ∧
        (c.narrow = true → a.m_now = b.m_now)) →
      chanOf (run c a ticks1) i = chanOf (run c b ticks2) i := by
  induction hticks with
  | nil => intro a b h; exact h.1
  | cons he _ ih =>
    intro a b h
    rw [run_cons, run_cons]
    exact ih _ _ (update_agree c hi hN hW _ _ a b he h)

/-- C19 (channel independence), either variant, for `i < N ≤ W ≤ 32`: two runs of `setup()`
followed by the same number of `update()` calls, with the same clock readings and the same raw
levels on channel `i` but arbitrary raw levels on the other channels (and arbitrary previous
memory contents), leave the same bit `i` in the state, change and lock masks and the same
timer of channel `i`, after `setup()` (empty lists) and after every `update()`. -/
theorem channel_independence (c : Config) (i : Nat) (env1 env2 : Tick) (mem1 mem2 : State)
    (ticks1 ticks2 : List Tick) (hi : i < c.N) (hN : c.N ≤ c.W) (hW : c.W ≤ 32)
    (hlen1 : mem1.timestamp.length = c.N) (hlen2 : mem2.timestamp.length = c.N)
    (henv : env1.millis = env2.millis ∧ env1.digitalRead i = env2.digitalRead i)
    (hticks : List.Forall₂
      (fun e1 e2 : Tick => e1.millis = e2.millis ∧ e1.digitalRead i = e2.digitalRead i)
      ticks1 ticks2) :
    (run c (setup c env1 (construct mem1)) ticks1).m_state.testBit i
      = (run c (setup c env2 (construct mem2)) ticks2).m_state.testBit i ∧
    (run c (setup c env1 (construct mem1)) ticks1).m_change.testBit i
      = (run c (setup c env2 (construct mem2)) ticks2).m_change.testBit i ∧
    (run c (setup c env1 (construct mem1)) ticks1).m_lock.testBit i
      = (run c (setup c env2 (construct mem2)) ticks2).m_lock.testBit i ∧
    (run c (setup c env1 (construct mem1)) ticks1).ts i
      = (run c (setup c env2 (construct mem2)) ticks2).ts i := by
  obtain ⟨l1, c1⟩ := chanOf_setup c env1 mem1 hi hN hW hlen1
  obtain ⟨l2, c2⟩ := chanOf_setup c env2 mem2 hi hN hW hlen2
  have h0 : chanOf (setup c env1 (construct mem1)) i
      = chanOf (setup c env2 (construct mem2)) i := by
    rw [c1, c2, henv.1, henv.2]
  have key := run_agree c hi hN hW ticks1 ticks2 hticks _ _
    ⟨h0, l1, l2, fun h => by rw [setup_m_now c env1 _ h, setup_m_now c env2 _ h, henv.1]⟩
  have k1 := congrArg Chan.state key
  have k2 := congrArg Chan.change key
  have k3 := congrArg Chan.lock key
  have k4 := congrArg Chan.timer key
  exact ⟨k1, k2, k3, k4⟩

/-- Witness for `channel_independence`: narrow 8-bit variant, two runs that differ in the
levels of channel 1 and in the previous memory contents. -/
theorem channel_independence_witness :
    ((0 : Nat) < (⟨8, 2, 20, 50, 8⟩ : Config).N) ∧
    (run ⟨8, 2, 20, 50, 8⟩
        (setup ⟨8, 2, 20, 50, 8⟩ ⟨0, fun _ => false⟩ (construct ⟨0, [0, 0], 0, 0, 0⟩))
        [⟨25, fun _ => true⟩]).m_state.testBit 0
      = (run ⟨8, 2, 20, 50, 8⟩
          (setup ⟨8, 2, 20, 50, 8⟩ ⟨0, fun j => decide (j = 1)⟩
            (construct ⟨3, [9, 9], 0, 0, 0⟩))
          [⟨25, fun j => decide (j = 0)⟩]).m_state.testBit 0 :=
  ⟨by decide,
   (channel_independence ⟨8, 2, 20, 50, 8⟩ 0 ⟨0, fun _ => false⟩ ⟨0, fun j => decide (j = 1)⟩
      ⟨0, [0, 0], 0, 0, 0⟩ ⟨3, [9, 9], 0, 0, 0⟩ [⟨25, fun _ => true⟩]
      [⟨25, fun j => decide (j = 0)⟩] (by decide) (by decide) (by decide) rfl rfl
      ⟨rfl, rfl⟩ (List.Forall₂.cons ⟨rfl, rfl⟩ List.Forall₂.nil)).1⟩


/-! ## Minimum spacing of events (C18) -/

/-- One step keeps the spacing invariant relative to an earlier change at `t1`: a locked
channel has not yet waited out the lock-out window, an unlocked one not yet the lock-out plus
the debounce window; and a change can only be reported once both have elapsed. -/
theorem chanStep_spacing (d l t1 t now : Nat) (r : Bool) (ch : Chan)
    (h1 : t1 ≤ t) (hle : t ≤ now)
    (hJ : (ch.lock = true → l ≤ ch.timer + (t - t1)) ∧
      (ch.lock = false → l + d ≤ ch.timer + (t - t1) ∧ ch.timer ≤ d)) :
    ((chanStep d l (now - t) r ch).lock = true →
        l ≤ (chanStep d l (now - t) r ch).timer + (now - t1)) ∧
    ((chanStep d l (now - t) r ch).lock = false →
        l + d ≤ (chanStep d l (now - t) r ch).timer + (now - t1) ∧
        (chanStep d l (now - t) r ch).timer ≤ d) ∧
    ((chanStep d l (now - t) r ch).change = true → l + d ≤ now - t1) := by
  obtain ⟨timer, state, lock, chg⟩ := ch
  obtain ⟨hJ1, hJ2⟩ := hJ
  dsimp only at hJ1 hJ2
  by_cases hz : timer - (now - t) = 0
  · cases lock
    · obtain ⟨j1, j2⟩ := hJ2 rfl
      by_cases hr : r = state
      · rw [chanStep_agree _ _ _ _ _ (Or.inl rfl) hr]
        simp; omega
      · have hr' : r = !state := by cases r <;> cases state <;> simp_all
        rw [chanStep_fire _ _ _ _ _ rfl hz hr']
        simp; omega
    · have j1 := hJ1 rfl
      by_cases hr : r = state
      · rw [chanStep_agree _ _ _ _ _ (Or.inr hz) hr]
        simp; omega
      · have hr' : r = !state := by cases r <;> cases state <;> simp_all
        rw [chanStep_unlock_differ _ _ _ _ _ rfl hz hr']
        by_cases hd : d = 0
        · simp [hd]; omega
        · simp [hd]; omega
  · cases lock
    · obtain ⟨j1, j2⟩ := hJ2 rfl
      by_cases hr : r = state
      · rw [chanStep_agree _ _ _ _ _ (Or.inl rfl) hr]
        simp; omega
      · have hr' : r = !state := by cases r <;> cases state <;> simp_all
        rw [chanStep_watch _ _ _ _ _ rfl hz hr']
        simp; omega
    · have j1 := hJ1 rfl
      rw [chanStep_locked _ _ _ _ _ rfl hz]
      simp; omega

/-- C18 (minimum spacing of events), both variants: with both intervals fitting the timer
type, non-decreasing clock readings and no reading plus an interval above `2^32 - 1`, if
`update()` at `env1` reports `change(i)` and, after any further calls `pre` with any raw
levels, the call `tk` reports `change(i)` again, then the clock readings of the two calls are
at least `lockoutMS + debounceMS` apart. -/
theorem event_spacing (c : Config) (i : Nat) (s0 : State) (env1 : Tick) (pre : List Tick)
    (tk : Tick) (hi : i < c.N) (hN : c.N ≤ c.W) (hW : c.W ≤ 32)
    (hD : c.debounceMS ≤ c.timingMax) (hL : c.lockoutMS ≤ c.timingMax)
    (hlen : s0.timestamp.length = c.N)
    (hov : NoOverflow c (env1 :: (pre ++ [tk])))
    (hmono : NonDecreasing env1.millis (pre ++ [tk]))
    (hchg1 : change c (update c env1 s0) i = true)
    (hchg2 : change c (run c (update c env1 s0) (pre ++ [tk])) i = true) :
    c.lockoutMS + c.debounceMS ≤ tk.millis - env1.millis := by
  have hiW := lt_of_lt_of_le hi hN
  obtain ⟨htr, hv⟩ := view_changed c env1 s0 hi hN hW hlen (hov env1 (by simp)).2 hchg1
  have hlv := lv_eq c hL
  have hdv := dv_eq c hD
  obtain ⟨tp, ch, ⟨hp0, hp1, hp2⟩, _, h1, _, _, hlast⟩ := view_last c hi hN hW
    (fun t ch => env1.millis ≤ t ∧
      (ch.lock = true → c.lockoutMS ≤ ch.timer + (t - env1.millis)) ∧
      (ch.lock = false →
        c.lockoutMS + c.debounceMS ≤ ch.timer + (t - env1.millis) ∧
        ch.timer ≤ c.debounceMS))
    (fun _ => True)
    (by
      intro t ch env _ hle ⟨h0, hj⟩
      rw [hdv, hlv]
      obtain ⟨s1, s2, _⟩ := chanStep_spacing c.debounceMS c.lockoutMS env1.millis t env.millis
        (env.digitalRead i) ch h0 hle hj
      exact ⟨le_trans h0 hle, s1, s2⟩)
    pre tk env1.millis (update c env1 s0) htr
    (by
      rw [hv, hlv]
      exact ⟨le_refl _, fun _ => by dsimp only; omega, fun h => Bool.noConfusion h⟩)
    (fun _ _ => trivial) (fun e he => hov e (List.mem_cons_of_mem _ he)) hmono
  rw [hdv, hlv] at hlast
  obtain ⟨_, _, s3⟩ := chanStep_spacing c.debounceMS c.lockoutMS env1.millis tp tk.millis
    (tk.digitalRead i) ch hp0 h1 ⟨hp1, hp2⟩
  apply s3
  rw [← hlast, viewAt_change, ← change_eq c _ hiW]
  exact hchg2

/-- Witness for `event_spacing`: wide variant, `debounceMS = 20`, `lockoutMS = 50`; channel 0
changes at reading 30, is unlocked at reading 80 and changes back at reading 100. -/
theorem event_spacing_witness :
    change ⟨8, 2, 20, 50, 32⟩
      (run ⟨8, 2, 20, 50, 32⟩
        (update ⟨8, 2, 20, 50, 32⟩ ⟨30, fun _ => true⟩ ⟨0, [20, 20], 0, 0, 0⟩)
        ([⟨80, fun _ => false⟩] ++ [⟨100, fun _ => false⟩])) 0 = true ∧
    (⟨8, 2, 20, 50, 32⟩ : Config).lockoutMS + (⟨8, 2, 20, 50, 32⟩ : Config).debounceMS
      ≤ 100 - 30 :=
  ⟨by decide,
   event_spacing ⟨8, 2, 20, 50, 32⟩ 0 ⟨0, [20, 20], 0, 0, 0⟩ ⟨30, fun _ => true⟩
      [⟨80, fun _ => false⟩] ⟨100, fun _ => false⟩ (by decide) (by decide) (by decide)
      (by decide) (by decide) rfl (by decide) (by decide) (by decide) (by decide)⟩


/-! ## The narrow variant and the clock (C12, C13) -/

theorem sub32_self (a : Nat) : sub32 a a = 0 := by
  unfold sub32
  omega

/-- The clamped elapsed time is `min(diff, TIMING_MAX)` for the 32-bit difference `diff`. -/
theorem elapsed_eq_min (c : Config) (m now : Nat) :
    elapsed c m now = min (sub32 now m) c.timingMax := by
  unfold elapsed
  by_cases h : now = m
  · subst h
    simp [sub32_self]
  · simp only [ne_eq, h, not_false_eq_true, if_true]
    split_ifs <;> omega

theorem ts_setNow (s : State) (x k : Nat) : ({ s with m_now := x } : State).ts k = s.ts k := rfl

theorem narrowDecrement_setNow (tdiff : Nat) (s : State) (k x : Nat) :
    narrowDecrement tdiff { s with m_now := x } k
      = { narrowDecrement tdiff s k with m_now := x } := by
  unfold narrowDecrement
  rw [ts_setNow]
  split_ifs <;> rfl

theorem narrowLock_setNow (c : Config) (s : State) (k x : Nat) :
    narrowLock c { s with m_now := x } k
      = ({ (narrowLock c s k).1 with m_now := x }, (narrowLock c s k).2) := by
  have hl : ({ s with m_now := x } : State).locked c k = s.locked c k := rfl
  unfold narrowLock
  rw [ts_setNow, hl]
  split_ifs <;> rfl

theorem narrowLevel_setNow (c : Config) (env : Tick) (s : State) (k x : Nat) :
    narrowLevel c env { s with m_now := x } k = { narrowLevel c env s k with m_now := x } := by
  have hl : ({ s with m_now := x } : State).level c k = s.level c k := rfl
  unfold narrowLevel
  rw [ts_setNow, hl]
  split_ifs <;> rfl

theorem narrowChannel_setNow (c : Config) (tdiff : Nat) (env : Tick) (s : State) (k x : Nat) :
    narrowChannel c tdiff env { s with m_now := x } k
      = { narrowChannel c tdiff env s k with m_now := x } := by
  unfold narrowChannel
  rw [narrowDecrement_setNow, narrowLock_setNow]
  dsimp only
  split_ifs
  · rfl
  · rw [narrowLevel_setNow]

theorem foldl_narrowChannel_setNow (c : Config) (tdiff : Nat) (env : Tick) (x : Nat)
    (l : List Nat) :
    ∀ s : State, l.foldl (narrowChannel c tdiff env) { s with m_now := x }
      = { l.foldl (narrowChannel c tdiff env) s with m_now := x } := by
  induction l with
  | nil => intro s; rfl
  | cons k l ih => intro s; rw [List.foldl_cons, List.foldl_cons, narrowChannel_setNow, ih]

theorem narrowChannel_env (c : Config) (tdiff : Nat) (e1 e2 : Tick)
    (h : e1.digitalRead = e2.digitalRead) :
    narrowChannel c tdiff e1 = narrowChannel c tdiff e2 := by
  funext s k
  unfold narrowChannel narrowLevel
  rw [h]

/-- The narrow `update()` uses the clock only through the clamped elapsed time: the result is
the loop run on the object with `m_change` zeroed, with `m_now` set to the new reading. -/
theorem updateNarrow_shape (c : Config) (env : Tick) (s : State) :
    updateNarrow c env s
      = { applyChange c ((List.range c.N).foldl
            (narrowChannel c (elapsed c s.m_now env.millis) env)
            { s with m_change := 0, m_now := 0 })
          with m_now := env.millis } := by
  have hstart : narrowStart env s = { s with m_change := 0, m_now := env.millis } := by
    unfold narrowStart
    dsimp only
    split_ifs with h
    · rfl
    · have : env.millis = s.m_now := not_not.mp h
      rw [this]
  have hsplit : ({ s with m_change := 0, m_now := env.millis } : State)
      = { ({ s with m_change := 0, m_now := 0 } : State) with m_now := env.millis } := rfl
  rw [updateNarrow_eq, hstart, hsplit, foldl_narrowChannel_setNow]
  rfl

theorem foldl_narrowChannel_length (c : Config) (tdiff : Nat) (env : Tick) (l : List Nat) :
    ∀ s : State, (l.foldl (narrowChannel c tdiff env) s).timestamp.length
      = s.timestamp.length := by
  induction l with
  | nil => intro s; rfl
  | cons k l ih => intro s; rw [List.foldl_cons, ih, narrowChannel_length]

theorem foldl_narrowChannel_ts_later (c : Config) (tdiff : Nat) (env : Tick) (i : Nat) :
    ∀ n, n ≤ i → ∀ s : State,
      ((List.range n).foldl (narrowChannel c tdiff env) s).ts i = s.ts i := by
  intro n
  induction n with
  | zero => intro _ s; rfl
  | succ n ih =>
    intro hn s
    rw [List.range_succ, List.foldl_append]
    simp only [List.foldl_cons, List.foldl_nil]
    rw [narrowChannel_ts_other _ _ _ _ (by omega), ih (by omega)]

/-- At the entry of iteration `i` of the narrow loop the timer of channel `i` is still the one
the call started with. -/
theorem loopEntry_narrow (c : Config) (env : Tick) (s : State) (i : Nat)
    (hn : c.narrow = true) :
    (loopEntry c env s i).ts i = s.ts i ∧
    (loopEntry c env s i).timestamp.length = s.timestamp.length := by
  have hstart : (narrowStart env s).ts i = s.ts i ∧
      (narrowStart env s).timestamp.length = s.timestamp.length := by
    unfold narrowStart
    dsimp only
    split_ifs <;> exact ⟨rfl, rfl⟩
  unfold loopEntry
  simp only [hn, if_true]
  rw [foldl_narrowChannel_ts_later c _ env i i (le_refl _), foldl_narrowChannel_length]
  exact hstart

/-- What the narrow `update()` does to channel `i`, for a clock reading with clamped elapsed
time `td = min(diff, TIMING_MAX)`: the whole channel is the phase logic run on the timer
`timer - td` cut off at 0. -/
theorem update_narrow_timer (c : Config) (env : Tick) (s : State) {i : Nat}
    (hn : c.narrow = true) (hi : i < c.N) (hN : c.N ≤ c.W) (hW : c.W ≤ 32)
    (hlen : s.timestamp.length = c.N) :
    chanOf (update c env s) i
      = chanNarrow c (min (sub32 env.millis s.m_now) c.timingMax) (env.digitalRead i)
          (chanOf s i) ∧
    (s.locked c i = true → s.ts i - min (sub32 env.millis s.m_now) c.timingMax ≠ 0 →
      (update c env s).ts i = s.ts i - min (sub32 env.millis s.m_now) c.timingMax ∧
      (update c env s).locked c i = true ∧ change c (update c env s) i = false) ∧
    (s.locked c i = false → env.digitalRead i = !(read c s i) →
      s.ts i - min (sub32 env.millis s.m_now) c.timingMax ≠ 0 →
      (update c env s).ts i = s.ts i - min (sub32 env.millis s.m_now) c.timingMax ∧
      (update c env s).locked c i = false ∧ change c (update c env s) i = false) ∧
    (s.locked c i = false → env.digitalRead i = !(read c s i) →
      s.ts i - min (sub32 env.millis s.m_now) c.timingMax = 0 →
      (update c env s).ts i = c.toTiming c.lockoutMS ∧
      (update c env s).locked c i = true ∧ change c (update c env s) i = true) ∧
    (s.locked c i = true → env.digitalRead i = read c s i →
      s.ts i - min (sub32 env.millis s.m_now) c.timingMax = 0 →
      (update c env s).ts i = c.toTiming c.debounceMS ∧
      (update c env s).locked c i = false ∧ change c (update c env s) i = false) := by
  have hiW := lt_of_lt_of_le hi hN
  have hi32 := lt_of_lt_of_le hiW hW
  have hu : update c env s = updateNarrow c env s := by simp [update, hn]
  have hch : chanOf (update c env s) i
      = chanStep (c.toTiming c.debounceMS) (c.toTiming c.lockoutMS)
          (min (sub32 env.millis s.m_now) c.timingMax) (env.digitalRead i) (chanOf s i) := by
    rw [hu, (chanOf_updateNarrow c env s hi hN hW hlen).2, elapsed_eq_min]
    rfl
  have hts : ∀ x : State, x.ts i = (chanOf x i).timer := fun _ => rfl
  have hlk : ∀ x : State, x.locked c i = (chanOf x i).lock := fun x => locked_eq x hW hi32
  have hrd : ∀ x : State, read c x i = (chanOf x i).state := fun x => read_eq c x hiW
  have hcg : ∀ x : State, change c x i = (chanOf x i).change := fun x => change_eq c x hiW
  refine ⟨hch, ?_, ?_, ?_, ?_⟩
  · intro h1 h2
    rw [hlk] at h1
    rw [hts] at h2
    rw [hts, hlk, hcg, hch, chanStep_locked _ _ _ _ _ h1 h2]
    exact ⟨rfl, rfl, rfl⟩
  · intro h1 hr h2
    rw [hlk] at h1
    rw [hrd] at hr
    rw [hts] at h2
    rw [hts, hlk, hcg, hch, chanStep_watch _ _ _ _ _ h1 h2 hr]
    exact ⟨rfl, rfl, rfl⟩
  · intro h1 hr h2
    rw [hlk] at h1
    rw [hrd] at hr
    rw [hts] at h2
    rw [hts, hlk, hcg, hch, chanStep_fire _ _ _ _ _ h1 h2 hr]
    exact ⟨rfl, rfl, rfl⟩
  · intro _ hr h2
    rw [hrd] at hr
    rw [hts] at h2
    rw [hts, hlk, hcg, hch, chanStep_agree _ _ _ _ _ (Or.inr h2) hr]
    exact ⟨rfl, rfl, rfl⟩

/-- C12 (saturating timer, narrow variant).  For every object (any stored `m_now`) and every
clock reading, with `diff = (now - m_now) mod 2^32` and `td = min(diff, TIMING_MAX)`:
* the elapsed time used by `update()` is `td`;
* in iteration `i` the lock-out block (the phase logic) works on the timer `timer - td` cut
  off at 0, never more than the old timer;
* `update()` itself, on every channel `i < N ≤ W ≤ 32`, is the phase logic run on the timer
  `timer - td` cut off at 0: a locked channel whose `timer - td` is not 0 stays locked with
  timer `timer - td`; an unlocked channel whose level differs keeps `timer - td` while that is
  not 0 and reports the change (timer = `lockoutMS`) once it is 0; a locked channel whose
  `timer - td` is 0 and whose level agrees is unlocked with timer `debounceMS`;
* two calls with the same raw levels, one with `diff > TIMING_MAX` and one with
  `diff = TIMING_MAX`, leave the same state, change and lock masks and the same timers;
* a channel (`i < N ≤ W ≤ 32`) whose raw level equals its state bit reports no change,
  whatever `diff` is. -/
theorem saturating_timer (c : Config) (env : Tick) (s : State) (hn : c.narrow = true)
    (hlen : s.timestamp.length = c.N) :
    elapsed c s.m_now env.millis = min (sub32 env.millis s.m_now) c.timingMax ∧
    (∀ i, i < c.N →
      lockBlock c env s i
        = narrowLock c (narrowDecrement (min (sub32 env.millis s.m_now) c.timingMax)
            (loopEntry c env s i) i) i ∧
      (narrowDecrement (min (sub32 env.millis s.m_now) c.timingMax)
          (loopEntry c env s i) i).ts i
        = s.ts i - min (sub32 env.millis s.m_now) c.timingMax ∧
      (narrowDecrement (min (sub32 env.millis s.m_now) c.timingMax)
          (loopEntry c env s i) i).ts i ≤ s.ts i) ∧
    (∀ i, i < c.N → c.N ≤ c.W → c.W ≤ 32 →
      chanOf (update c env s) i
        = chanNarrow c (min (sub32 env.millis s.m_now) c.timingMax) (env.digitalRead i)
            (chanOf s i) ∧
      (s.locked c i = true → s.ts i - min (sub32 env.millis s.m_now) c.timingMax ≠ 0 →
        (update c env s).ts i = s.ts i - min (sub32 env.millis s.m_now) c.timingMax ∧
        (update c env s).locked c i = true ∧ change c (update c env s) i = false) ∧
      (s.locked c i = false → env.digitalRead i = !(read c s i) →
        s.ts i - min (sub32 env.millis s.m_now) c.timingMax ≠ 0 →
        (update c env s).ts i = s.ts i - min (sub32 env.millis s.m_now) c.timingMax ∧
        (update c env s).locked c i = false ∧ change c (update c env s) i = false) ∧
      (s.locked c i = false → env.digitalRead i = !(read c s i) →
        s.ts i - min (sub32 env.millis s.m_now) c.timingMax = 0 →
        (update c env s).ts i = c.toTiming c.lockoutMS ∧
        (update c env s).locked c i = true ∧ change c (update c env s) i = true) ∧
      (s.locked c i = true → env.digitalRead i = read c s i →
        s.ts i - min (sub32 env.millis s.m_now) c.timingMax = 0 →
        (update c env s).ts i = c.toTiming c.debounceMS ∧
        (update c env s).locked c i = false ∧ change c (update c env s) i = false)) ∧
    (∀ env1 env2 : Tick, env1.digitalRead = env2.digitalRead →
      c.timingMax < sub32 env1.millis s.m_now → sub32 env2.millis s.m_now = c.timingMax →
      (update c env1 s).m_state = (update c env2 s).m_state ∧
      (update c env1 s).m_change = (update c env2 s).m_change ∧
      (update c env1 s).m_lock = (update c env2 s).m_lock ∧
      (update c env1 s).timestamp = (update c env2 s).timestamp) ∧
    (∀ i, i < c.N → c.N ≤ c.W → c.W ≤ 32 → env.digitalRead i = read c s i →
      change c (update c env s) i = false) := by
  have hel := elapsed_eq_min c s.m_now env.millis
  refine ⟨hel, fun i hi => ?_, fun i hi hN hW => update_narrow_timer c env s hn hi hN hW hlen,
    fun env1 env2 hraw h1 h2 => ?_, fun i hi hN hW hr => ?_⟩
  · obtain ⟨e1, e2⟩ := loopEntry_narrow c env s i hn
    have hd := narrowDecrement_ts (min (sub32 env.millis s.m_now) c.timingMax)
      (loopEntry c env s i) i i (by rw [e2, hlen]; exact hi)
    simp only [if_true] at hd
    rw [e1] at hd
    refine ⟨?_, hd, by rw [hd]; exact Nat.sub_le _ _⟩
    unfold lockBlock
    simp only [hn, if_true]
    rw [hel]
  · have hu : ∀ e : Tick, update c e s = updateNarrow c e s := fun e => by simp [update, hn]
    have t1 : elapsed c s.m_now env1.millis = c.timingMax := by
      rw [elapsed_eq_min]; omega
    have t2 : elapsed c s.m_now env2.millis = c.timingMax := by
      rw [elapsed_eq_min]; omega
    rw [hu, hu, updateNarrow_shape, updateNarrow_shape, t1, t2,
      narrowChannel_env c c.timingMax env1 env2 hraw]
    exact ⟨rfl, rfl, rfl, rfl⟩
  · exact ((update_observed c env s hi hN hW hlen).2.2.1 hr).1

/-- Witness for `saturating_timer`: 8-bit counters, `lockoutMS = 50`; channel 0 is locked with
50 ms to wait at reading 10.  A call at reading 40 leaves it locked with 20 ms to wait. -/
theorem saturating_timer_witness :
    ((⟨8, 2, 20, 50, 8⟩ : Config).narrow = true ∧
      (⟨10, [50, 20], 1, 0, 1⟩ : State).locked ⟨8, 2, 20, 50, 8⟩ 0 = true) ∧
    (update ⟨8, 2, 20, 50, 8⟩ ⟨40, fun _ => false⟩ ⟨10, [50, 20], 1, 0, 1⟩).ts 0 = 20 ∧
    (update ⟨8, 2, 20, 50, 8⟩ ⟨40, fun _ => false⟩ ⟨10, [50, 20], 1, 0, 1⟩).locked
      ⟨8, 2, 20, 50, 8⟩ 0 = true ∧
    change ⟨8, 2, 20, 50, 8⟩
      (update ⟨8, 2, 20, 50, 8⟩ ⟨40, fun _ => false⟩ ⟨10, [50, 20], 1, 0, 1⟩) 0 = false :=
  ⟨⟨rfl, by decide⟩,
   ((saturating_timer ⟨8, 2, 20, 50, 8⟩ ⟨40, fun _ => false⟩ ⟨10, [50, 20], 1, 0, 1⟩
      rfl rfl).2.2.1 0 (by decide) (by decide) (by decide)).2.1 (by decide) (by decide)⟩

/-! ### Clock wraparound, narrow variant (C13) -/

theorem add32_lt (a k : Nat) : add32 a k < 2 ^ 32 := Nat.mod_lt _ (by norm_num)

theorem sub32_shift (a b k : Nat) (ha : a < 2 ^ 32) (hb : b < 2 ^ 32) :
    sub32 (add32 a k) (add32 b k) = sub32 a b := by
  unfold sub32 add32
  omega

theorem elapsed_shift (c : Config) (m now k : Nat) (hm : m < 2 ^ 32) (hnow : now < 2 ^ 32) :
    elapsed c (add32 m k) (add32 now k) = elapsed c m now := by
  rw [elapsed_eq_min, elapsed_eq_min, sub32_shift now m k hnow hm]

/-- One narrow `update()` with the clock shifted by `k`. -/
theorem update_shift (c : Config) (hn : c.narrow = true) (k : Nat) (e : Tick) (a : State)
    (ha : a.m_now < 2 ^ 32) (he : e.millis < 2 ^ 32) :
    update c (shiftTick k e) { a with m_now := add32 a.m_now k }
      = { update c e a with m_now := add32 (update c e a).m_now k } := by
  have hu : ∀ (x : Tick) (s : State), update c x s = updateNarrow c x s := fun x s => by
    simp [update, hn]
  rw [hu, hu, updateNarrow_shape, updateNarrow_shape]
  have h1 : (shiftTick k e).millis = add32 e.millis k := rfl
  have h2 : ({ a with m_now := add32 a.m_now k } : State).m_now = add32 a.m_now k := rfl
  rw [h1, h2, elapsed_shift c _ _ k ha he,
    narrowChannel_env c (elapsed c a.m_now e.millis) (shiftTick k e) e rfl]

/-- `setup()` of the narrow variant with the clock shifted by `k`. -/
theorem setup_shift (c : Config) (hn : c.narrow = true) (k : Nat) (e : Tick) (s : State) :
    setup c (shiftTick k e) s
      = { setup c e s with m_now := add32 (setup c e s).m_now k } := by
  have hch : ∀ (t : Nat) (x : State) (j y : Nat),
      setupChannel c t (shiftTick k e) { x with m_now := y } j
        = { setupChannel c t e x j with m_now := y } := by
    intro t x j y
    unfold setupChannel shiftTick
    dsimp only
    split_ifs <;> rfl
  have hfold : ∀ (t : Nat) (l : List Nat) (x : State) (y : Nat),
      l.foldl (setupChannel c t (shiftTick k e)) { x with m_now := y }
        = { l.foldl (setupChannel c t e) x with m_now := y } := by
    intro t l
    induction l with
    | nil => intro x y; rfl
    | cons j l ih => intro x y; rw [List.foldl_cons, List.foldl_cons, hch, ih]
  have hm := setup_m_now c e s hn
  rw [hm]
  unfold setup
  simp only [hn, if_true]
  have h1 : (shiftTick k e).millis = add32 e.millis k := rfl
  rw [h1]
  have h2 : ({ s with m_now := add32 e.millis k } : State)
      = { ({ s with m_now := e.millis } : State) with m_now := add32 e.millis k } := rfl
  rw [h2, hfold]

/-- C13 (clock wraparound tolerance of the narrow variant): for every constant `k`, adding
`k` modulo `2^32` to the clock reading of `setup()` and of every `update()` changes nothing
but the stored `m_now` (which is shifted likewise): the state, change and lock masks and all
channel timers are the same after `setup()` (empty list) and after every `update()`, for
every sequence of 32-bit clock readings (decreasing or wrapping ones included) and raw
levels. -/
theorem narrow_clock_shift (c : Config) (k : Nat) (env0 : Tick) (mem : State)
    (ticks : List Tick) (hn : c.narrow = true)
    (hclock : ∀ e ∈ env0 :: ticks, e.millis < 2 ^ 32) :
    (run c (setup c (shiftTick k env0) (construct mem)) (ticks.map (shiftTick k))).m_state
      = (run c (setup c env0 (construct mem)) ticks).m_state ∧
    (run c (setup c (shiftTick k env0) (construct mem)) (ticks.map (shiftTick k))).m_change
      = (run c (setup c env0 (construct mem)) ticks).m_change ∧
    (run c (setup c (shiftTick k env0) (construct mem)) (ticks.map (shiftTick k))).m_lock
      = (run c (setup c env0 (construct mem)) ticks).m_lock ∧
    (run c (setup c (shiftTick k env0) (construct mem)) (ticks.map (shiftTick k))).timestamp
      = (run c (setup c env0 (construct mem)) ticks).timestamp ∧
    (run c (setup c (shiftTick k env0) (construct mem)) (ticks.map (shiftTick k))).m_now
      = add32 (run c (setup c env0 (construct mem)) ticks).m_now k := by
  have gen : ∀ (l : List Tick) (a : State), a.m_now < 2 ^ 32 → (∀ e ∈ l, e.millis < 2 ^ 32) →
      run c { a with m_now := add32 a.m_now k } (l.map (shiftTick k))
        = { run c a l with m_now := add32 (run c a l).m_now k } := by
    intro l
    induction l with
    | nil => intro a _ _; rfl
    | cons e l ih =>
      intro a ha hl
      have he := hl e (List.mem_cons_self _ _)
      rw [List.map_cons, run_cons, run_cons, update_shift c hn k e a ha he]
      exact ih _ (by rw [update_m_now c e a hn]; exact he)
        (fun x hx => hl x (List.mem_cons_of_mem _ hx))
  have h0 := hclock env0 (List.mem_cons_self _ _)
  have key := gen ticks (setup c env0 (construct mem))
    (by rw [setup_m_now c env0 _ hn]; exact h0)
    (fun x hx => hclock x (List.mem_cons_of_mem _ hx))
  rw [setup_shift c hn k env0, key]
  exact ⟨rfl, rfl, rfl, rfl, rfl⟩

/-- Witness for `narrow_clock_shift`: 8-bit counters; the shift by `2^32 - 3` makes the clock
wrap between the first and the second call. -/
theorem narrow_clock_shift_witness :
    ((⟨8, 2, 20, 50, 8⟩ : Config).narrow = true) ∧
    (run ⟨8, 2, 20, 50, 8⟩
        (setup ⟨8, 2, 20, 50, 8⟩ (shiftTick 4294967293 ⟨0, fun _ => false⟩)
          (construct ⟨0, [0, 0], 0, 0, 0⟩))
        ([⟨2, fun _ => true⟩, ⟨22, fun _ => true⟩].map (shiftTick 4294967293))).m_state
      = (run ⟨8, 2, 20, 50, 8⟩
          (setup ⟨8, 2, 20, 50, 8⟩ ⟨0, fun _ => false⟩ (construct ⟨0, [0, 0], 0, 0, 0⟩))
          [⟨2, fun _ => true⟩, ⟨22, fun _ => true⟩]).m_state :=
  ⟨rfl,
   (narrow_clock_shift ⟨8, 2, 20, 50, 8⟩ 4294967293 ⟨0, fun _ => false⟩ ⟨0, [0, 0], 0, 0, 0⟩
      [⟨2, fun _ => true⟩, ⟨22, fun _ => true⟩] rfl (by decide)).1⟩


/-! ## A 64-bit bitmask (C11) -/

set_option maxRecDepth 100000 in
/-- C11 evaluated on the code: with `bitmask_t = uint64_t` and `N = 64`, `setup()` with only
channel 31 high stores `(int)(1 << 31)`, sign-extended to 64 bits, into the state mask: bits
31 to 63 are all set, so `read(40)` is true although channel 40 reads low.  Likewise
`update()` (here with `N = 32`, so that no shift count reaches 32) sets bits 31 to 63 of the
change, state and lock masks when only channel 31 changes. -/
theorem int_shift_on_64_bit_mask :
    (setup ⟨64, 64, 20, 50, 32⟩ ⟨0, fun i => decide (i = 31)⟩
        (construct ⟨0, List.replicate 64 0, 0, 0, 0⟩)).m_state = 0xFFFFFFFF80000000 ∧
    read ⟨64, 64, 20, 50, 32⟩
      (setup ⟨64, 64, 20, 50, 32⟩ ⟨0, fun i => decide (i = 31)⟩
        (construct ⟨0, List.replicate 64 0, 0, 0, 0⟩)) 40 = true ∧
    (update ⟨64, 32, 20, 50, 32⟩ ⟨100, fun i => decide (i = 31)⟩
        ⟨0, List.replicate 32 0, 0, 0, 0⟩).m_change = 0xFFFFFFFF80000000 ∧
    change ⟨64, 32, 20, 50, 32⟩
      (update ⟨64, 32, 20, 50, 32⟩ ⟨100, fun i => decide (i = 31)⟩
        ⟨0, List.replicate 32 0, 0, 0, 0⟩) 40 = true ∧
    (update ⟨64, 32, 20, 50, 32⟩ ⟨100, fun i => decide (i = 31)⟩
        ⟨0, List.replicate 32 0, 0, 0, 0⟩).m_lock = 0xFFFFFFFF80000000 := by
  decide

/-! ## Clock wraparound, wide variant (C14) -/

/-- C14 evaluated on the code: wide variant, `debounceMS = 20`.  `setup()` at clock 0 with
channel 0 low and an `update()` at clock 5 with channel 0 high reports no change; the same run
with `2^32 - 10` added to both readings modulo `2^32` (`setup()` at `2^32 - 10`, whose
deadline wraps to 10, `update()` at `2^32 - 5`) reports `change(0)` after 5 ms. -/
theorem wide_clock_shift_differs :
    change ⟨8, 2, 20, 50, 32⟩
      (run ⟨8, 2, 20, 50, 32⟩
        (setup ⟨8, 2, 20, 50, 32⟩ ⟨0, fun _ => false⟩ (construct ⟨0, [0, 0], 0, 0, 0⟩))
        [⟨5, fun _ => true⟩]) 0 = false ∧
    (shiftTick 4294967286 ⟨0, fun _ => false⟩).millis = 4294967286 ∧
    (shiftTick 4294967286 ⟨5, fun _ => true⟩).millis = 4294967291 ∧
    change ⟨8, 2, 20, 50, 32⟩
      (run ⟨8, 2, 20, 50, 32⟩
        (setup ⟨8, 2, 20, 50, 32⟩ (shiftTick 4294967286 ⟨0, fun _ => false⟩)
          (construct ⟨0, [0, 0], 0, 0, 0⟩))
        ([⟨5, fun _ => true⟩].map (shiftTick 4294967286))) 0 = true := by
  decide

end DBounce
